import Mathlib

/-!
Verification of the memoized backtracking regex engine (src-simple).

The development shallowly embeds the C sources:
  rle-array.c   : run-length-encoded bit vector
  main.c        : inline-input escape processing
  compile.c     : AST -> instruction compiler, epsilon-closure loop check
  backtrack.c   : backtracking VM with visit counting and memoization

Machine integers are modelled as Nat (values in this code are small,
non-negative array indices, counts and byte values).  C strings are
modelled as lists of non-zero bytes with the terminating NUL read as 0.
-/

namespace MRE

/-! ## RLE bit-vector (rle-array.c)

`struct RLEVector` holds `currNumOfRuns`, `maxNumOfRuns`, `nBitsInRun`,
`size` and the `compressed` array.  Only the first `currNumOfRuns` entries
of `compressed` are ever read (by get, decode, print, currSize), so the
model keeps exactly the active runs as a list; `currNumOfRuns` is its
length. -/

structure RLEData where
  value : Nat
  count : Nat
deriving Repr, DecidableEq

structure RLEVector where
  compressed : List RLEData
  maxNumOfRuns : Nat
  nBitsInRun : Nat
  size : Nat
deriving Repr, DecidableEq

/-- `RLEVector_create(size, runLength)` from rle-array.c.  It sets
`currNumOfRuns = 0`, so no run is active; it also writes the pair
`(0, size / runLength)` into `compressed[0]`, but that entry is dead
(every reader walks only the first `currNumOfRuns` entries), so the model
keeps the active-run list empty. -/
def RLEVector_create (size runLength : Nat) : RLEVector :=
  { compressed := [], maxNumOfRuns := 0, nBitsInRun := runLength, size := size }

/-- The run walk of `RLEVector_get`: the C code accumulates
`total_count += count * k` and, on the first run with `index < total_count`,
returns bit `k - 1 - (index % k)` of that run's value.  Subtracting
`count * k` from the index at each step is the same walk
(`(index - count*k) % k = index % k` for the indices that reach the later
runs). -/
def RLEVector_getAux (k : Nat) (runs : List RLEData) (index : Nat) : Nat :=
  match runs with
  | [] => 0
  | r :: rest =>
    if index < r.count * k then (r.value >>> (k - 1 - index % k)) % 2
    else RLEVector_getAux k rest (index - r.count * k)

/-- `RLEVector_get(vec, index)`: walk the runs; if the index is past every
active run, return 0. -/
def RLEVector_get (vec : RLEVector) (index : Nat) : Nat :=
  RLEVector_getAux vec.nBitsInRun vec.compressed index

/-- The k-bit group value starting at position `i` of the dense array:
`for (j = 0; j < k && i + j < n; j++) value = (value << 1) | decoded[i+j]`.
The dense arrays this code touches hold only bits 0/1, for which
`(value << 1) | b = 2 * value + b`. -/
def valAt (k : Nat) (d : List Nat) (i : Nat) : Nat :=
  ((d.drop i).take k).foldl (fun a b => 2 * a + b) 0

/-- The inner while-loop of `encode_rle`: starting from group `i`, count how
many following groups equal `v`; returns (extra count, final group start).
`while (i + k < n) { next = valAt(i+k); if (value != next) break;
count++; i += k; }`.  Fuel-driven; `d.length` fuel suffices for `k ≥ 1`. -/
def absorbRun (k : Nat) (d : List Nat) (v : Nat) : Nat → Nat → Nat × Nat
  | 0, i => (0, i)
  | fuel + 1, i =>
    if i + k < d.length ∧ valAt k d (i + k) = v then
      let p := absorbRun k d v fuel (i + k)
      (p.1 + 1, p.2)
    else (0, i)

/-- The outer while-loop of `encode_rle`: `while (i < n)` form a run from
group `i`, then continue after the groups the run absorbed. -/
def encodeFrom (k : Nat) (d : List Nat) : Nat → Nat → List RLEData
  | 0, _ => []
  | fuel + 1, i =>
    if i < d.length then
      let v := valAt k d i
      let p := absorbRun k d v d.length i
      { value := v, count := p.1 + 1 } :: encodeFrom k d fuel (p.2 + k)
    else []

/-- `encode_rle(vec, decoded)`: rebuild the run list from the dense array
and update the high-water mark `maxNumOfRuns`. -/
def encode_rle (vec : RLEVector) (decoded : List Nat) : RLEVector :=
  let newRLE := encodeFrom vec.nBitsInRun decoded (decoded.length + 1) 0
  { vec with compressed := newRLE,
             maxNumOfRuns := max vec.maxNumOfRuns newRLE.length }

/-- The k bits of a run value, most significant first:
`for (bit = k-1; bit >= 0; bit--) (value >> bit) & 1`. -/
def bitsOfVal (k v : Nat) : List Nat :=
  (List.range k).map (fun j => (v >>> (k - 1 - j)) % 2)

/-- `decode_rle(vec, decoded)`: expand each run into `count` copies of its
k bits, writing at most `size` entries. -/
def decode_rle (vec : RLEVector) : List Nat :=
  (vec.compressed.flatMap
    (fun r => (List.replicate r.count (bitsOfVal vec.nBitsInRun r.value)).flatten)).take
    vec.size

/-- `RLEVector_set(vec, index)`: decode into a dense array of `size` ints,
set bit `index`, re-encode.  `decode_rle` writes only as many entries as
the runs cover; the C code leaves the rest of the freshly malloc'd array
uninitialized, modelled here as the zeros such a fresh allocation holds in
practice. -/
def RLEVector_set (vec : RLEVector) (index : Nat) : RLEVector :=
  let decoded := decode_rle vec
  let padded := decoded ++ List.replicate (vec.size - decoded.length) 0
  encode_rle vec (padded.set index 1)

def RLEVector_currSize (vec : RLEVector) : Nat := vec.compressed.length

def RLEVector_maxObservedSize (vec : RLEVector) : Nat := vec.maxNumOfRuns

/-- A sequence of `RLEVector_set` calls. -/
def applySets (vec : RLEVector) (l : List Nat) : RLEVector :=
  l.foldl RLEVector_set vec

/-- Sum of the run counts of a run list. -/
def sumCounts (runs : List RLEData) : Nat := (runs.map RLEData.count).sum

/-- MSB-first packing of a bit list, the accumulator form used by `valAt`. -/
def packBits (bs : List Nat) : Nat := bs.foldl (fun a b => 2 * a + b) 0

/-- Every entry of the list is a bit. -/
def boolList (d : List Nat) : Prop := ∀ b ∈ d, b ≤ 1

theorem valAt_eq_packBits (k : Nat) (d : List Nat) (i : Nat) :
    valAt k d i = packBits ((d.drop i).take k) := rfl

theorem packBits_foldl_acc (bs : List Nat) (a : Nat) :
    bs.foldl (fun x b => 2 * x + b) a = a * 2 ^ bs.length + packBits bs := by
  induction bs generalizing a with
  | nil => simp [packBits]
  | cons b t ih =>
    simp only [List.foldl_cons, List.length_cons, packBits]
    rw [ih (2 * a + b), ih (2 * 0 + b)]
    ring

theorem packBits_cons (b : Nat) (t : List Nat) :
    packBits (b :: t) = b * 2 ^ t.length + packBits t := by
  have h := packBits_foldl_acc t b
  simp only [packBits, List.foldl_cons, Nat.mul_zero, Nat.zero_add]
  exact h

theorem packBits_lt (bs : List Nat) (hb : boolList bs) :
    packBits bs < 2 ^ bs.length := by
  induction bs with
  | nil => simp [packBits]
  | cons b t ih =>
    have hbt : boolList t := fun x hx => hb x (List.mem_cons_of_mem _ hx)
    have hble : b ≤ 1 := hb b (List.mem_cons_self _ _)
    have ht := ih hbt
    rw [packBits_cons]
    have h1 : b * 2 ^ t.length ≤ 2 ^ t.length := by
      calc b * 2 ^ t.length ≤ 1 * 2 ^ t.length := Nat.mul_le_mul_right _ hble
        _ = 2 ^ t.length := Nat.one_mul _
    have h2 : 2 ^ (b :: t).length = 2 ^ t.length + 2 ^ t.length := by
      simp [List.length_cons, pow_succ]
      ring
    omega

/-- Extracting bit `length - 1 - r` of a packed bit list recovers entry `r`. -/
theorem packBits_extract (bs : List Nat) (r : Nat) (hb : boolList bs)
    (hr : r < bs.length) :
    packBits bs >>> (bs.length - 1 - r) % 2 = bs.getD r 0 := by
  induction bs generalizing r with
  | nil => simp at hr
  | cons b t ih =>
    have hbt : boolList t := fun x hx => hb x (List.mem_cons_of_mem _ hx)
    have hble : b ≤ 1 := hb b (List.mem_cons_self _ _)
    have hp := packBits_lt t hbt
    rw [packBits_cons]
    cases r with
    | zero =>
      have hlen : (b :: t).length - 1 - 0 = t.length := by simp
      rw [hlen, Nat.shiftRight_eq_div_pow]
      have hdiv : (b * 2 ^ t.length + packBits t) / 2 ^ t.length = b := by
        rw [Nat.add_comm,
          Nat.add_mul_div_right _ _ (by positivity : (0:ℕ) < 2 ^ t.length),
          Nat.div_eq_of_lt hp]
        omega
      rw [hdiv]
      simp only [List.getD_cons_zero]
      omega
    | succ r' =>
      have hr' : r' < t.length := by simpa using hr
      have hlen : (b :: t).length - 1 - (r' + 1) = t.length - 1 - r' := by
        simp only [List.length_cons]; omega
      rw [hlen, Nat.shiftRight_eq_div_pow]
      set s := t.length - 1 - r' with hs
      have hsplit : b * 2 ^ t.length = b * 2 ^ (r' + 1) * 2 ^ s := by
        rw [Nat.mul_assoc, ← pow_add]
        congr 2
        omega
      have hdiv : (b * 2 ^ t.length + packBits t) / 2 ^ s
          = b * 2 ^ (r' + 1) + packBits t / 2 ^ s := by
        rw [hsplit, Nat.add_comm,
          Nat.add_mul_div_right _ _ (by positivity : (0:ℕ) < 2 ^ s),
          Nat.add_comm]
      rw [hdiv]
      have heven : (b * 2 ^ (r' + 1) + packBits t / 2 ^ s) % 2
          = (packBits t / 2 ^ s) % 2 := by
        have hd : 2 ∣ b * 2 ^ (r' + 1) := ⟨b * 2 ^ r', by ring⟩
        omega
      rw [heven]
      have hih := ih r' hbt hr'
      rw [Nat.shiftRight_eq_div_pow] at hih
      rw [hih]
      simp

theorem absorbRun_spec (k : Nat) (d : List Nat) (v : Nat) :
    ∀ fuel i,
    (absorbRun k d v fuel i).2 = i + (absorbRun k d v fuel i).1 * k ∧
    (∀ m, 1 ≤ m → m ≤ (absorbRun k d v fuel i).1 → valAt k d (i + m * k) = v) ∧
    ((absorbRun k d v fuel i).1 = 0 ∨
      i + (absorbRun k d v fuel i).1 * k < d.length) := by
  intro fuel
  induction fuel with
  | zero =>
    intro i
    refine ⟨by simp [absorbRun], ?_, by simp [absorbRun]⟩
    intro m h1 h2
    simp [absorbRun] at h2
    omega
  | succ f ih =>
    intro i
    by_cases h : i + k < d.length ∧ valAt k d (i + k) = v
    · have ihh := ih (i + k)
      simp only [absorbRun, if_pos h]
      refine ⟨?_, ?_, ?_⟩
      · rw [ihh.1]
        ring
      · intro m hm1 hm2
        rcases Nat.lt_or_ge m 2 with hm | hm
        · have hm1' : m = 1 := by omega
          subst hm1'
          simpa using h.2
        · have h2 := ihh.2.1 (m - 1) (by omega) (by omega)
          have harg : i + k + (m - 1) * k = i + m * k := by
            have hone : m - 1 + 1 = m := by omega
            calc i + k + (m - 1) * k = i + ((m - 1) + 1) * k := by ring
              _ = i + m * k := by rw [hone]
          rw [← harg]
          exact h2
      · right
        rcases ihh.2.2 with h0 | hlt
        · rw [h0]
          simpa using h.1
        · have hexp : ((absorbRun k d v f (i + k)).1 + 1) * k
              = (absorbRun k d v f (i + k)).1 * k + k := by ring
          simp only [hexp]
          omega
    · simp only [absorbRun, if_neg h]
      refine ⟨by simp, ?_, by simp⟩
      intro m h1 h2
      simp at h2
      omega

theorem mul_div_le_self_left (k n : Nat) : k * (n / k) ≤ n := by
  rw [Nat.mul_comm]
  exact Nat.div_mul_le_self n k

/-- Entry `j` of the dense array, read through the packed value of the
complete k-bit group starting at `gs`. -/
theorem valAt_extract (k : Nat) (d : List Nat) (hd : boolList d)
    (gs j : Nat) (hgs : gs ≤ j) (hj : j < gs + k) (hcomp : gs + k ≤ d.length) :
    (valAt k d gs) >>> (k - 1 - (j - gs)) % 2 = d.getD j 0 := by
  have hlenbs : ((d.drop gs).take k).length = k := by
    simp only [List.length_take, List.length_drop]
    omega
  have hbbs : boolList ((d.drop gs).take k) := by
    intro b hb
    exact hd b (List.mem_of_mem_drop (List.mem_of_mem_take hb))
  have hr : j - gs < ((d.drop gs).take k).length := by omega
  have h := packBits_extract ((d.drop gs).take k) (j - gs) hbbs hr
  rw [hlenbs] at h
  rw [valAt_eq_packBits, h]
  have h1 : ((d.drop gs).take k).getD (j - gs) 0 = (d.drop gs).getD (j - gs) 0 := by
    rw [List.getD_eq_getElem?_getD, List.getD_eq_getElem?_getD,
      List.getElem?_take_of_lt (by omega : j - gs < k)]
  rw [h1, List.getD_eq_getElem?_getD, List.getElem?_drop,
    ← List.getD_eq_getElem?_getD]
  congr 1
  omega

/-- Core round trip: reading any index of a complete group out of the
freshly encoded run list returns the dense bit. -/
theorem getAux_encodeFrom (k : Nat) (d : List Nat) (hk : 1 ≤ k)
    (hd : boolList d) :
    ∀ fuel i j, d.length + 1 ≤ fuel + i → k ∣ i → i ≤ j →
    j < k * (d.length / k) →
    RLEVector_getAux k (encodeFrom k d fuel i) (j - i) = d.getD j 0 := by
  intro fuel
  induction fuel with
  | zero =>
    intro i j hfuel hdvd hij hj
    have := mul_div_le_self_left k d.length
    omega
  | succ f ih =>
    intro i j hfuel hdvd hij hj
    have hle : k * (d.length / k) ≤ d.length := mul_div_le_self_left k d.length
    have hilen : i < d.length := by omega
    simp only [encodeFrom, if_pos hilen]
    set v := valAt k d i with hv
    obtain ⟨habs1, habs2, habs3⟩ := absorbRun_spec k d v d.length i
    set e := (absorbRun k d v d.length i).1 with he
    rw [habs1]
    simp only [RLEVector_getAux]
    by_cases hcase : j - i < (e + 1) * k
    · rw [if_pos hcase]
      set g := (j - i) / k with hg
      have hdm : k * g + (j - i) % k = j - i := by
        rw [hg]
        exact Nat.div_add_mod (j - i) k
      have hml : (j - i) % k < k := Nat.mod_lt _ (by omega)
      have hcm : g * k = k * g := Nat.mul_comm g k
      have hgk : g * k ≤ j - i := by omega
      have hrem : j - i < g * k + k := by omega
      have hek : (e + 1) * k = e * k + k := by ring
      have hge : g ≤ e := by
        by_contra hcon
        push_neg at hcon
        have hmm : (e + 1) * k ≤ g * k := Nat.mul_le_mul_right k (by omega)
        omega
      set gs := i + g * k with hgs
      have hvgs : valAt k d gs = v := by
        rcases Nat.eq_zero_or_pos g with h0 | hpos
        · rw [hgs, h0]
          simp [hv]
        · exact habs2 g hpos hge
      have hdvdgs : k ∣ gs := by
        rcases hdvd with ⟨q, hq⟩
        exact ⟨q + g, by rw [hgs, hq]; ring⟩
      have hcomp : gs + k ≤ d.length := by
        rcases hdvdgs with ⟨q, hq⟩
        have hlt : gs < k * (d.length / k) := by omega
        rw [hq] at hlt
        have hq' : q < d.length / k := Nat.lt_of_mul_lt_mul_left hlt
        have hmm : k * (q + 1) ≤ k * (d.length / k) := Nat.mul_le_mul_left k (by omega)
        calc gs + k = k * (q + 1) := by rw [hq]; ring
          _ ≤ k * (d.length / k) := hmm
          _ ≤ d.length := hle
      have hmod : (j - i) % k = j - gs := by omega
      rw [hmod, ← hvgs]
      exact valAt_extract k d hd gs j (by omega) (by omega) hcomp
    · rw [if_neg hcase]
      have hek : (e + 1) * k = e * k + k := by ring
      have hj3 : i + e * k + k ≤ j := by omega
      have harith : j - i - (e + 1) * k = j - (i + e * k + k) := by omega
      rw [harith]
      exact ih (i + e * k + k) j (by omega)
        (by rcases hdvd with ⟨q, hq⟩; exact ⟨q + e + 1, by rw [hq]; ring⟩)
        (by omega) hj

theorem ceil_div_chunk (m k e : Nat) (hk : 1 ≤ k) (hlast : e * k < m) :
    e + 1 + (m - (e * k + k) + k - 1) / k = (m + k - 1) / k := by
  rcases le_or_lt m (e * k + k) with hcase | hcase
  · have h1 : m - (e * k + k) = 0 := by omega
    rw [h1]
    have h2 : (0 + k - 1) / k = 0 := by
      rw [Nat.zero_add]
      exact Nat.div_eq_of_lt (by omega)
    rw [h2]
    have h3 : (m + k - 1) / k = e + 1 := by
      apply Nat.div_eq_of_lt_le
      · calc (e + 1) * k = e * k + k := by ring
          _ ≤ m + k - 1 := by omega
      · calc m + k - 1 < e * k + k + k := by omega
          _ = (e + 1 + 1) * k := by ring
    omega
  · have hek : (e + 1) * k = e * k + k := by ring
    have heq : m + k - 1 = (m - (e * k + k) + k - 1) + (e + 1) * k := by omega
    rw [heq, Nat.add_mul_div_right _ _ (by omega : 0 < k)]
    omega

theorem sumCounts_cons (r : RLEData) (rest : List RLEData) :
    sumCounts (r :: rest) = r.count + sumCounts rest := by
  simp [sumCounts]

/-- Each pass of the encoder covers the remaining groups exactly: the run
counts emitted from position `i` sum to the number of (possibly partial)
k-groups of `d.length - i` elements. -/
theorem sumCounts_encodeFrom (k : Nat) (d : List Nat) (hk : 1 ≤ k) :
    ∀ fuel i, d.length + 1 ≤ fuel + i →
    sumCounts (encodeFrom k d fuel i) = (d.length - i + k - 1) / k := by
  intro fuel
  induction fuel with
  | zero =>
    intro i h
    have h0 : d.length - i = 0 := by omega
    rw [h0]
    simp only [encodeFrom, sumCounts, List.map_nil, List.sum_nil]
    rw [Nat.zero_add, Nat.div_eq_of_lt (by omega : k - 1 < k)]
  | succ f ih =>
    intro i h
    by_cases hi : i < d.length
    · simp only [encodeFrom, if_pos hi]
      set v := valAt k d i with hv
      obtain ⟨habs1, habs2, habs3⟩ := absorbRun_spec k d v d.length i
      set e := (absorbRun k d v d.length i).1 with he
      rw [habs1, sumCounts_cons]
      have hlast : i + e * k < d.length := by
        rcases habs3 with h0 | hlt
        · rw [h0]
          simpa using hi
        · exact hlt
      rw [ih (i + e * k + k) (by omega)]
      have hsub : d.length - (i + e * k + k) = d.length - i - (e * k + k) := by omega
      rw [hsub]
      exact ceil_div_chunk (d.length - i) k e hk (by omega)
    · simp only [encodeFrom, if_neg hi, sumCounts, List.map_nil, List.sum_nil]
      have h0 : d.length - i = 0 := by omega
      rw [h0, Nat.zero_add, Nat.div_eq_of_lt (by omega : k - 1 < k)]

/-- The dense expansion of a run list, as written by `decode_rle` before
truncation at `size`. -/
def runsExpansion (k : Nat) (runs : List RLEData) : List Nat :=
  runs.flatMap (fun r => (List.replicate r.count (bitsOfVal k r.value)).flatten)

theorem decode_rle_eq (vec : RLEVector) :
    decode_rle vec = (runsExpansion vec.nBitsInRun vec.compressed).take vec.size :=
  rfl

theorem bitsOfVal_length (k v : Nat) : (bitsOfVal k v).length = k := by
  simp [bitsOfVal]

theorem bitsOfVal_getD (k v r : Nat) (hr : r < k) :
    (bitsOfVal k v).getD r 0 = (v >>> (k - 1 - r)) % 2 := by
  rw [bitsOfVal, List.getD_eq_getElem?_getD, List.getElem?_map,
    List.getElem?_range hr]
  rfl

theorem flatten_replicate_length (c : Nat) (bs : List Nat) :
    ((List.replicate c bs).flatten).length = c * bs.length := by
  rw [List.length_flatten, List.map_replicate, List.sum_const_nat]

theorem flatten_replicate_getD (bs : List Nat) :
    ∀ c idx, idx < c * bs.length →
    ((List.replicate c bs).flatten).getD idx 0 = bs.getD (idx % bs.length) 0 := by
  intro c
  induction c with
  | zero =>
    intro idx hidx
    omega
  | succ c ih =>
    intro idx hidx
    have hbs : 0 < bs.length := by
      by_contra hb
      push_neg at hb
      interval_cases h : bs.length
      omega
    rw [List.replicate_succ, List.flatten_cons]
    by_cases hlt : idx < bs.length
    · rw [List.getD_eq_getElem?_getD, List.getElem?_append_left hlt,
        ← List.getD_eq_getElem?_getD, Nat.mod_eq_of_lt hlt]
    · push_neg at hlt
      rw [List.getD_eq_getElem?_getD, List.getElem?_append_right hlt,
        ← List.getD_eq_getElem?_getD]
      have hrec := ih (idx - bs.length) (by
        have : (c + 1) * bs.length = c * bs.length + bs.length := by ring
        omega)
      rw [hrec, Nat.mod_eq_sub_mod hlt]

theorem runsExpansion_length (k : Nat) (runs : List RLEData) :
    (runsExpansion k runs).length = sumCounts runs * k := by
  induction runs with
  | nil => simp [runsExpansion, sumCounts]
  | cons r rest ih =>
    simp only [runsExpansion, List.flatMap_cons] at *
    rw [List.length_append, ih, flatten_replicate_length, bitsOfVal_length,
      sumCounts_cons]
    ring

/-- Decoding the freshly encoded run list recovers the dense bit at every
index of a complete group. -/
theorem expansion_encodeFrom_getD (k : Nat) (d : List Nat) (hk : 1 ≤ k)
    (hd : boolList d) :
    ∀ fuel i j, d.length + 1 ≤ fuel + i → k ∣ i → i ≤ j →
    j < k * (d.length / k) →
    (runsExpansion k (encodeFrom k d fuel i)).getD (j - i) 0 = d.getD j 0 := by
  intro fuel
  induction fuel with
  | zero =>
    intro i j hfuel hdvd hij hj
    have := mul_div_le_self_left k d.length
    omega
  | succ f ih =>
    intro i j hfuel hdvd hij hj
    have hle : k * (d.length / k) ≤ d.length := mul_div_le_self_left k d.length
    have hilen : i < d.length := by omega
    simp only [encodeFrom, if_pos hilen]
    set v := valAt k d i with hv
    obtain ⟨habs1, habs2, habs3⟩ := absorbRun_spec k d v d.length i
    set e := (absorbRun k d v d.length i).1 with he
    rw [habs1]
    simp only [runsExpansion, List.flatMap_cons]
    have hflen : ((List.replicate (e + 1) (bitsOfVal k v)).flatten).length
        = (e + 1) * k := by
      rw [flatten_replicate_length, bitsOfVal_length]
    by_cases hcase : j - i < (e + 1) * k
    · rw [List.getD_eq_getElem?_getD,
        List.getElem?_append_left (by rw [hflen]; exact hcase),
        ← List.getD_eq_getElem?_getD]
      have hgd := flatten_replicate_getD (bitsOfVal k v) (e + 1) (j - i)
        (by rw [bitsOfVal_length]; exact hcase)
      rw [bitsOfVal_length] at hgd
      rw [hgd]
      set g := (j - i) / k with hg
      have hdm : k * g + (j - i) % k = j - i := by
        rw [hg]
        exact Nat.div_add_mod (j - i) k
      have hml : (j - i) % k < k := Nat.mod_lt _ (by omega)
      have hcm : g * k = k * g := Nat.mul_comm g k
      have hgk : g * k ≤ j - i := by omega
      have hrem : j - i < g * k + k := by omega
      have hek : (e + 1) * k = e * k + k := by ring
      have hge : g ≤ e := by
        by_contra hcon
        push_neg at hcon
        have hmm : (e + 1) * k ≤ g * k := Nat.mul_le_mul_right k (by omega)
        omega
      set gs := i + g * k with hgs
      have hvgs : valAt k d gs = v := by
        rcases Nat.eq_zero_or_pos g with h0 | hpos
        · rw [hgs, h0]
          simp [hv]
        · exact habs2 g hpos hge
      have hdvdgs : k ∣ gs := by
        rcases hdvd with ⟨q, hq⟩
        exact ⟨q + g, by rw [hgs, hq]; ring⟩
      have hcomp : gs + k ≤ d.length := by
        rcases hdvdgs with ⟨q, hq⟩
        have hlt : gs < k * (d.length / k) := by omega
        rw [hq] at hlt
        have hq2 : q < d.length / k := Nat.lt_of_mul_lt_mul_left hlt
        have hmm : k * (q + 1) ≤ k * (d.length / k) := Nat.mul_le_mul_left k (by omega)
        calc gs + k = k * (q + 1) := by rw [hq]; ring
          _ ≤ k * (d.length / k) := hmm
          _ ≤ d.length := hle
      have hmod : (j - i) % k = j - gs := by omega
      rw [hmod, bitsOfVal_getD k v (j - gs) (by omega), ← hvgs]
      exact valAt_extract k d hd gs j (by omega) (by omega) hcomp
    · push_neg at hcase
      rw [List.getD_eq_getElem?_getD,
        List.getElem?_append_right (by rw [hflen]; exact hcase),
        ← List.getD_eq_getElem?_getD, hflen]
      have hek : (e + 1) * k = e * k + k := by ring
      have hj3 : i + e * k + k ≤ j := by omega
      have harith : j - i - (e + 1) * k = j - (i + e * k + k) := by omega
      rw [harith]
      exact ih (i + e * k + k) j (by omega)
        (by rcases hdvd with ⟨q, hq⟩; exact ⟨q + e + 1, by rw [hq]; ring⟩)
        (by omega) hj

/-- The vector is freshly created or holds the encoding of a dense boolean
array `d` whose complete-group entries record exactly the indices set so
far (the bits of a trailing partial group can be garbled by the encoder,
which is the content of the C4 counterexample). -/
def Tracks (N k : Nat) (v : RLEVector) (truth : Nat → Bool) : Prop :=
  v.nBitsInRun = k ∧ v.size = N ∧
  ((v.compressed = [] ∧ ∀ j, truth j = false) ∨
    ∃ d, d.length = N ∧ boolList d ∧
      v.compressed = encodeFrom k d (N + 1) 0 ∧
      ∀ j, j < k * (N / k) → d.getD j 0 = (if truth j then 1 else 0))

theorem tracks_congr (N k : Nat) (v : RLEVector) (t1 t2 : Nat → Bool)
    (h : ∀ j, t1 j = t2 j) (hT : Tracks N k v t1) : Tracks N k v t2 := by
  obtain ⟨h1, h2, h3⟩ := hT
  refine ⟨h1, h2, ?_⟩
  rcases h3 with ⟨he, ht⟩ | ⟨d, hd1, hd2, hd3, hd4⟩
  · exact Or.inl ⟨he, fun j => (h j).symm.trans (ht j)⟩
  · exact Or.inr ⟨d, hd1, hd2, hd3, fun j hj => by rw [hd4 j hj, h j]⟩

theorem tracks_create (N k : Nat) :
    Tracks N k (RLEVector_create N k) (fun _ => false) :=
  ⟨rfl, rfl, Or.inl ⟨rfl, fun _ => rfl⟩⟩

theorem boolList_decode (v : RLEVector) : boolList (decode_rle v) := by
  intro b hb
  have hb2 := List.mem_of_mem_take hb
  rw [List.mem_flatMap] at hb2
  obtain ⟨r, _, hr2⟩ := hb2
  rw [List.mem_flatten] at hr2
  obtain ⟨bs, hbs1, hbs2⟩ := hr2
  rw [List.mem_replicate] at hbs1
  rw [hbs1.2] at hbs2
  rw [bitsOfVal, List.mem_map] at hbs2
  obtain ⟨j, _, hj2⟩ := hbs2
  omega

theorem ceil_mul_ge (N k : Nat) (hk : 1 ≤ k) : N ≤ (N + k - 1) / k * k := by
  have hdm := Nat.div_add_mod (N + k - 1) k
  have hml : (N + k - 1) % k < k := Nat.mod_lt _ (by omega)
  have hcm : (N + k - 1) / k * k = k * ((N + k - 1) / k) := Nat.mul_comm _ _
  omega

/-- After a `set`, the vector encodes the updated dense array and keeps
tracking the updated truth. -/
theorem tracks_set (N k : Nat) (v : RLEVector) (truth : Nat → Bool) (i : Nat)
    (hk : 1 ≤ k) (hT : Tracks N k v truth) (hi : i < N) :
    Tracks N k (RLEVector_set v i)
      (fun j => decide (j = i) || truth j) := by
  obtain ⟨hbits, hsize, hrep⟩ := hT
  have hdlen : (decode_rle v).length ≤ N := by
    rw [decode_rle_eq]
    simp only [List.length_take]
    omega
  set padded := decode_rle v ++ List.replicate (v.size - (decode_rle v).length) 0
    with hpadded
  have hplen : padded.length = N := by
    rw [hpadded, List.length_append, List.length_replicate]
    omega
  have hpbool : boolList padded := by
    intro b hb
    rw [hpadded, List.mem_append] at hb
    rcases hb with hb | hb
    · exact boolList_decode v b hb
    · rw [List.mem_replicate] at hb
      omega
  set d2 := padded.set i 1 with hd2
  have hd2len : d2.length = N := by
    rw [hd2, List.length_set, hplen]
  have hd2bool : boolList d2 := by
    intro b hb
    rcases List.mem_or_eq_of_mem_set hb with hb | hb
    · exact hpbool b hb
    · omega
  have hsetbits : (RLEVector_set v i).nBitsInRun = k := by
    rw [show (RLEVector_set v i).nBitsInRun = v.nBitsInRun from rfl, hbits]
  have hsetsize : (RLEVector_set v i).size = N := by
    rw [show (RLEVector_set v i).size = v.size from rfl, hsize]
  have hcomp : (RLEVector_set v i).compressed = encodeFrom k d2 (N + 1) 0 := by
    show (encode_rle v d2).compressed = _
    simp only [encode_rle]
    rw [hbits, hd2len]
  refine ⟨hsetbits, hsetsize, Or.inr ⟨d2, hd2len, hd2bool, hcomp, ?_⟩⟩
  intro j hj
  have hjN : j < N := by
    have := mul_div_le_self_left k N
    omega
  by_cases hji : j = i
  · subst hji
    have hone : d2.getD j 0 = 1 := by
      rw [hd2, List.getD_eq_getElem?_getD, List.getElem?_set_self (by omega),
        Option.getD_some]
    rw [hone]
    simp
  · have hne : d2.getD j 0 = padded.getD j 0 := by
      rw [hd2, List.getD_eq_getElem?_getD, List.getElem?_set_ne (by omega),
        ← List.getD_eq_getElem?_getD]
    rw [hne]
    have hpj : padded.getD j 0 = (if truth j then 1 else 0) := by
      rcases hrep with ⟨hempty, hfalse⟩ | ⟨d, hdl, hdb, hdc, hdg⟩
      · rw [hfalse j]
        have hdec : decode_rle v = [] := by
          rw [decode_rle_eq, hempty]
          simp [runsExpansion]
        have hrepl : padded = List.replicate v.size 0 := by
          rw [hpadded, hdec]
          simp
        rw [hrepl, List.getD_eq_getElem?_getD, List.getElem?_replicate,
          if_pos (show j < v.size by omega), Option.getD_some]
        simp
      · have hdecE : decode_rle v = (runsExpansion k v.compressed).take N := by
          rw [decode_rle_eq, hbits, hsize]
        have hElen : (runsExpansion k v.compressed).length = (N + k - 1) / k * k := by
          rw [runsExpansion_length, hdc,
            sumCounts_encodeFrom k d hk (N + 1) 0 (by omega)]
          rw [hdl]
          simp
        have hEN : N ≤ (runsExpansion k v.compressed).length := by
          rw [hElen]
          exact ceil_mul_ge N k hk
        have htake : (decode_rle v).length = N := by
          rw [hdecE, List.length_take]
          omega
        have hpd : padded.getD j 0 = (decode_rle v).getD j 0 := by
          rw [hpadded, List.getD_eq_getElem?_getD,
            List.getElem?_append_left (by omega : j < (decode_rle v).length),
            ← List.getD_eq_getElem?_getD]
        have hdv : (decode_rle v).getD j 0 = (runsExpansion k v.compressed).getD j 0 := by
          rw [hdecE, List.getD_eq_getElem?_getD,
            List.getElem?_take_of_lt (by omega : j < N),
            ← List.getD_eq_getElem?_getD]
        rw [hpd, hdv, hdc]
        have hexp := expansion_encodeFrom_getD k d hk hdb (N + 1) 0 j
          (by omega) ⟨0, by ring⟩ (by omega) (by rw [hdl]; exact hj)
        simp only [Nat.sub_zero] at hexp
        rw [hexp]
        exact hdg j hj
    rw [hpj]
    simp [hji]

theorem tracks_applySets (N k : Nat) (hk : 1 ≤ k) :
    ∀ (l : List Nat) (v : RLEVector) (truth : Nat → Bool),
    Tracks N k v truth → (∀ x ∈ l, x < N) →
    Tracks N k (applySets v l) (fun j => truth j || decide (j ∈ l)) := by
  intro l
  induction l with
  | nil =>
    intro v truth hT _
    exact tracks_congr N k v truth _ (by simp) hT
  | cons x l2 ih =>
    intro v truth hT hl
    have hx : x < N := hl x (List.mem_cons_self _ _)
    have hstep := tracks_set N k v truth x hk hT hx
    have hrec := ih (RLEVector_set v x) _ hstep
      (fun y hy => hl y (List.mem_cons_of_mem _ hy))
    refine tracks_congr N k _ _ _ ?_ hrec
    intro j
    by_cases hji : j = x
    · subst hji
      simp
    · simp [hji]

/-- Reading any complete-group index returns the tracked bit. -/
theorem tracks_get (N k : Nat) (v : RLEVector) (truth : Nat → Bool)
    (hk : 1 ≤ k) (hT : Tracks N k v truth) (j : Nat) (hj : j < k * (N / k)) :
    RLEVector_get v j = (if truth j then 1 else 0) := by
  obtain ⟨hbits, hsize, hrep⟩ := hT
  rcases hrep with ⟨hempty, hfalse⟩ | ⟨d, hdl, hdb, hdc, hdg⟩
  · rw [RLEVector_get, hempty, hfalse j]
    simp [RLEVector_getAux]
  · rw [RLEVector_get, hbits, hdc]
    have h := getAux_encodeFrom k d hk hdb (N + 1) 0 j (by omega) ⟨0, by ring⟩
      (by omega) (by rw [hdl]; exact hj)
    simp only [Nat.sub_zero] at h
    rw [h]
    exact hdg j hj

/-! ### Claims C4, C5, C6 -/

/-- C4 counterexample: the claim states that after any sequence of set
calls, `get(i)` returns 1 exactly when some `set(i)` occurred.  With
N = 3, k = 2, the single call `set(2)` lands in the trailing partial
group: the encoder packs the lone bit into the low bit of the group value
while `get` extracts bit `k - 1 - (i % k)`, so `get(2)` reads 0. -/
theorem C4_counterexample :
    2 ∈ [2] ∧ (∀ x ∈ [2], x < 3) ∧
    RLEVector_get (applySets (RLEVector_create 3 2) [2]) 2 = 0 :=
  ⟨by decide, by decide, by decide⟩

/-- C4 (amended): for every RLE vector of logical length N and group width
k ≥ 1, after any finite sequence of `set(i)` calls with 0 ≤ i < N, `get(j)`
returns 1 exactly when some `set(j)` occurred — for every index j lying in
a complete k-group (all j < N when k divides N, and in particular for the
engine's k = 1); indices of a trailing partial group may read 0 regardless.
Every index of a freshly created vector reads 0 (the case l = []). -/
theorem C4_rle_round_trip (N k : Nat) (l : List Nat) (j : Nat) (hk : 1 ≤ k)
    (hl : ∀ x ∈ l, x < N) (hj : j < k * (N / k)) :
    RLEVector_get (applySets (RLEVector_create N k) l) j
      = (if j ∈ l then 1 else 0) := by
  have hT := tracks_applySets N k hk l (RLEVector_create N k) (fun _ => false)
    (tracks_create N k) hl
  have hg := tracks_get N k _ _ hk hT j hj
  rw [hg]
  by_cases hmem : j ∈ l
  · simp [hmem]
  · simp [hmem]

/-- Witness for C4_rle_round_trip at N = 3, k = 2, sets = [1], j = 1. -/
theorem C4_rle_round_trip_witness :
    (1 : Nat) ≤ 2 ∧ (∀ x ∈ [1], x < 3) ∧ (1 : Nat) < 2 * (3 / 2) ∧
    RLEVector_get (applySets (RLEVector_create 3 2) [1]) 1
      = (if 1 ∈ [1] then 1 else 0) :=
  ⟨by decide, by decide, by decide,
    C4_rle_round_trip 3 2 [1] 1 (by decide) (by decide) (by decide)⟩

/-- C5 counterexample: the claim states that immediately after creation the
vector holds exactly one run.  `RLEVector_create` sets `currNumOfRuns = 0`,
so a fresh vector holds zero active runs (the entry written into
`compressed[0]` — whose count is moreover `size / runLength`, a floor — is
never read). -/
theorem C5_counterexample :
    RLEVector_currSize (RLEVector_create 3 2) = 0 ∧
    RLEVector_currSize (RLEVector_create 3 2) ≠ 1 := by
  decide

/-- C5 (amended): immediately after creation the vector holds zero active
runs; after every subsequent set operation the sum of the run counts equals
⌈N/k⌉. -/
theorem C5_run_count_invariant (N k : Nat) (l : List Nat) (i : Nat)
    (hk : 1 ≤ k) (hl : ∀ x ∈ l, x < N) (hi : i < N) :
    RLEVector_currSize (RLEVector_create N k) = 0 ∧
    sumCounts (applySets (RLEVector_create N k) (l ++ [i])).compressed
      = (N + k - 1) / k := by
  refine ⟨rfl, ?_⟩
  have hT := tracks_applySets N k hk l (RLEVector_create N k) (fun _ => false)
    (tracks_create N k) hl
  have happ : applySets (RLEVector_create N k) (l ++ [i])
      = RLEVector_set (applySets (RLEVector_create N k) l) i := by
    rw [applySets, applySets, List.foldl_append, List.foldl_cons, List.foldl_nil]
  rw [happ]
  obtain ⟨hb, hs, hrep⟩ := tracks_set N k _ _ i hk hT hi
  rcases hrep with ⟨hempty, hfalse⟩ | ⟨d, hdl, hdb, hdc, hdg⟩
  · exact absurd (hfalse i) (by simp)
  · rw [hdc, sumCounts_encodeFrom k d hk (N + 1) 0 (by omega)]
    rw [hdl]
    simp

/-- Witness for C5_run_count_invariant at N = 3, k = 2, first set at 2. -/
theorem C5_run_count_invariant_witness :
    RLEVector_currSize (RLEVector_create 3 2) = 0 ∧
    sumCounts (applySets (RLEVector_create 3 2) ([] ++ [2])).compressed
      = (3 + 2 - 1) / 2 :=
  C5_run_count_invariant 3 2 [] 2 (by decide) (by decide) (by decide)

/-- The ENCODING_RLE branch of `initMemoTable` (backtrack.c): one RLE vector
per memoized state.  The C call site reads `RLEVector_create()` with no
arguments although the definition takes `(size, runLength)`; backtrack.c
does not include rle-array.h, so the call goes through an implicit
declaration and both parameters receive whatever indeterminate values sit
in the argument registers, modelled here as explicit `gSize`/`gRun`
arguments. -/
def initMemoTable_rleVectors (nStatesToTrack gSize gRun : Nat) : List RLEVector :=
  List.replicate nStatesToTrack (RLEVector_create gSize gRun)

/-- C6: the claim — every `RLEVector_create` call made while building the
memo table passes logical length |input|+1 and group width 1 — fails on the
code: the call passes no arguments at all, so there are indeterminate
values (here 0 and 5) under which no created vector has the claimed size
and width.  Failing input: pattern "a", input "a" (|input|+1 = 2), two
memoized states. -/
theorem C6_create_call_bug :
    ∃ gSize gRun,
      (initMemoTable_rleVectors 2 gSize gRun).all
        (fun v => decide (v.size = 2) && decide (v.nBitsInRun = 1)) = false :=
  ⟨0, 5, by decide⟩

/-! ## Inline-input escape processing (main.c, processStringWithEscapes)

Bytes are Nat char codes: 92 backslash, 110 'n', 116 't', 34 double quote,
39 single quote, 10 newline, 9 tab.  The input is the NUL-terminated
argument string, modelled as its list of non-zero bytes. -/

/-- `processStringWithEscapes(str)`: scan the input; on a backslash,
consume the next byte and translate per the switch; otherwise copy the
byte.  In the default switch case the C code writes the backslash AND the
following byte (both are kept).  On a trailing lone backslash the switch
reads the terminating NUL, writes the backslash and the NUL (ending the
output there), and the model stops. -/
def processStringWithEscapes : List Nat → List Nat
  | [] => []
  | c :: rest =>
    if c = 92 then
      match rest with
      | [] => [92]
      | c2 :: rest2 =>
        if c2 = 110 then 10 :: processStringWithEscapes rest2
        else if c2 = 116 then 9 :: processStringWithEscapes rest2
        else if c2 = 92 then 92 :: processStringWithEscapes rest2
        else if c2 = 34 then 34 :: processStringWithEscapes rest2
        else if c2 = 39 then 39 :: processStringWithEscapes rest2
        else 92 :: c2 :: processStringWithEscapes rest2
    else c :: processStringWithEscapes rest

/-- The translation of one backslash-escape pair, as the amended claim
words it: backslash-n newline (10), backslash-t tab (9), doubled backslash
a backslash, backslash-quote the quote; any other pair passes through
unchanged (the backslash is kept). -/
def escapePairTable (c : Nat) : List Nat :=
  if c = 110 then [10]
  else if c = 116 then [9]
  else if c = 92 then [92]
  else if c = 34 then [34]
  else if c = 39 then [39]
  else [92, c]

/-- The rewriting the amended claim describes: each backslash-led pair is
replaced by its table translation, characters not preceded by a backslash
are copied unchanged, and a trailing lone backslash is kept. -/
def escapeRewriteSpec : List Nat → List Nat
  | [] => []
  | c :: rest =>
    if c = 92 then
      match rest with
      | [] => [92]
      | c2 :: rest2 => escapePairTable c2 ++ escapeRewriteSpec rest2
    else c :: escapeRewriteSpec rest

/-! ### Claim C9 -/

/-- C9 counterexample: the claim says any other two-character sequence
backslash-X passes through as the character X alone.  On input with the
two bytes 92 100 (backslash d) the code keeps both bytes: the output is
unchanged, not the single byte 100. -/
theorem C9_counterexample :
    processStringWithEscapes [92, 100] = [92, 100] ∧
    processStringWithEscapes [92, 100] ≠ [100] := by
  decide

/-- C9 (amended): `processStringWithEscapes` rewrites the input so that
backslash-n becomes a newline byte, backslash-t a tab, a doubled backslash
a single backslash, backslash-doublequote a double quote,
backslash-singlequote a single quote, every character not preceded by a
backslash is copied unchanged, and any other two-character sequence
backslash-X passes through unchanged as the two characters backslash and
X. -/
theorem C9_escape_processing : ∀ (l : List Nat),
    processStringWithEscapes l = escapeRewriteSpec l
  | [] => rfl
  | c :: rest => by
    rw [processStringWithEscapes.eq_def, escapeRewriteSpec.eq_def]
    dsimp only
    by_cases h : c = 92
    · rw [if_pos h, if_pos h]
      match rest with
      | [] => rfl
      | c2 :: rest2 =>
        have ih2 := C9_escape_processing rest2
        simp only [escapePairTable]
        split_ifs <;> simp [ih2]
    · rw [if_neg h, if_neg h, C9_escape_processing rest]
termination_by l => l.length
decreasing_by
  · simp
    omega
  · simp

/-! ## Instruction model (regexp.h, compile.c)

Edge targets are instruction indices; the C stores `Inst*` pointers into
the program array, which correspond one-to-one to indices (printprog
prints them as `pc->x - p->start`). -/

/-- One `InstCharRange`: up to three (low, high) byte ranges plus an
inversion flag.  The C leaves `invert` unwritten (stale malloc memory) in
the escape cases that do not assign it; the model uses `false` there. -/
structure InstCharRange where
  pairs : List (Nat × Nat)
  invert : Bool
deriving Repr, DecidableEq

inductive Opcode where
  | OpChar (c : Nat)
  | OpMatch
  | OpJmp (x : Nat)
  | OpSplit (x y : Nat)
  | OpSplitMany (edges : List Nat)
  | OpAny
  | OpSave (n : Nat)
  | OpCharClass (ranges : List InstCharRange) (invert : Bool)
  | OpStringCompare (cgNum : Nat)
  | OpInlineZWA (c : Nat)
  | OpRecursiveZWA
  | OpRecursiveMatch
deriving Repr, DecidableEq

/-- An instruction: opcode plus `stateNum`, `memoInfo.memoStateNum` (the C
uses -1 for "not memoized", modelled as `none`) and
`memoInfo.visitInterval`. -/
structure Inst where
  opcode : Opcode
  stateNum : Nat
  memoStateNum : Option Nat
  visitInterval : Nat
deriving Repr, DecidableEq

/-! ## Normalized AST (regexp.h, compile.c)

The type holds the shapes `count`/`emit` accept, i.e. the output of the
normalization passes: no Curly, every CustomCharClass already merged
(children only CharRange or CharEscape nodes), digit escapes already
Backrefs.  `n` of Quest/Star/Plus is the non-greedy flag; `n` of Paren is
the capture-group index. -/

/-- A merged child of a CustomCharClass: a CharRange with Lit endpoints, a
CharRange whose endpoints are one CharEscape, or a bare CharEscape. -/
inductive CCChild where
  | RangeLit (lo hi : Nat)
  | RangeEsc (ch : Nat)
  | Esc (ch : Nat)
deriving Repr, DecidableEq

inductive Regexp where
  | Alt (left right : Regexp)
  | AltList (children : List Regexp)
  | Cat (left right : Regexp)
  | Lit (ch : Nat)
  | Dot
  | CharEscape (ch : Nat)
  | CustomCharClass (children : List CCChild) (plusDash : Bool) (ccInvert : Bool)
  | Paren (n : Nat) (left : Regexp)
  | Quest (nongreedy : Bool) (left : Regexp)
  | Star (nongreedy : Bool) (left : Regexp)
  | Plus (nongreedy : Bool) (left : Regexp)
  | Backref (cgNum : Nat)
  | Lookahead (left : Regexp)
  | InlineZWA (ch : Nat)
deriving Repr

mutual

/-- `count(r)` from compile.c: how many instructions `r` needs. -/
def count : Regexp → Nat
  | .Alt l r => 2 + count l + count r
  | .AltList cs => 1 + countList cs
  | .Cat l r => count l + count r
  | .Lit _ => 1
  | .Dot => 1
  | .CharEscape _ => 1
  | .CustomCharClass _ _ _ => 1
  | .Backref _ => 1
  | .InlineZWA _ => 1
  | .Paren _ l => 2 + count l
  | .Quest _ l => 1 + count l
  | .Star _ l => 2 + count l
  | .Plus _ l => 1 + count l
  | .Lookahead l => 2 + count l

/-- The AltList loop of `count`: each branch adds one Jmp. -/
def countList : List Regexp → Nat
  | [] => 0
  | c :: cs => (count c + 1) + countList cs

end

/-- `isupper` for the escape table. -/
def isUpperByte (ch : Nat) : Bool := 65 ≤ ch && ch ≤ 90

/-- `_emitRegexpCharEscape2InstCharRange`: the escape-to-char-range table.
Byte codes: s 115, S 83, w 119, W 87, d 100, D 68, r 114, n 110, t 116,
f 102, v 118. -/
def escapeToCharRange (ch : Nat) : InstCharRange :=
  if ch = 115 || ch = 83 then
    { pairs := [(9, 13), (28, 32)], invert := isUpperByte ch }
  else if ch = 119 || ch = 87 then
    { pairs := [(97, 122), (65, 90), (48, 57)], invert := isUpperByte ch }
  else if ch = 100 || ch = 68 then
    { pairs := [(48, 57)], invert := isUpperByte ch }
  else if ch = 114 || ch = 110 then
    { pairs := [(10, 10)], invert := false }
  else if ch = 116 then
    { pairs := [(9, 9)], invert := false }
  else if ch = 102 then
    { pairs := [(12, 12)], invert := false }
  else if ch = 118 then
    { pairs := [(11, 11)], invert := false }
  else
    { pairs := [(ch, ch)], invert := false }

/-- `_emitRegexpCharRange2Inst` for one merged CCC child. -/
def ccChildToCharRange : CCChild → InstCharRange
  | .RangeLit lo hi => { pairs := [(lo, hi)], invert := false }
  | .RangeEsc ch => escapeToCharRange ch
  | .Esc ch => escapeToCharRange ch

/-- The ranges of a CharClass instruction emitted for a CustomCharClass:
the mapped children plus, when `plusDash`, a literal dash range. -/
def cccRanges (children : List CCChild) (plusDash : Bool) : List InstCharRange :=
  children.map ccChildToCharRange ++
    (if plusDash then [{ pairs := [(45, 45)], invert := false }] else [])

/-- Branch start addresses of an AltList: branch i begins after the
preceding branches (each taking `count c + 1` slots). -/
def altEdges (pc : Nat) : List Regexp → List Nat
  | [] => []
  | c :: cs => pc :: altEdges (pc + count c + 1) cs

mutual

/-- `emit(r)` from compile.c, with the bump pointer made explicit: the
opcodes written starting at absolute index `pc`, with the backpatched
targets computed from `count`.  Layouts follow the given emission
templates; the non-greedy flag swaps Split.x and Split.y. -/
def emit : Regexp → Nat → List Opcode
  | .Alt l r, pc =>
    .OpSplit (pc + 1) (pc + 2 + count l) :: emit l (pc + 1) ++
      [.OpJmp (pc + 2 + count l + count r)] ++ emit r (pc + 2 + count l)
  | .AltList cs, pc =>
    .OpSplitMany (altEdges (pc + 1) cs) ::
      emitAltBranches (pc + 1 + countList cs) (pc + 1) cs
  | .Cat l r, pc => emit l pc ++ emit r (pc + count l)
  | .Lit ch, _ => [.OpChar ch]
  | .Dot, _ => [.OpAny]
  | .CharEscape ch, _ => [.OpCharClass [escapeToCharRange ch] false]
  | .CustomCharClass cs pd inv, _ => [.OpCharClass (cccRanges cs pd) inv]
  | .Backref n, _ => [.OpStringCompare n]
  | .InlineZWA ch, _ => [.OpInlineZWA ch]
  | .Paren n l, pc =>
    .OpSave (2 * n) :: emit l (pc + 1) ++ [.OpSave (2 * n + 1)]
  | .Quest ng l, pc =>
    .OpSplit (if ng then pc + 1 + count l else pc + 1)
        (if ng then pc + 1 else pc + 1 + count l) :: emit l (pc + 1)
  | .Star ng l, pc =>
    .OpSplit (if ng then pc + 2 + count l else pc + 1)
        (if ng then pc + 1 else pc + 2 + count l) :: emit l (pc + 1) ++
      [.OpJmp pc]
  | .Plus ng l, pc =>
    emit l pc ++
      [Opcode.OpSplit (if ng then pc + count l + 1 else pc)
        (if ng then pc else pc + count l + 1)]
  | .Lookahead l, pc =>
    .OpRecursiveZWA :: emit l (pc + 1) ++ [.OpRecursiveMatch]

/-- The AltList branch loop of `emit`: each branch is followed by a Jmp
whose destination is backpatched to the common end `endT`. -/
def emitAltBranches (endT : Nat) : Nat → List Regexp → List Opcode
  | _, [] => []
  | pc, c :: cs =>
    emit c pc ++ [.OpJmp endT] ++ emitAltBranches endT (pc + count c + 1) cs

end

/-- `memoMode` values (regexp.h). -/
inductive MemoMode where
  | MEMO_NONE
  | MEMO_FULL
  | MEMO_IN_DEGREE_GT1
  | MEMO_LOOP_DEST
deriving Repr, DecidableEq

/-- `memoEncoding` values. -/
inductive MemoEncoding where
  | ENCODING_NONE
  | ENCODING_NEGATIVE
  | ENCODING_RLE
  | ENCODING_RLE_TUNED
deriving Repr, DecidableEq

/-- `compile(r, ...)`: size the buffer with `count(r) + 1`, preset every
instruction's `visitInterval` (to `singleRleK` under ENCODING_RLE_TUNED,
else 1), emit from the root, append the trailing Match, and assign
`stateNum = index` (Prog_assignStateNumbers).  `memoStateNum` starts
unassigned (-1); the memo-mark pass sets it later. -/
def buildInsts (vi : Nat) : Nat → List Opcode → List Inst
  | _, [] => []
  | i, op :: ops =>
    { opcode := op, stateNum := i, memoStateNum := none, visitInterval := vi } ::
      buildInsts vi (i + 1) ops

def compile (r : Regexp) (memoEncoding : MemoEncoding) (singleRleK : Nat) :
    List Inst :=
  let vi := match memoEncoding with
    | MemoEncoding.ENCODING_RLE_TUNED => singleRleK
    | _ => 1
  buildInsts vi 0 (emit r 0 ++ [Opcode.OpMatch])

/-- The outgoing backpatched edge targets (`x`, `y`, `edges[]`) of an
opcode. -/
def opTargets : Opcode → List Nat
  | .OpJmp x => [x]
  | .OpSplit x y => [x, y]
  | .OpSplitMany es => es
  | _ => []

def defaultInst : Inst :=
  { opcode := Opcode.OpJmp 0, stateNum := 0, memoStateNum := none,
    visitInterval := 1 }

instance : Inhabited Inst := ⟨defaultInst⟩

/-- Every `x`/`y`/`edges[]` target of every instruction is a valid state
number. -/
def targetsOkB (P : List Inst) : Bool :=
  P.all (fun inst => (opTargets inst.opcode).all (fun t => decide (t < P.length)))

/-- State numbers are the array indices 0..len-1, in program order. -/
def stateNumsOkB (P : List Inst) : Bool :=
  (List.range P.length).all (fun i => decide ((P.getD i defaultInst).stateNum = i))

/-- The last instruction is Match. -/
def lastIsMatchB (P : List Inst) : Bool :=
  decide ((P.getD (P.length - 1) defaultInst).opcode = Opcode.OpMatch)

mutual

theorem emit_length : ∀ (r : Regexp) (pc : Nat), (emit r pc).length = count r
  | .Alt l r, pc => by
    simp [emit, count, emit_length l (pc + 1),
      emit_length r (pc + 2 + count l)]
    omega
  | .AltList cs, pc => by
    simp [emit, count, emitAltBranches_length (pc + 1 + countList cs) (pc + 1) cs]
    omega
  | .Cat l r, pc => by
    simp [emit, count, emit_length l pc, emit_length r (pc + count l)]
  | .Lit _, _ => rfl
  | .Dot, _ => rfl
  | .CharEscape _, _ => rfl
  | .CustomCharClass _ _ _, _ => rfl
  | .Backref _, _ => rfl
  | .InlineZWA _, _ => rfl
  | .Paren n l, pc => by
    simp [emit, count, emit_length l (pc + 1)]
    omega
  | .Quest ng l, pc => by
    simp [emit, count, emit_length l (pc + 1)]
    omega
  | .Star ng l, pc => by
    simp [emit, count, emit_length l (pc + 1)]
    omega
  | .Plus ng l, pc => by
    simp [emit, count, emit_length l pc]
    omega
  | .Lookahead l, pc => by
    simp [emit, count, emit_length l (pc + 1)]
    omega

theorem emitAltBranches_length :
    ∀ (endT pc : Nat) (cs : List Regexp),
    (emitAltBranches endT pc cs).length = countList cs
  | _, _, [] => rfl
  | endT, pc, c :: cs => by
    simp [emitAltBranches, countList, emit_length c pc,
      emitAltBranches_length endT (pc + count c + 1) cs]
    omega

end

theorem altEdges_bounds :
    ∀ (cs : List Regexp) (pc t : Nat), t ∈ altEdges pc cs →
    pc ≤ t ∧ t < pc + countList cs := by
  intro cs
  induction cs with
  | nil =>
    intro pc t ht
    simp [altEdges] at ht
  | cons c cs ih =>
    intro pc t ht
    simp only [altEdges, List.mem_cons] at ht
    rcases ht with rfl | ht
    · simp only [countList]
      omega
    · have h := ih (pc + count c + 1) t ht
      simp only [countList]
      omega

mutual

theorem emit_targets :
    ∀ (r : Regexp) (pc : Nat) (op : Opcode), op ∈ emit r pc →
    ∀ t ∈ opTargets op, pc ≤ t ∧ t ≤ pc + count r
  | .Alt l r, pc, op => by
    intro hop t ht
    rcases List.mem_cons.mp hop with rfl | hop
    · simp only [opTargets, List.mem_cons, List.not_mem_nil, or_false] at ht
      rcases ht with rfl | rfl <;> (simp only [count]; omega)
    · rcases List.mem_append.mp hop with hop | hop
      · rcases List.mem_append.mp hop with hop | hop
        · have h := emit_targets l (pc + 1) op hop t ht
          simp only [count]
          omega
        · rcases List.mem_singleton.mp hop with rfl
          simp only [opTargets, List.mem_cons, List.not_mem_nil, or_false] at ht
          subst ht
          simp only [count]
          omega
      · have h := emit_targets r (pc + 2 + count l) op hop t ht
        simp only [count]
        omega
  | .AltList cs, pc, op => by
    intro hop t ht
    rcases List.mem_cons.mp hop with rfl | hop
    · simp only [opTargets] at ht
      have h := altEdges_bounds cs (pc + 1) t ht
      simp only [count]
      omega
    · have h := emitAltBranches_targets cs (pc + 1 + countList cs) (pc + 1) op hop t ht
      simp only [count]
      omega
  | .Cat l r, pc, op => by
    intro hop t ht
    rcases List.mem_append.mp hop with hop | hop
    · have h := emit_targets l pc op hop t ht
      simp only [count]
      omega
    · have h := emit_targets r (pc + count l) op hop t ht
      simp only [count]
      omega
  | .Lit _, pc, op => by
    intro hop t ht
    rcases List.mem_singleton.mp hop with rfl
    simp [opTargets] at ht
  | .Dot, pc, op => by
    intro hop t ht
    rcases List.mem_singleton.mp hop with rfl
    simp [opTargets] at ht
  | .CharEscape _, pc, op => by
    intro hop t ht
    rcases List.mem_singleton.mp hop with rfl
    simp [opTargets] at ht
  | .CustomCharClass _ _ _, pc, op => by
    intro hop t ht
    rcases List.mem_singleton.mp hop with rfl
    simp [opTargets] at ht
  | .Backref _, pc, op => by
    intro hop t ht
    rcases List.mem_singleton.mp hop with rfl
    simp [opTargets] at ht
  | .InlineZWA _, pc, op => by
    intro hop t ht
    rcases List.mem_singleton.mp hop with rfl
    simp [opTargets] at ht
  | .Paren n l, pc, op => by
    intro hop t ht
    rcases List.mem_cons.mp hop with rfl | hop
    · simp [opTargets] at ht
    · rcases List.mem_append.mp hop with hop | hop
      · have h := emit_targets l (pc + 1) op hop t ht
        simp only [count]
        omega
      · rcases List.mem_singleton.mp hop with rfl
        simp [opTargets] at ht
  | .Quest ng l, pc, op => by
    intro hop t ht
    rcases List.mem_cons.mp hop with rfl | hop
    · simp only [opTargets, List.mem_cons, List.not_mem_nil, or_false] at ht
      rcases ht with rfl | rfl <;>
        (simp only [count]; split_ifs <;> omega)
    · have h := emit_targets l (pc + 1) op hop t ht
      simp only [count]
      omega
  | .Star ng l, pc, op => by
    intro hop t ht
    rcases List.mem_cons.mp hop with rfl | hop
    · simp only [opTargets, List.mem_cons, List.not_mem_nil, or_false] at ht
      rcases ht with rfl | rfl <;>
        (simp only [count]; split_ifs <;> omega)
    · rcases List.mem_append.mp hop with hop | hop
      · have h := emit_targets l (pc + 1) op hop t ht
        simp only [count]
        omega
      · rcases List.mem_singleton.mp hop with rfl
        simp only [opTargets, List.mem_cons, List.not_mem_nil, or_false] at ht
        subst ht
        simp only [count]
        omega
  | .Plus ng l, pc, op => by
    intro hop t ht
    rcases List.mem_append.mp hop with hop | hop
    · have h := emit_targets l pc op hop t ht
      simp only [count]
      omega
    · rcases List.mem_singleton.mp hop with rfl
      simp only [opTargets, List.mem_cons, List.not_mem_nil, or_false] at ht
      rcases ht with rfl | rfl <;>
        (simp only [count]; split_ifs <;> omega)
  | .Lookahead l, pc, op => by
    intro hop t ht
    rcases List.mem_cons.mp hop with rfl | hop
    · simp [opTargets] at ht
    · rcases List.mem_append.mp hop with hop | hop
      · have h := emit_targets l (pc + 1) op hop t ht
        simp only [count]
        omega
      · rcases List.mem_singleton.mp hop with rfl
        simp [opTargets] at ht

theorem emitAltBranches_targets :
    ∀ (cs : List Regexp) (endT pc : Nat) (op : Opcode),
    op ∈ emitAltBranches endT pc cs →
    ∀ t ∈ opTargets op, (pc ≤ t ∧ t ≤ pc + countList cs) ∨ t = endT
  | [], endT, pc, op => by
    intro hop
    simp [emitAltBranches] at hop
  | c :: cs, endT, pc, op => by
    intro hop t ht
    rcases List.mem_append.mp hop with hop | hop
    · rcases List.mem_append.mp hop with hop | hop
      · have h := emit_targets c pc op hop t ht
        left
        simp only [countList]
        omega
      · rcases List.mem_singleton.mp hop with rfl
        simp only [opTargets, List.mem_cons, List.not_mem_nil, or_false] at ht
        subst ht
        right
        rfl
    · have h := emitAltBranches_targets cs endT (pc + count c + 1) op hop t ht
      rcases h with h | h
      · left
        simp only [countList]
        omega
      · right
        exact h

end

theorem buildInsts_getElem? (vi : Nat) :
    ∀ (ops : List Opcode) (i j : Nat),
    (buildInsts vi i ops)[j]? = (ops[j]?).map
      (fun op => { opcode := op, stateNum := i + j, memoStateNum := none,
                   visitInterval := vi }) := by
  intro ops
  induction ops with
  | nil =>
    intro i j
    simp [buildInsts]
  | cons op ops ih =>
    intro i j
    cases j with
    | zero => simp [buildInsts]
    | succ j =>
      have hstep : (buildInsts vi i (op :: ops))[j + 1]?
          = (buildInsts vi (i + 1) ops)[j]? := by
        simp [buildInsts]
      rw [hstep, ih (i + 1) j, List.getElem?_cons_succ,
        show i + 1 + j = i + (j + 1) from by omega]

theorem buildInsts_length (vi : Nat) :
    ∀ (ops : List Opcode) (i : Nat), (buildInsts vi i ops).length = ops.length := by
  intro ops
  induction ops with
  | nil => intro i; rfl
  | cons op ops ih =>
    intro i
    simp [buildInsts, ih (i + 1)]

theorem buildInsts_mem (vi : Nat) :
    ∀ (ops : List Opcode) (i : Nat) (inst : Inst),
    inst ∈ buildInsts vi i ops → inst.opcode ∈ ops := by
  intro ops
  induction ops with
  | nil =>
    intro i inst h
    simp [buildInsts] at h
  | cons op ops ih =>
    intro i inst h
    rcases List.mem_cons.mp h with rfl | h
    · exact List.mem_cons_self _ _
    · exact List.mem_cons_of_mem _ (ih (i + 1) inst h)

/-! ### Claim C8 -/

/-- C8: `compile r` produces exactly `count r + 1` instructions, the last
instruction is Match, every instruction's `stateNum` equals its array
index, and every `x`/`y`/`edges[]` target is a valid state number. -/
theorem C8_compile_layout (r : Regexp) (enc : MemoEncoding) (srk : Nat) :
    (compile r enc srk).length = count r + 1 ∧
    lastIsMatchB (compile r enc srk) = true ∧
    stateNumsOkB (compile r enc srk) = true ∧
    targetsOkB (compile r enc srk) = true := by
  have hops : (emit r 0 ++ [Opcode.OpMatch]).length = count r + 1 := by
    rw [List.length_append, emit_length r 0]
    rfl
  obtain ⟨vi, hcomp⟩ : ∃ vi, compile r enc srk
      = buildInsts vi 0 (emit r 0 ++ [Opcode.OpMatch]) := by
    cases enc <;> exact ⟨_, rfl⟩
  have hlen : (compile r enc srk).length = count r + 1 := by
    rw [hcomp, buildInsts_length, hops]
  refine ⟨hlen, ?_, ?_, ?_⟩
  · rw [lastIsMatchB, hlen]
    have h1 : (compile r enc srk).getD (count r + 1 - 1) defaultInst
        = { opcode := Opcode.OpMatch, stateNum := count r, memoStateNum := none,
            visitInterval := vi } := by
      rw [List.getD_eq_getElem?_getD, hcomp, buildInsts_getElem?]
      have h2 : (emit r 0 ++ [Opcode.OpMatch])[count r + 1 - 1]?
          = some Opcode.OpMatch := by
        rw [List.getElem?_append_right (by rw [emit_length r 0]; omega)]
        rw [emit_length r 0]
        simp
      rw [h2]
      simp
    rw [h1]
    simp
  · rw [stateNumsOkB, List.all_eq_true]
    intro i hi
    rw [List.mem_range, hlen] at hi
    rw [List.getD_eq_getElem?_getD, hcomp, buildInsts_getElem?]
    have hilen : i < (emit r 0 ++ [Opcode.OpMatch]).length := by omega
    obtain ⟨op, hop⟩ : ∃ op, (emit r 0 ++ [Opcode.OpMatch])[i]? = some op :=
      ⟨_, List.getElem?_eq_getElem hilen⟩
    rw [hop]
    simp
  · rw [targetsOkB, List.all_eq_true]
    intro inst hinst
    rw [List.all_eq_true]
    intro t ht
    rw [hcomp] at hinst
    have hmem := buildInsts_mem vi _ 0 inst hinst
    rcases List.mem_append.mp hmem with hmem | hmem
    · have h := emit_targets r 0 inst.opcode hmem t ht
      rw [decide_eq_true_iff, hlen]
      omega
    · rcases List.mem_singleton.mp hmem with hop
      rw [hop] at ht
      simp [opTargets] at ht

/-! ## Epsilon-closure loop check (compile.c,
`Prog_assertNoInfiniteLoops` / `Prog_epsilonClosure`) -/

/-- `startMark` / `visitMark` of the instructions, cleared by
`Prog_unmarkAll` before each start instruction is tried. -/
structure Marks where
  startMark : Nat → Bool
  visitMark : Nat → Bool

def Marks.clear : Marks := ⟨fun _ => false, fun _ => false⟩

def Marks.setStart (m : Marks) (i : Nat) : Marks :=
  { m with startMark := fun j => if j = i then true else m.startMark j }

def Marks.setVisit (m : Marks) (i : Nat) : Marks :=
  { m with visitMark := fun j => if j = i then true else m.visitMark j }

/-- `while (curr->opcode != RecursiveMatch) curr++;` then one past it: the
index just after the next RecursiveMatch at or after `i`.  If none follows,
the C walks off the program (the compiler never produces that shape); the
model returns `P.length`, an index with no instruction. -/
def skipPastRecursiveMatch (P : List Inst) (i : Nat) : Nat :=
  match (P.drop i).findIdx? (fun inst => decide (inst.opcode = Opcode.OpRecursiveMatch)) with
  | some k => i + k + 1
  | none => P.length

/-- The edges of instruction `i` that consume no input, as walked by
`Prog_epsilonClosure`: Jmp to x; Split to x then y; SplitMany to every
edge; Save and InlineZeroWidthAssertion fall through; a
RecursiveZeroWidthAssertion skips past its matching RecursiveMatch; Char,
Any, CharClass, Match, StringCompare and RecursiveMatch end the branch. -/
def epsSucc (P : List Inst) (i : Nat) (op : Opcode) : List Nat :=
  match op with
  | .OpJmp x => [x]
  | .OpSplit x y => [x, y]
  | .OpSplitMany es => es
  | .OpSave _ => [i + 1]
  | .OpInlineZWA _ => [i + 1]
  | .OpRecursiveZWA => [skipPastRecursiveMatch P i]
  | _ => []

/-- The successor loop of `Prog_epsilonClosure`: explore the epsilon edges
in order, short-circuiting on the first hit (Split explores x then y;
SplitMany returns on the first edge that finds the loop). -/
def epsFoldWith (f : Marks → Nat → (Bool × Marks)) : Marks → List Nat → (Bool × Marks)
  | marks, [] => (false, marks)
  | marks, t :: ts =>
    let p := f marks t
    if p.1 then p else epsFoldWith f p.2 ts

/-- `Prog_epsilonClosure(p, stateNum, start)`: return non-zero if a cycle
back to the start-marked instruction is formed without consuming a
character.  Returning to a visited (but non-start) instruction
short-circuits with 0.  The recursion depth is bounded by the number of
instructions, so `P.length + 1` fuel reproduces the C recursion exactly. -/
def Prog_epsilonClosure (P : List Inst) : Nat → Marks → Nat → Bool → (Bool × Marks)
  | 0, marks, _, _ => (false, marks)
  | fuel + 1, marks, stateNum, start =>
    match P[stateNum]? with
    | none => (false, marks)
    | some inst =>
      if marks.startMark stateNum then (true, marks)
      else if marks.visitMark stateNum then (false, marks)
      else
        epsFoldWith (fun m t => Prog_epsilonClosure P fuel m t false)
          (if start then marks.setStart stateNum else marks.setVisit stateNum)
          (epsSucc P stateNum inst.opcode)

/-- `Inst_couldStartLoop`: only branches can introduce a back-edge. -/
def Inst_couldStartLoop (op : Opcode) : Bool :=
  match op with
  | .OpJmp _ => true
  | .OpSplit _ _ => true
  | .OpSplitMany _ => true
  | _ => false

/-- `Prog_assertNoInfiniteLoops` aborts exactly when this predicate holds:
for some instruction that could start a loop, the epsilon closure from it
(on freshly cleared marks) returns to it. -/
def Prog_hasInfiniteLoop (P : List Inst) : Bool :=
  (List.range P.length).any (fun i =>
    match P[i]? with
    | some inst =>
      Inst_couldStartLoop inst.opcode &&
        (Prog_epsilonClosure P (P.length + 1) Marks.clear i true).1
    | none => false)

/-- One epsilon edge of the program graph. -/
def epsStep (P : List Inst) (p q : Nat) : Prop :=
  ∃ inst, P[p]? = some inst ∧ q ∈ epsSucc P p inst.opcode

/-- Mark inclusion: every mark of `m` is a mark of `m2`. -/
def Marks.le (m m2 : Marks) : Prop :=
  (∀ v, m.startMark v = true → m2.startMark v = true) ∧
  (∀ v, m.visitMark v = true → m2.visitMark v = true)

theorem Marks.le_refl (m : Marks) : Marks.le m m := ⟨fun _ h => h, fun _ h => h⟩

theorem Marks.le_trans {m1 m2 m3 : Marks} (h1 : Marks.le m1 m2)
    (h2 : Marks.le m2 m3) : Marks.le m1 m3 :=
  ⟨fun v h => h2.1 v (h1.1 v h), fun v h => h2.2 v (h1.2 v h)⟩

theorem Marks.le_setVisit (m : Marks) (i : Nat) : Marks.le m (m.setVisit i) := by
  refine ⟨fun v h => h, fun v h => ?_⟩
  simp only [Marks.setVisit]
  split_ifs <;> simp [h]

theorem Marks.le_setStart (m : Marks) (i : Nat) : Marks.le m (m.setStart i) := by
  refine ⟨fun v h => ?_, fun v h => h⟩
  simp only [Marks.setStart]
  split_ifs <;> simp [h]

theorem setVisit_startMark (m : Marks) (i : Nat) :
    (m.setVisit i).startMark = m.startMark := rfl

theorem epsFoldWith_startMark_eq (f : Marks → Nat → (Bool × Marks))
    (hf : ∀ m t, ((f m t).2).startMark = m.startMark) :
    ∀ (ts : List Nat) (m : Marks),
    ((epsFoldWith f m ts).2).startMark = m.startMark := by
  intro ts
  induction ts with
  | nil => intro m; rfl
  | cons t ts ih =>
    intro m
    simp only [epsFoldWith]
    by_cases h : (f m t).1
    · simp only [if_pos h]
      exact hf m t
    · simp only [if_neg h]
      rw [ih (f m t).2, hf m t]

theorem eps_startMark_eq (P : List Inst) :
    ∀ (fuel : Nat) (m : Marks) (v : Nat),
    ((Prog_epsilonClosure P fuel m v false).2).startMark = m.startMark := by
  intro fuel
  induction fuel with
  | zero => intro m v; rfl
  | succ f ih =>
    intro m v
    simp only [Prog_epsilonClosure]
    match hfetch : P[v]? with
    | none => rfl
    | some inst =>
      by_cases h1 : m.startMark v
      · simp [h1]
      · by_cases h2 : m.visitMark v
        · simp [h1, h2]
        · simp only [h1, h2, Bool.false_eq_true, if_false, if_neg]
          rw [epsFoldWith_startMark_eq _ (fun m t => ih m t)]
          rfl

theorem epsFoldWith_marks_le (f : Marks → Nat → (Bool × Marks))
    (hf : ∀ m t, Marks.le m (f m t).2) :
    ∀ (ts : List Nat) (m : Marks), Marks.le m (epsFoldWith f m ts).2 := by
  intro ts
  induction ts with
  | nil => intro m; exact Marks.le_refl m
  | cons t ts ih =>
    intro m
    simp only [epsFoldWith]
    by_cases h : (f m t).1
    · simp only [if_pos h]
      exact hf m t
    · simp only [if_neg h]
      exact Marks.le_trans (hf m t) (ih (f m t).2)

theorem eps_marks_le (P : List Inst) :
    ∀ (fuel : Nat) (m : Marks) (v : Nat) (st : Bool),
    Marks.le m (Prog_epsilonClosure P fuel m v st).2 := by
  intro fuel
  induction fuel with
  | zero => intro m v st; exact Marks.le_refl m
  | succ f ih =>
    intro m v st
    simp only [Prog_epsilonClosure]
    match hfetch : P[v]? with
    | none => exact Marks.le_refl m
    | some inst =>
      by_cases h1 : m.startMark v
      · simp only [if_pos h1]
        exact Marks.le_refl m
      · by_cases h2 : m.visitMark v
        · simp only [if_neg h1, if_pos h2]
          exact Marks.le_refl m
        · simp only [if_neg h1, if_neg h2]
          have hbase : Marks.le m (if st then m.setStart v else m.setVisit v) := by
            by_cases hst : st <;> simp [hst, Marks.le_setStart, Marks.le_setVisit]
          exact Marks.le_trans hbase
            (epsFoldWith_marks_le _ (fun m t => ih m t false) _ _)

/-- Number of instructions carrying neither mark. -/
def unmarkedCount (P : List Inst) (m : Marks) : Nat :=
  ((List.range P.length).filter
    (fun v => !(m.startMark v || m.visitMark v))).length

theorem length_filter_mono {l : List Nat} {p q : Nat → Bool}
    (h : ∀ a ∈ l, p a = true → q a = true) :
    (l.filter p).length ≤ (l.filter q).length := by
  induction l with
  | nil => simp
  | cons a l ih =>
    have ih2 := ih (fun b hb => h b (List.mem_cons_of_mem _ hb))
    by_cases hp : p a
    · rw [List.filter_cons_of_pos hp,
        List.filter_cons_of_pos (h a (List.mem_cons_self _ _) hp)]
      simpa using ih2
    · rw [List.filter_cons_of_neg (by simpa using hp)]
      by_cases hq : q a
      · rw [List.filter_cons_of_pos hq]
        simp only [List.length_cons]
        omega
      · rw [List.filter_cons_of_neg (by simpa using hq)]
        exact ih2

theorem unmarkedCount_antitone (P : List Inst) {m m2 : Marks}
    (h : Marks.le m m2) : unmarkedCount P m2 ≤ unmarkedCount P m := by
  apply length_filter_mono
  intro a _ ha
  simp only [Bool.not_eq_true', Bool.or_eq_false_iff] at *
  constructor
  · by_contra hc
    have := h.1 a (by revert hc; cases m2.startMark a <;> simp)
    rw [ha.1] at this
    simp at this
  · by_contra hc
    have := h.2 a (by revert hc; cases m2.visitMark a <;> simp)
    rw [ha.2] at this
    simp at this

theorem length_filter_strict {l : List Nat} {p q : Nat → Bool} {v : Nat}
    (hmono : ∀ a ∈ l, p a = true → q a = true)
    (hv : v ∈ l) (hqv : q v = true) (hpv : p v = false) :
    (l.filter p).length < (l.filter q).length := by
  induction l with
  | nil => simp at hv
  | cons a l ih =>
    rcases List.mem_cons.mp hv with rfl | hv2
    · rw [List.filter_cons_of_neg (by simp [hpv]), List.filter_cons_of_pos hqv]
      simp only [List.length_cons]
      have := length_filter_mono (l := l) (p := p) (q := q)
        (fun b hb => hmono b (List.mem_cons_of_mem _ hb))
      omega
    · have ih2 := ih (fun b hb => hmono b (List.mem_cons_of_mem _ hb)) hv2
      by_cases hp : p a
      · rw [List.filter_cons_of_pos hp,
          List.filter_cons_of_pos (hmono a (List.mem_cons_self _ _) hp)]
        simpa using ih2
      · rw [List.filter_cons_of_neg (by simpa using hp)]
        by_cases hq : q a
        · rw [List.filter_cons_of_pos hq]
          simp only [List.length_cons]
          omega
        · rw [List.filter_cons_of_neg (by simpa using hq)]
          exact ih2

theorem unmarkedCount_setVisit_lt (P : List Inst) (m : Marks) (v : Nat)
    (hv : v < P.length) (h1 : m.startMark v = false) (h2 : m.visitMark v = false) :
    unmarkedCount P (m.setVisit v) < unmarkedCount P m := by
  simp only [unmarkedCount]
  have hmono : ∀ a ∈ List.range P.length,
      (fun u => !((m.setVisit v).startMark u || (m.setVisit v).visitMark u)) a = true →
      (fun u => !(m.startMark u || m.visitMark u)) a = true := by
    intro a _ ha
    simp only [Marks.setVisit, Bool.not_eq_true', Bool.or_eq_false_iff] at ha ⊢
    rcases ha with ⟨hs, hv2⟩
    refine ⟨hs, ?_⟩
    by_cases hav : a = v
    · rw [if_pos hav] at hv2
      exact absurd hv2 (by simp)
    · rwa [if_neg hav] at hv2
  exact length_filter_strict hmono (List.mem_range.mpr hv)
    (by simp [h1, h2]) (by simp [Marks.setVisit, h1])

theorem unmarkedCount_setStart_lt (P : List Inst) (m : Marks) (v : Nat)
    (hv : v < P.length) (h1 : m.startMark v = false) (h2 : m.visitMark v = false) :
    unmarkedCount P (m.setStart v) < unmarkedCount P m := by
  simp only [unmarkedCount]
  have hmono : ∀ a ∈ List.range P.length,
      (fun u => !((m.setStart v).startMark u || (m.setStart v).visitMark u)) a = true →
      (fun u => !(m.startMark u || m.visitMark u)) a = true := by
    intro a _ ha
    simp only [Marks.setStart, Bool.not_eq_true', Bool.or_eq_false_iff] at ha ⊢
    rcases ha with ⟨hs, hv2⟩
    refine ⟨?_, hv2⟩
    by_cases hav : a = v
    · rw [if_pos hav] at hs
      exact absurd hs (by simp)
    · rwa [if_neg hav] at hs
  exact length_filter_strict hmono (List.mem_range.mpr hv)
    (by simp [h1, h2]) (by simp [Marks.setStart])

theorem unmarkedCount_le_length (P : List Inst) (m : Marks) :
    unmarkedCount P m ≤ P.length := by
  calc unmarkedCount P m ≤ (List.range P.length).length := List.length_filter_le _ _
  _ = P.length := List.length_range _

/-- A visit-marked node is epsilon-closed: every epsilon successor avoids the
start node and is itself visit-marked or outside the program. -/
def ClosedAt (P : List Inst) (s : Nat) (m : Marks) (u : Nat) : Prop :=
  ∀ t, epsStep P u t → t ≠ s ∧ (m.visitMark t = true ∨ P[t]? = none)

theorem closedAt_mono {P : List Inst} {s : Nat} {m m2 : Marks} {u : Nat}
    (h : ClosedAt P s m u) (hle : Marks.le m m2) : ClosedAt P s m2 u := by
  intro t ht
  rcases h t ht with ⟨hts, hm⟩
  refine ⟨hts, ?_⟩
  rcases hm with hm | hm
  · exact Or.inl (hle.2 t hm)
  · exact Or.inr hm

/-- Arriving at the start-marked node reports the loop at once. -/
theorem eps_at_start (P : List Inst) (s : Nat) (inst : Inst) (hs : P[s]? = some inst)
    (fuel : Nat) (hfuel : 0 < fuel) (m : Marks) (hstart : m.startMark s = true) :
    (Prog_epsilonClosure P fuel m s false).1 = true := by
  cases fuel with
  | zero => omega
  | succ f => simp [Prog_epsilonClosure, hs, hstart]

theorem epsFoldWith_sound (P : List Inst) (fuel : Nat)
    (ih : ∀ m t, (Prog_epsilonClosure P fuel m t false).1 = true →
      ∃ u, m.startMark u = true ∧ Relation.ReflTransGen (epsStep P) t u) :
    ∀ (ts : List Nat) (m : Marks),
      (epsFoldWith (fun m t => Prog_epsilonClosure P fuel m t false) m ts).1 = true →
      ∃ t ∈ ts, ∃ u, m.startMark u = true ∧ Relation.ReflTransGen (epsStep P) t u := by
  intro ts
  induction ts with
  | nil => intro m h; simp [epsFoldWith] at h
  | cons t ts ihts =>
    intro m h
    simp only [epsFoldWith] at h
    by_cases hp : (Prog_epsilonClosure P fuel m t false).1
    · rcases ih m t hp with ⟨u, hu, hpath⟩
      exact ⟨t, List.mem_cons_self _ _, u, hu, hpath⟩
    · rw [if_neg hp] at h
      rcases ihts _ h with ⟨t2, ht2, u, hu, hpath⟩
      rw [eps_startMark_eq] at hu
      exact ⟨t2, List.mem_cons_of_mem _ ht2, u, hu, hpath⟩

/-- Soundness of the recursive exploration: a positive answer exhibits an
epsilon path from the explored node to a start-marked node. -/
theorem eps_sound (P : List Inst) :
    ∀ (fuel : Nat) (m : Marks) (v : Nat),
      (Prog_epsilonClosure P fuel m v false).1 = true →
      ∃ u, m.startMark u = true ∧ Relation.ReflTransGen (epsStep P) v u := by
  intro fuel
  induction fuel with
  | zero => intro m v h; simp [Prog_epsilonClosure] at h
  | succ f ih =>
    intro m v h
    simp only [Prog_epsilonClosure] at h
    match hfetch : P[v]? with
    | none => rw [hfetch] at h; simp at h
    | some inst =>
      rw [hfetch] at h
      dsimp only at h
      by_cases h1 : m.startMark v
      · exact ⟨v, h1, Relation.ReflTransGen.refl⟩
      · rw [if_neg h1] at h
        by_cases h2 : m.visitMark v
        · rw [if_pos h2] at h; simp at h
        · rw [if_neg h2] at h
          simp only [Bool.false_eq_true, if_false] at h
          rcases epsFoldWith_sound P f (fun m t => ih m t) _ _ h with
            ⟨t, ht, u, hu, hpath⟩
          simp only [Marks.setVisit] at hu
          exact ⟨u, hu, Relation.ReflTransGen.head ⟨inst, hfetch, ht⟩ hpath⟩

/-- Folding the successors of a node that all answer "no loop" leaves every
successor visit-marked or dead, keeps the start node unreached, and closes
every freshly marked node. -/
theorem epsFoldWith_false_inv (P : List Inst) (s : Nat) (inst_s : Inst)
    (hs : P[s]? = some inst_s) (fuel : Nat)
    (hf : ∀ (m : Marks) (v : Nat), unmarkedCount P m < fuel →
      (∀ u, m.startMark u = true ↔ u = s) →
      (Prog_epsilonClosure P fuel m v false).1 = false →
      ((Prog_epsilonClosure P fuel m v false).2.visitMark v = true ∨ P[v]? = none) ∧
      (∀ u, m.visitMark u = false →
        (Prog_epsilonClosure P fuel m v false).2.visitMark u = true →
        ClosedAt P s (Prog_epsilonClosure P fuel m v false).2 u)) :
    ∀ (ts : List Nat) (m : Marks), unmarkedCount P m < fuel →
      (∀ u, m.startMark u = true ↔ u = s) →
      (epsFoldWith (fun m t => Prog_epsilonClosure P fuel m t false) m ts).1 = false →
      (∀ t ∈ ts,
        (epsFoldWith (fun m t => Prog_epsilonClosure P fuel m t false) m ts).2.visitMark t = true ∨
          P[t]? = none) ∧
      (∀ t ∈ ts, t ≠ s) ∧
      (∀ u, m.visitMark u = false →
        (epsFoldWith (fun m t => Prog_epsilonClosure P fuel m t false) m ts).2.visitMark u = true →
        ClosedAt P s (epsFoldWith (fun m t => Prog_epsilonClosure P fuel m t false) m ts).2 u) := by
  intro ts
  induction ts with
  | nil =>
    intro m hcount hstart hfalse
    refine ⟨by simp, by simp, ?_⟩
    intro u hu1 hu2
    simp only [epsFoldWith] at hu2
    exact absurd hu2 (by simp [hu1])
  | cons t ts ihts =>
    intro m hcount hstart hfalse
    simp only [epsFoldWith] at hfalse ⊢
    by_cases hp : (Prog_epsilonClosure P fuel m t false).1
    · simp only [if_pos hp] at hfalse
      rw [hp] at hfalse
      exact absurd hfalse (by simp)
    · simp only [if_neg hp] at hfalse ⊢
      have hp0 : (Prog_epsilonClosure P fuel m t false).1 = false := by
        revert hp; cases (Prog_epsilonClosure P fuel m t false).1 <;> simp
      obtain ⟨hbt, hct⟩ := hf m t hcount hstart hp0
      have hle1 : Marks.le m (Prog_epsilonClosure P fuel m t false).2 :=
        eps_marks_le P fuel m t false
      have hcount2 : unmarkedCount P (Prog_epsilonClosure P fuel m t false).2 < fuel :=
        Nat.lt_of_le_of_lt (unmarkedCount_antitone P hle1) hcount
      have hstart2 : ∀ u,
          (Prog_epsilonClosure P fuel m t false).2.startMark u = true ↔ u = s := by
        intro u; rw [eps_startMark_eq]; exact hstart u
      obtain ⟨hA, hB, hC⟩ := ihts _ hcount2 hstart2 hfalse
      have hle2 : Marks.le (Prog_epsilonClosure P fuel m t false).2
          (epsFoldWith (fun m t => Prog_epsilonClosure P fuel m t false)
            (Prog_epsilonClosure P fuel m t false).2 ts).2 :=
        epsFoldWith_marks_le _ (fun m t => eps_marks_le P fuel m t false) _ _
      refine ⟨?_, ?_, ?_⟩
      · intro t2 ht2
        rcases List.mem_cons.mp ht2 with rfl | ht2
        · rcases hbt with hbt | hbt
          · exact Or.inl (hle2.2 _ hbt)
          · exact Or.inr hbt
        · exact hA t2 ht2
      · intro t2 ht2
        rcases List.mem_cons.mp ht2 with rfl | ht2
        · intro hts
          subst hts
          have hfuel : 0 < fuel := by omega
          have htrue := eps_at_start P t2 inst_s hs fuel hfuel m ((hstart t2).mpr rfl)
          rw [htrue] at hp0
          exact absurd hp0 (by simp)
        · exact hB t2 ht2
      · intro u hu1 hu2
        by_cases hu2x : (Prog_epsilonClosure P fuel m t false).2.visitMark u = true
        · exact closedAt_mono (hct u hu1 hu2x) hle2
        · have hu2f : (Prog_epsilonClosure P fuel m t false).2.visitMark u = false := by
            revert hu2x; cases (Prog_epsilonClosure P fuel m t false).2.visitMark u <;> simp
          exact hC u hu2f hu2

/-- Completeness core: a negative exploration from `v` leaves `v` marked (or
dead) and every node it marked epsilon-closed away from the start node. -/
theorem eps_false_inv (P : List Inst) (s : Nat) (inst_s : Inst)
    (hs : P[s]? = some inst_s) :
    ∀ (fuel : Nat) (m : Marks) (v : Nat), unmarkedCount P m < fuel →
      (∀ u, m.startMark u = true ↔ u = s) →
      (Prog_epsilonClosure P fuel m v false).1 = false →
      ((Prog_epsilonClosure P fuel m v false).2.visitMark v = true ∨ P[v]? = none) ∧
      (∀ u, m.visitMark u = false →
        (Prog_epsilonClosure P fuel m v false).2.visitMark u = true →
        ClosedAt P s (Prog_epsilonClosure P fuel m v false).2 u) := by
  intro fuel
  induction fuel with
  | zero =>
    intro m v hcount
    exact absurd hcount (Nat.not_lt_zero _)
  | succ f ih =>
    intro m v hcount hstart hfalse
    obtain hnone | ⟨inst, hfetch⟩ : P[v]? = none ∨ ∃ inst, P[v]? = some inst := by
      cases hh : P[v]? with
      | none => exact Or.inl rfl
      | some i => exact Or.inr ⟨i, rfl⟩
    · have hres : Prog_epsilonClosure P (f + 1) m v false = (false, m) := by
        simp [Prog_epsilonClosure, hnone]
      rw [hres]
      exact ⟨Or.inr hnone, fun u hu1 hu2 => absurd hu2 (by simp [hu1])⟩
    · by_cases h1 : m.startMark v = true
      · have hres : Prog_epsilonClosure P (f + 1) m v false = (true, m) := by
          simp [Prog_epsilonClosure, hfetch, h1]
        rw [hres] at hfalse
        exact absurd hfalse (by simp)
      · by_cases h2 : m.visitMark v = true
        · have hres : Prog_epsilonClosure P (f + 1) m v false = (false, m) := by
            simp [Prog_epsilonClosure, hfetch, h1, h2]
          rw [hres]
          exact ⟨Or.inl h2, fun u hu1 hu2 => absurd hu2 (by simp [hu1])⟩
        · have h1f : m.startMark v = false := by
            revert h1; cases m.startMark v <;> simp
          have h2f : m.visitMark v = false := by
            revert h2; cases m.visitMark v <;> simp
          have hvlt : v < P.length := by
            rcases List.getElem?_eq_some_iff.mp hfetch with ⟨hlt, _⟩
            exact hlt
          have hres : Prog_epsilonClosure P (f + 1) m v false =
              epsFoldWith (fun m t => Prog_epsilonClosure P f m t false)
                (m.setVisit v) (epsSucc P v inst.opcode) := by
            simp [Prog_epsilonClosure, hfetch, h1f, h2f]
          rw [hres] at hfalse ⊢
          have hcount2 : unmarkedCount P (m.setVisit v) < f := by
            have hlt := unmarkedCount_setVisit_lt P m v hvlt h1f h2f
            omega
          have hstart2 : ∀ u, (m.setVisit v).startMark u = true ↔ u = s := by
            intro u; rw [setVisit_startMark]; exact hstart u
          obtain ⟨hA, hB, hC⟩ := epsFoldWith_false_inv P s inst_s hs f
            (fun m v a b c => ih m v a b c) _ _ hcount2 hstart2 hfalse
          have hle := epsFoldWith_marks_le (fun m t => Prog_epsilonClosure P f m t false)
            (fun m t => eps_marks_le P f m t false) (epsSucc P v inst.opcode) (m.setVisit v)
          refine ⟨Or.inl (hle.2 v (by simp [Marks.setVisit])), ?_⟩
          intro u hu1 hu2
          by_cases huv : u = v
          · subst huv
            intro t ht
            rcases ht with ⟨inst2, hfetch2, htsucc⟩
            rw [hfetch] at hfetch2
            injection hfetch2 with hinj
            subst hinj
            exact ⟨hB t htsucc, hA t htsucc⟩
          · have hu1x : (m.setVisit v).visitMark u = false := by
              simp [Marks.setVisit, huv, hu1]
            exact hC u hu1x hu2

theorem bool_eq_false {b : Bool} (h : ¬(b = true)) : b = false := by
  cases b
  · rfl
  · exact absurd rfl h

/-- No epsilon path from a closed, start-avoiding region reaches the start
node. -/
theorem closed_no_reach (P : List Inst) (s : Nat) (m : Marks)
    (hcl : ∀ u, m.visitMark u = true → ClosedAt P s m u) :
    ∀ v w, Relation.ReflTransGen (epsStep P) v w →
      (m.visitMark v = true ∨ P[v]? = none) → v ≠ s →
      (m.visitMark w = true ∨ P[w]? = none) ∧ w ≠ s := by
  intro v w hpath
  induction hpath with
  | refl => intro hv hvs; exact ⟨hv, hvs⟩
  | tail h1 h2 ih =>
    intro hv hvs
    obtain ⟨hb, hbs⟩ := ih hv hvs
    rcases hb with hb | hb
    · obtain ⟨hcs, hcm⟩ := hcl _ hb _ h2
      exact ⟨hcm, hcs⟩
    · rcases h2 with ⟨inst, hfetch, _⟩
      rw [hb] at hfetch
      exact absurd hfetch (by simp)

/-- The closure from a loop-candidate start `b` answers true exactly when the
epsilon graph has a nonempty cycle through `b`. -/
theorem closure_detects (P : List Inst) (b : Nat) (inst : Inst)
    (hb : P[b]? = some inst) :
    (Prog_epsilonClosure P (P.length + 1) Marks.clear b true).1 = true ↔
      Relation.TransGen (epsStep P) b b := by
  have hvlt : b < P.length := by
    rcases List.getElem?_eq_some_iff.mp hb with ⟨hlt, _⟩
    exact hlt
  have hres : Prog_epsilonClosure P (P.length + 1) Marks.clear b true =
      epsFoldWith (fun m t => Prog_epsilonClosure P P.length m t false)
        (Marks.clear.setStart b) (epsSucc P b inst.opcode) := by
    simp [Prog_epsilonClosure, hb, Marks.clear]
  rw [hres]
  constructor
  · intro h
    rcases epsFoldWith_sound P P.length (fun m t => eps_sound P P.length m t) _ _ h with
      ⟨t, ht, u, hu, hpath⟩
    have hub : u = b := by
      simp only [Marks.setStart, Marks.clear] at hu
      by_cases hx : u = b
      · exact hx
      · rw [if_neg hx] at hu
        exact absurd hu (by simp)
    subst hub
    exact Relation.TransGen.head' ⟨inst, hb, ht⟩ hpath
  · intro hcyc
    by_contra hne
    have hfalse := bool_eq_false hne
    have hstart : ∀ u, (Marks.clear.setStart b).startMark u = true ↔ u = b := by
      intro u
      simp only [Marks.setStart, Marks.clear]
      by_cases hub : u = b
      · simp [hub]
      · simp [hub]
    have hcount : unmarkedCount P (Marks.clear.setStart b) < P.length := by
      have h1 := unmarkedCount_setStart_lt P Marks.clear b hvlt rfl rfl
      have h2 := unmarkedCount_le_length P Marks.clear
      omega
    obtain ⟨hA, hB, hC⟩ := epsFoldWith_false_inv P b inst hb P.length
      (eps_false_inv P b inst hb P.length) _ _ hcount hstart hfalse
    rcases Relation.TransGen.head'_iff.mp hcyc with ⟨t0, hstep, hpath⟩
    have hstep' := hstep
    rcases hstep with ⟨inst2, hfetch2, htsucc⟩
    rw [hb] at hfetch2
    injection hfetch2 with hinj
    subst hinj
    obtain ⟨_, hbs⟩ := closed_no_reach P b _ (fun u hu => hC u rfl hu) t0 b hpath
      (hA t0 htsucc) (hB t0 htsucc)
    exact hbs rfl

/-- Fall-through and skip edges move strictly forward: only Jmp, Split and
SplitMany can point backwards. -/
theorem epsStep_lt_of_not_branch (P : List Inst) (u t : Nat) (inst : Inst)
    (hfetch : P[u]? = some inst) (hnb : Inst_couldStartLoop inst.opcode = false)
    (ht : t ∈ epsSucc P u inst.opcode) : u < t := by
  have hu : u < P.length := by
    rcases List.getElem?_eq_some_iff.mp hfetch with ⟨h, _⟩
    exact h
  cases hop : inst.opcode with
  | OpChar c => rw [hop] at ht; simp [epsSucc] at ht
  | OpMatch => rw [hop] at ht; simp [epsSucc] at ht
  | OpJmp x => rw [hop] at hnb; simp [Inst_couldStartLoop] at hnb
  | OpSplit x y => rw [hop] at hnb; simp [Inst_couldStartLoop] at hnb
  | OpSplitMany es => rw [hop] at hnb; simp [Inst_couldStartLoop] at hnb
  | OpAny => rw [hop] at ht; simp [epsSucc] at ht
  | OpSave n => rw [hop] at ht; simp [epsSucc] at ht; omega
  | OpCharClass cc => rw [hop] at ht; simp [epsSucc] at ht
  | OpStringCompare => rw [hop] at ht; simp [epsSucc] at ht
  | OpInlineZWA n => rw [hop] at ht; simp [epsSucc] at ht; omega
  | OpRecursiveZWA =>
    rw [hop] at ht
    simp only [epsSucc, List.mem_singleton] at ht
    subst ht
    unfold skipPastRecursiveMatch
    cases hfind : (P.drop u).findIdx?
        (fun inst => decide (inst.opcode = Opcode.OpRecursiveMatch)) with
    | some k =>
      show u < u + k + 1
      omega
    | none =>
      show u < P.length
      exact hu
  | OpRecursiveMatch => rw [hop] at ht; simp [epsSucc] at ht

theorem cycle_fetch (P : List Inst) (c : Nat)
    (h : Relation.TransGen (epsStep P) c c) : ∃ inst, P[c]? = some inst := by
  rcases Relation.TransGen.head'_iff.mp h with ⟨t, hstep, _⟩
  rcases hstep with ⟨inst, hfetch, _⟩
  exact ⟨inst, hfetch⟩

/-- Rotating a cycle: every epsilon cycle passes through a Jmp, Split or
SplitMany instruction, so some loop candidate lies on a cycle. -/
theorem cycle_has_branch (P : List Inst) :
    ∀ (n c : Nat), P.length - c ≤ n → Relation.TransGen (epsStep P) c c →
      ∃ b inst, P[b]? = some inst ∧ Inst_couldStartLoop inst.opcode = true ∧
        Relation.TransGen (epsStep P) b b := by
  intro n
  induction n with
  | zero =>
    intro c hn hcyc
    rcases cycle_fetch P c hcyc with ⟨inst, hfetch⟩
    have hclt : c < P.length := by
      rcases List.getElem?_eq_some_iff.mp hfetch with ⟨h, _⟩
      exact h
    omega
  | succ n ihn =>
    intro c hn hcyc
    rcases cycle_fetch P c hcyc with ⟨inst, hfetch⟩
    have hclt : c < P.length := by
      rcases List.getElem?_eq_some_iff.mp hfetch with ⟨h, _⟩
      exact h
    by_cases hbr : Inst_couldStartLoop inst.opcode = true
    · exact ⟨c, inst, hfetch, hbr, hcyc⟩
    · have hbrf := bool_eq_false hbr
      rcases Relation.TransGen.head'_iff.mp hcyc with ⟨t, hstep, hpath⟩
      have hstep' := hstep
      rcases hstep with ⟨inst2, hfetch2, htsucc⟩
      rw [hfetch] at hfetch2
      injection hfetch2 with hinj
      subst hinj
      have hct : c < t := epsStep_lt_of_not_branch P c t inst hfetch hbrf htsucc
      have hcyc2 : Relation.TransGen (epsStep P) t t :=
        Relation.TransGen.tail' hpath hstep'
      rcases cycle_fetch P t hcyc2 with ⟨inst3, hfetch3⟩
      have htlt : t < P.length := by
        rcases List.getElem?_eq_some_iff.mp hfetch3 with ⟨h, _⟩
        exact h
      exact ihn t (by omega) hcyc2

/-- `Prog_assertNoInfiniteLoops` aborts exactly when some loop candidate
lies on a nonempty epsilon cycle. -/
theorem hasInfiniteLoop_iff (P : List Inst) :
    Prog_hasInfiniteLoop P = true ↔
      ∃ b inst, P[b]? = some inst ∧ Inst_couldStartLoop inst.opcode = true ∧
        Relation.TransGen (epsStep P) b b := by
  unfold Prog_hasInfiniteLoop
  rw [List.any_eq_true]
  constructor
  · rintro ⟨i, hi, hp⟩
    cases hfetch : P[i]? with
    | none => rw [hfetch] at hp; simp at hp
    | some inst =>
      rw [hfetch] at hp
      dsimp only at hp
      rw [Bool.and_eq_true] at hp
      exact ⟨i, inst, hfetch, hp.1, (closure_detects P i inst hfetch).mp hp.2⟩
  · rintro ⟨b, inst, hfetch, hbr, hcyc⟩
    have hblt : b < P.length := by
      rcases List.getElem?_eq_some_iff.mp hfetch with ⟨h, _⟩
      exact h
    refine ⟨b, List.mem_range.mpr hblt, ?_⟩
    rw [hfetch]
    dsimp only
    rw [Bool.and_eq_true]
    exact ⟨hbr, (closure_detects P b inst hfetch).mpr hcyc⟩

/-- C3: `Prog_assertNoInfiniteLoops` aborts fatally if and only if the
compiled program contains a cycle reachable from some Jmp, Split or
SplitMany instruction along edges that consume no input; in particular it
aborts on the program compiled from `(a*)*`. -/
theorem C3_loop_check_soundness :
    (∀ P : List Inst, Prog_hasInfiniteLoop P = true ↔
      ∃ b inst, P[b]? = some inst ∧ Inst_couldStartLoop inst.opcode = true ∧
        ∃ c, Relation.ReflTransGen (epsStep P) b c ∧
          Relation.TransGen (epsStep P) c c) ∧
    Prog_hasInfiniteLoop (compile (Regexp.Star false (Regexp.Paren 1
      (Regexp.Star false (Regexp.Lit 97)))) MemoEncoding.ENCODING_NONE 1) = true := by
  constructor
  · intro P
    rw [hasInfiniteLoop_iff]
    constructor
    · rintro ⟨b, inst, hf, hbr, hcyc⟩
      exact ⟨b, inst, hf, hbr, b, Relation.ReflTransGen.refl, hcyc⟩
    · rintro ⟨b, inst, hf, hbr, c, hreach, hcyc⟩
      exact cycle_has_branch P P.length c (Nat.sub_le _ _) hcyc
  · decide

/-! ## Backtracking VM (backtrack.c) -/

/-- `*sp`: the byte of the NUL-terminated input at offset `i` (0 at and
past the terminator). -/
def charAt (w : List Nat) (i : Nat) : Nat := w.getD i 0

/-- A backtracking thread: `(pc, sp, sub)`. -/
structure Thread where
  pc : Nat
  sp : Nat
  sub : List (Option Nat)
deriving Repr, DecidableEq

/-- The visit-count table (`initVisitTable` / `markVisit`). -/
structure VisitTable where
  visitVectors : List (List Nat)
  nStates : Nat
  nChars : Nat
deriving Repr, DecidableEq

/-- `initVisitTable(prog, nChars)`: `prog->len` rows of `nChars` zero
counters. -/
def initVisitTable (len nChars : Nat) : VisitTable :=
  ⟨List.replicate len (List.replicate nChars 0), len, nChars⟩

def VisitTable.count (vt : VisitTable) (q i : Nat) : Nat :=
  (vt.visitVectors.getD q []).getD i 0

/-- `visitTable->visitVectors[statenum][woffset]++` (the bounds assertions
of `markVisit` are checked by the step function). -/
def VisitTable.bump (vt : VisitTable) (q i : Nat) : VisitTable :=
  { vt with visitVectors :=
      vt.visitVectors.set q ((vt.visitVectors.getD q []).set i
        ((vt.visitVectors.getD q []).getD i 0 + 1)) }

/-- The per-encoding memo storage: dense visit vectors, the NEGATIVE
hash set of (stateNum, stringIndex) keys, or one RLE vector per state. -/
inductive MemoData where
  | dense (visitVectors : List (List Nat))
  | negative (searchStateTable : List (Nat × Nat))
  | rle (rleVectors : List RLEVector)
deriving Repr, DecidableEq

/-- The memo table (`Memo` of regexp.h). -/
structure Memo where
  mode : MemoMode
  encoding : MemoEncoding
  nStates : Nat
  nChars : Nat
  data : MemoData
deriving Repr, DecidableEq

/-- `isMarked(memo, statenum, woffset)` (backtrack.c): dense lookup `== 1`,
hash lookup, or `RLEVector_get != 0`. -/
def isMarked (memo : Memo) (q i : Nat) : Bool :=
  match memo.data with
  | .dense vv => (vv.getD q []).getD i 0 == 1
  | .negative tbl => tbl.contains (q, i)
  | .rle vecs => RLEVector_get (vecs.getD q (RLEVector_create 0 1)) i != 0

/-- `markMemo(memo, statenum, woffset)` (backtrack.c): dense `= 1`,
`HASH_ADD` of the (statenum, woffset) key, or `RLEVector_set`. -/
def markMemo (memo : Memo) (q i : Nat) : Memo :=
  { memo with data :=
      match memo.data with
      | .dense vv => .dense (vv.set q ((vv.getD q []).set i 1))
      | .negative tbl => .negative ((q, i) :: tbl)
      | .rle vecs =>
        .rle (vecs.set q (RLEVector_set (vecs.getD q (RLEVector_create 0 1)) i)) }

/-- `initMemoTable(prog, nChars, memoMode, memoEncoding)`.  `none` models the
`assert(0)` on an unexpected encoding.  The RLE branch calls
`RLEVector_create()` with no arguments (see C6), so the logical length and
group width the vectors receive are indeterminate; they are surfaced here
as the parameters `rleSize` and `rleK` (the spec intends `nChars` and 1). -/
def initMemoTable (nStatesToTrack nChars : Nat) (memoMode : MemoMode)
    (memoEncoding : MemoEncoding) (rleSize rleK : Nat) : Option Memo :=
  match memoEncoding with
  | MemoEncoding.ENCODING_NONE =>
    some ⟨memoMode, memoEncoding, nStatesToTrack, nChars,
      .dense (List.replicate nStatesToTrack (List.replicate nChars 0))⟩
  | MemoEncoding.ENCODING_NEGATIVE =>
    some ⟨memoMode, memoEncoding, nStatesToTrack, nChars, .negative []⟩
  | MemoEncoding.ENCODING_RLE =>
    some ⟨memoMode, memoEncoding, nStatesToTrack, nChars,
      .rle (List.replicate nStatesToTrack (RLEVector_create rleSize rleK))⟩
  | MemoEncoding.ENCODING_RLE_TUNED => none

/-- Modelled from the spec: `update(sub, n, sp)` (sub.c is not in the
sources; spec 4.6: "copy-on-write if shared; set slot n to sp"). -/
def update (sub : List (Option Nat)) (n : Nat) (sp : Nat) : List (Option Nat) :=
  sub.set n (some sp)

/-- The outcome of a backtracking run.  `matched`/`nomatch` carry the final
visit and memo tables `printStats` reads; `fatalOverflow` is the
`"backtrack overflow"` abort; `assertFail` is a failed `markVisit` bounds
assertion, the `assert(pc->opcode != Match)` on a marked Match, or a fetch
of `pc` outside the program (undefined behaviour in the C). -/
inductive BTResult where
  | matched (subp : List (Option Nat)) (visit : VisitTable) (memo : Memo)
  | nomatch (visit : VisitTable) (memo : Memo)
  | fatalOverflow
  | assertFail
  | outOfFuel
deriving Repr, DecidableEq

/-- One iteration of the inner `for(;;)` can finish the whole simulation or
continue with a new machine state. -/
inductive StepOut where
  | done (r : BTResult)
  | next (ready : List Thread) (visit : VisitTable) (memo : Memo)
deriving Repr, DecidableEq

/-- `markVisit` then one dispatch of `switch(pc->opcode)` (backtrack.c
lines 434-470).  Char/Any advance or kill the thread; Match returns; Jmp and
Split redirect (Split pushes the `y` thread, fatal on overflow of the
1000-entry stack); Save updates `sub`.  Every other opcode has no case in
the C switch, so the loop repeats on the unchanged thread. -/
def dispatchStep (w : List Nat) (inst : Inst) (th : Thread)
    (rest : List Thread) (visit : VisitTable) (memo : Memo) : StepOut :=
  if inst.stateNum < visit.nStates ∧ th.sp < visit.nChars then
    let visit2 := visit.bump inst.stateNum th.sp
    match inst.opcode with
    | .OpChar c =>
      if charAt w th.sp = c then .next (⟨th.pc + 1, th.sp + 1, th.sub⟩ :: rest) visit2 memo
      else .next rest visit2 memo
    | .OpAny =>
      if charAt w th.sp = 0 then .next rest visit2 memo
      else .next (⟨th.pc + 1, th.sp + 1, th.sub⟩ :: rest) visit2 memo
    | .OpMatch => .done (.matched th.sub visit2 memo)
    | .OpJmp x => .next (⟨x, th.sp, th.sub⟩ :: rest) visit2 memo
    | .OpSplit x y =>
      if rest.length ≥ 1000 then .done .fatalOverflow
      else .next (⟨x, th.sp, th.sub⟩ :: ⟨y, th.sp, th.sub⟩ :: rest) visit2 memo
    | .OpSave n => .next (⟨th.pc + 1, th.sp, update th.sub n th.sp⟩ :: rest) visit2 memo
    | _ => .next (th :: rest) visit2 memo
  else .done .assertFail

/-- One iteration of `backtrack`'s loops: an empty stack returns 0; else the
top thread runs its memo check (kill on a marked state, after
`assert(pc->opcode != Match)`; else mark) and then one dispatch. -/
def step (P : List Inst) (w : List Nat) (memoMode : MemoMode) :
    List Thread → VisitTable → Memo → StepOut
  | [], visit, memo => .done (.nomatch visit memo)
  | th :: rest, visit, memo =>
    match P[th.pc]? with
    | none => .done .assertFail
    | some inst =>
      match memoMode, inst.memoStateNum with
      | MemoMode.MEMO_NONE, _ => dispatchStep w inst th rest visit memo
      | _, none => dispatchStep w inst th rest visit memo
      | _, some ms =>
        if isMarked memo ms th.sp then
          if inst.opcode = Opcode.OpMatch then .done .assertFail
          else .next rest visit memo
        else dispatchStep w inst th rest visit (markMemo memo ms th.sp)

/-- Run the machine for at most `fuel` iterations. -/
def runBT (P : List Inst) (w : List Nat) (memoMode : MemoMode) :
    Nat → List Thread → VisitTable → Memo → BTResult
  | 0, _, _, _ => .outOfFuel
  | fuel + 1, ready, visit, memo =>
    match step P w memoMode ready visit memo with
    | .done r => r
    | .next r2 v2 m2 => runBT P w memoMode fuel r2 v2 m2

/-- `backtrack(prog, input, subp, nsubp)`: initial thread
`<start, w[0], fresh sub>` on a fresh visit table of `|w|+1` columns. -/
def backtrack (P : List Inst) (w : List Nat) (nsubp : Nat)
    (memoMode : MemoMode) (memo : Memo) (fuel : Nat) : BTResult :=
  runBT P w memoMode fuel [⟨0, 0, List.replicate nsubp none⟩]
    (initVisitTable P.length (w.length + 1)) memo

/-! ## Memo-vertex selection (spec 4.5; memoize.c is not among the
sources) -/

/-- Modelled from the spec: the opcodes with a fall-through edge to the
next instruction, for the in-degree count "over fall-through plus x, y,
edges[] targets" (spec 4.5). -/
def fallsThrough (op : Opcode) : Bool :=
  match op with
  | .OpChar _ => true
  | .OpAny => true
  | .OpSave _ => true
  | .OpCharClass _ _ => true
  | .OpStringCompare _ => true
  | .OpInlineZWA _ => true
  | _ => false

/-- Modelled from the spec: the incoming-edge sources counted by the
in-degree analysis. -/
def indegEdges (q : Nat) (op : Opcode) : List Nat :=
  (if fallsThrough op then [q + 1] else []) ++ opTargets op

/-- Modelled from the spec: in-degree of state `q'` over fall-through plus
x, y and edges[] targets. -/
def inDegree (P : List Inst) (q' : Nat) : Nat :=
  ((List.range P.length).map (fun q =>
    match P[q]? with
    | some inst => (indegEdges q inst.opcode).count q'
    | none => 0)).sum

/-- Modelled from the spec: which states each memo mode selects (spec 4.5):
FULL every instruction, IN_DEGREE_GT1 those with in-degree above one,
LOOP_DEST the `x` targets of backward Jmps. -/
def selOf (P : List Inst) (mode : MemoMode) : Nat → Bool :=
  match mode with
  | .MEMO_NONE => fun _ => false
  | .MEMO_FULL => fun _ => true
  | .MEMO_IN_DEGREE_GT1 => fun q => decide (1 < inDegree P q)
  | .MEMO_LOOP_DEST => fun q =>
    (List.range P.length).any (fun j =>
      match P[j]? with
      | some inst =>
        match inst.opcode with
        | .OpJmp x => decide (x ≤ j) && x == q
        | _ => false
      | none => false)

/-- Modelled from the spec: walk the program in order and hand consecutive
memo indices 0,1,2,... to the selected states. -/
def assignMemoAux (sel : Nat → Bool) : Nat → Nat → List Inst → List Inst
  | _, _, [] => []
  | q, next, inst :: rest =>
    if sel q then
      { inst with memoStateNum := some next } :: assignMemoAux sel (q + 1) (next + 1) rest
    else
      { inst with memoStateNum := none } :: assignMemoAux sel (q + 1) next rest

/-- How many of `q0, q0+1, ..., q0+n-1` the policy selects. -/
def countSel (sel : Nat → Bool) : Nat → Nat → Nat
  | _, 0 => 0
  | q0, n + 1 => (if sel q0 then 1 else 0) + countSel sel (q0 + 1) n

/-- Modelled from the spec: `Prog_determineMemoNodes`. -/
def Prog_determineMemoNodes (P : List Inst) (mode : MemoMode) : List Inst :=
  assignMemoAux (selOf P mode) 0 0 P

/-- `nMemoizedStates`: the number of selected instructions. -/
def nMemoizedStates (P : List Inst) (mode : MemoMode) : Nat :=
  countSel (selOf P mode) 0 P.length

theorem assignMemoAux_length (sel : Nat → Bool) :
    ∀ (P : List Inst) (q0 next : Nat), (assignMemoAux sel q0 next P).length = P.length := by
  intro P
  induction P with
  | nil => intro q0 next; rfl
  | cons inst rest ih =>
    intro q0 next
    simp only [assignMemoAux]
    by_cases h : sel q0 <;> simp [h, ih]

theorem assignMemoAux_getElem? (sel : Nat → Bool) :
    ∀ (P : List Inst) (q0 next j : Nat),
    (assignMemoAux sel q0 next P)[j]? =
      (P[j]?).map (fun inst =>
        { inst with memoStateNum :=
            if (sel (q0 + j)) then some (next + countSel sel q0 j) else none }) := by
  intro P
  induction P with
  | nil => intro q0 next j; rfl
  | cons inst rest ih =>
    intro q0 next j
    cases j with
    | zero =>
      simp only [assignMemoAux, countSel]
      by_cases h : sel q0 <;> simp [h]
    | succ j =>
      simp only [assignMemoAux]
      have h1 : q0 + (j + 1) = q0 + 1 + j := by omega
      by_cases h : sel q0
      · rw [if_pos h]
        rw [List.getElem?_cons_succ, List.getElem?_cons_succ, ih (q0 + 1) (next + 1) j]
        have h2 : next + 1 + countSel sel (q0 + 1) j
            = next + (1 + countSel sel (q0 + 1) j) := by omega
        simp [countSel, h, h1, h2]
      · rw [if_neg h]
        rw [List.getElem?_cons_succ, List.getElem?_cons_succ, ih (q0 + 1) next j]
        simp [countSel, h, h1]

theorem countSel_lt (sel : Nat → Bool) :
    ∀ (n j q0 : Nat), j < n → sel (q0 + j) = true →
      countSel sel q0 j < countSel sel q0 n := by
  intro n
  induction n with
  | zero => intro j q0 h; omega
  | succ n ihn =>
    intro j q0 hj hsel
    cases j with
    | zero =>
      rw [Nat.add_zero] at hsel
      simp [countSel, hsel]
    | succ j =>
      simp only [countSel]
      have harr : q0 + 1 + j = q0 + (j + 1) := by omega
      have := ihn j (q0 + 1) (by omega) (by rw [harr]; exact hsel)
      omega

/-- The step edges the backtracking dispatch can actually create, as
(target, input-offset delta) pairs. -/
def vmEdges (q : Nat) (op : Opcode) : List (Nat × Nat) :=
  match op with
  | .OpChar _ => [(q + 1, 1)]
  | .OpAny => [(q + 1, 1)]
  | .OpJmp x => [(x, 0)]
  | .OpSplit x y => [(x, 0), (y, 0)]
  | .OpSave _ => [(q + 1, 0)]
  | _ => []

theorem vmEdges_count_le_indeg (q : Nat) (op : Opcode) (t : Nat) :
    ((vmEdges q op).map Prod.fst).count t ≤ (indegEdges q op).count t := by
  cases op <;> simp [vmEdges, indegEdges, fallsThrough, opTargets]

/-- How many dispatch edges point at `q'`. -/
def vmPredCount (P : List Inst) (q' : Nat) : Nat :=
  ((List.range P.length).map (fun q =>
    match P[q]? with
    | some inst => ((vmEdges q inst.opcode).map Prod.fst).count q'
    | none => 0)).sum

theorem vmPredCount_le_inDegree (P : List Inst) (q' : Nat) :
    vmPredCount P q' ≤ inDegree P q' := by
  apply List.sum_le_sum
  intro q hq
  match hfetch : P[q]? with
  | none => exact Nat.le_refl 0
  | some inst => exact vmEdges_count_le_indeg q inst.opcode q'

/-! ## Memo-table invariants -/

/-- Structural health of a memo table: dense tables have the advertised
rectangle shape; RLE tables hold one properly encoded width-1 vector of
logical length `nChars` per state (the parameters spec 4.7 intends). -/
def MemoInv (memo : Memo) : Prop :=
  match memo.data with
  | .dense vv => vv.length = memo.nStates ∧ ∀ row ∈ vv, row.length = memo.nChars
  | .negative _ => True
  | .rle vecs => vecs.length = memo.nStates ∧
      ∀ v ∈ vecs, ∃ truth, Tracks memo.nChars 1 v truth

theorem rle_get_tracked {N : Nat} {v : RLEVector} {truth : Nat → Bool}
    (hT : Tracks N 1 v truth) (j : Nat) (hj : j < N) :
    RLEVector_get v j = if truth j then 1 else 0 :=
  tracks_get N 1 v truth (by omega) hT j (by simpa using hj)

theorem markMemo_self (memo : Memo) (q i : Nat) (hInv : MemoInv memo)
    (hq : q < memo.nStates) (hi : i < memo.nChars) :
    isMarked (markMemo memo q i) q i = true := by
  rcases memo with ⟨mode, enc, nS, nC, data⟩
  simp only at hq hi
  cases data with
  | dense vv =>
    obtain ⟨hlen, hrows⟩ := hInv
    simp only at hlen hrows
    have hqv : q < vv.length := by omega
    have hrow : (vv.getD q []).length = nC := by
      rw [List.getD_eq_getElem vv [] hqv]
      exact hrows _ (vv.getElem_mem hqv)
    simp only [isMarked, markMemo]
    rw [List.getD_eq_getElem _ [] (by rw [List.length_set]; omega)]
    rw [List.getElem_set_self]
    rw [List.getD_eq_getElem _ 0 (by rw [List.length_set]; omega)]
    rw [List.getElem_set_self]
    rfl
  | negative tbl =>
    simp [isMarked, markMemo]
  | rle vecs =>
    obtain ⟨hlen, hvecs⟩ := hInv
    simp only at hlen hvecs
    have hqv : q < vecs.length := by omega
    have hv : vecs.getD q (RLEVector_create 0 1) = vecs[q] :=
      List.getD_eq_getElem vecs _ hqv
    obtain ⟨truth, hT⟩ := hvecs _ (vecs.getElem_mem hqv)
    simp only [isMarked, markMemo]
    rw [List.getD_eq_getElem _ _ (by rw [List.length_set]; omega)]
    rw [List.getElem_set_self]
    rw [hv]
    have hT2 := tracks_set nC 1 vecs[q] truth i (by omega) hT hi
    rw [rle_get_tracked hT2 i hi]
    simp

theorem markMemo_mono (memo : Memo) (q i q' i' : Nat) (hInv : MemoInv memo)
    (hi : i < memo.nChars) (hi' : i' < memo.nChars)
    (hm : isMarked memo q' i' = true) :
    isMarked (markMemo memo q i) q' i' = true := by
  rcases memo with ⟨mode, enc, nS, nC, data⟩
  simp only at hi hi'
  cases data with
  | dense vv =>
    simp only [isMarked, markMemo] at hm ⊢
    by_cases hqv : q < vv.length
    · by_cases hqq : q' = q
      · subst hqq
        have hgd : vv.getD q' [] = vv[q'] := List.getD_eq_getElem vv [] hqv
        rw [List.getD_eq_getElem _ [] (by rw [List.length_set]; omega)]
        rw [List.getElem_set_self]
        rw [hgd]
        rw [List.getD_eq_getElem vv [] hqv] at hm
        by_cases hii : i' = i
        · subst hii
          by_cases hlt : i' < vv[q'].length
          · rw [List.getD_eq_getElem _ 0 (by rw [List.length_set]; exact hlt)]
            rw [List.getElem_set_self]
            rfl
          · rw [List.set_eq_of_length_le (by omega)]
            exact hm
        · by_cases hlt : i' < vv[q'].length
          · rw [List.getD_eq_getElem _ 0 (by rw [List.length_set]; exact hlt)]
            rw [List.getElem_set_ne (fun h => hii h.symm) (by rw [List.length_set]; exact hlt)]
            rw [List.getD_eq_getElem _ 0 hlt] at hm
            exact hm
          · rw [List.getD_eq_default _ _ (by rw [List.length_set]; omega)]
            rw [List.getD_eq_default _ _ (by omega)] at hm
            exact hm
      · have houter : (vv.set q ((vv.getD q []).set i 1)).getD q' [] = vv.getD q' [] := by
          rw [List.getD_eq_getElem?_getD, List.getD_eq_getElem?_getD,
            List.getElem?_set_ne (fun h => hqq h.symm)]
          exact (List.getD_eq_getElem?_getD _ _ _).symm
        rw [houter]
        exact hm
    · rw [List.set_eq_of_length_le (by omega)]
      exact hm
  | negative tbl =>
    simp only [isMarked, markMemo] at hm ⊢
    simp only [List.contains_cons]
    rw [hm]
    simp
  | rle vecs =>
    obtain ⟨hlen, hvecs⟩ := hInv
    simp only at hlen hvecs
    simp only [isMarked, markMemo] at hm ⊢
    by_cases hqv : q < vecs.length
    · by_cases hqq : q' = q
      · subst hqq
        have hgd : vecs.getD q' (RLEVector_create 0 1) = vecs[q'] :=
          List.getD_eq_getElem vecs _ hqv
        rw [List.getD_eq_getElem _ _ (by rw [List.length_set]; omega)]
        rw [List.getElem_set_self]
        rw [hgd]
        rw [hgd] at hm
        obtain ⟨truth, hT⟩ := hvecs _ (vecs.getElem_mem hqv)
        have hT2 := tracks_set nC 1 vecs[q'] truth i (by omega) hT hi
        rw [rle_get_tracked hT i' hi'] at hm
        rw [rle_get_tracked hT2 i' hi']
        by_cases htr : truth i'
        · simp [htr]
        · rw [if_neg htr] at hm
          simp at hm
      · have houter : (vecs.set q (RLEVector_set (vecs.getD q (RLEVector_create 0 1)) i)).getD
            q' (RLEVector_create 0 1) = vecs.getD q' (RLEVector_create 0 1) := by
          rw [List.getD_eq_getElem?_getD, List.getD_eq_getElem?_getD,
            List.getElem?_set_ne (fun h => hqq h.symm)]
          exact (List.getD_eq_getElem?_getD _ _ _).symm
        rw [houter]
        exact hm
    · rw [List.set_eq_of_length_le (by omega)]
      exact hm

theorem markMemo_MemoInv (memo : Memo) (q i : Nat) (hInv : MemoInv memo)
    (hi : i < memo.nChars) : MemoInv (markMemo memo q i) := by
  rcases memo with ⟨mode, enc, nS, nC, data⟩
  simp only at hi
  cases data with
  | dense vv =>
    obtain ⟨hlen, hrows⟩ := hInv
    simp only at hlen hrows
    by_cases hqv : q < vv.length
    · refine ⟨by simpa using hlen, ?_⟩
      intro row hrow
      rcases List.mem_or_eq_of_mem_set hrow with hmem | heq
      · exact hrows row hmem
      · subst heq
        rw [List.length_set]
        rw [List.getD_eq_getElem vv [] hqv]
        exact hrows _ (vv.getElem_mem hqv)
    · have hno : vv.set q ((vv.getD q []).set i 1) = vv := List.set_eq_of_length_le (by omega)
      exact ⟨by simp [markMemo, hno, hlen], by simp only [markMemo, hno]; exact hrows⟩
  | negative tbl => trivial
  | rle vecs =>
    obtain ⟨hlen, hvecs⟩ := hInv
    simp only at hlen hvecs
    by_cases hqv : q < vecs.length
    · refine ⟨by simpa using hlen, ?_⟩
      intro v hv
      rcases List.mem_or_eq_of_mem_set hv with hmem | heq
      · exact hvecs v hmem
      · subst heq
        rw [List.getD_eq_getElem vecs _ hqv]
        obtain ⟨truth, hT⟩ := hvecs _ (vecs.getElem_mem hqv)
        exact ⟨_, tracks_set nC 1 vecs[q] truth i (by omega) hT hi⟩
    · have hno : vecs.set q (RLEVector_set (vecs.getD q (RLEVector_create 0 1)) i) = vecs :=
        List.set_eq_of_length_le (by omega)
      exact ⟨by simp [markMemo, hno, hlen], by simp only [markMemo, hno]; exact hvecs⟩

theorem initMemoTable_spec (nS nC : Nat) (mode : MemoMode) (enc : MemoEncoding)
    (henc : enc ≠ MemoEncoding.ENCODING_RLE_TUNED) :
    ∃ memo, initMemoTable nS nC mode enc nC 1 = some memo ∧
      memo.nStates = nS ∧ memo.nChars = nC ∧ memo.mode = mode ∧
      memo.encoding = enc ∧ MemoInv memo ∧
      ∀ q i, isMarked memo q i = false := by
  cases enc with
  | ENCODING_NONE =>
    refine ⟨_, rfl, rfl, rfl, rfl, rfl, ⟨by simp, ?_⟩, ?_⟩
    · intro row hrow
      rw [List.eq_of_mem_replicate hrow]
      simp
    · intro q i
      simp only [isMarked]
      by_cases hq : q < nS
      · rw [List.getD_eq_getElem _ [] (by simpa using hq)]
        rw [List.getElem_replicate]
        by_cases hi : i < nC
        · rw [List.getD_eq_getElem _ 0 (by simpa using hi)]
          rw [List.getElem_replicate]
          rfl
        · rw [List.getD_eq_default _ _ (by simpa using hi)]
          rfl
      · rw [List.getD_eq_default (List.replicate nS (List.replicate nC 0)) []
          (by simpa using hq)]
        simp
  | ENCODING_NEGATIVE =>
    exact ⟨_, rfl, rfl, rfl, rfl, rfl, trivial, fun q i => by simp [isMarked]⟩
  | ENCODING_RLE =>
    refine ⟨_, rfl, rfl, rfl, rfl, rfl, ⟨by simp, ?_⟩, ?_⟩
    · intro v hv
      rw [List.eq_of_mem_replicate hv]
      exact ⟨_, tracks_create nC 1⟩
    · intro q i
      simp only [isMarked]
      by_cases hq : q < nS
      · rw [List.getD_eq_getElem _ _ (by simpa using hq)]
        rw [List.getElem_replicate]
        simp [RLEVector_get, RLEVector_getAux, RLEVector_create]
      · rw [List.getD_eq_default (List.replicate nS (RLEVector_create nC 1))
          (RLEVector_create 0 1) (by simpa using hq)]
        simp [RLEVector_get, RLEVector_getAux, RLEVector_create]
  | ENCODING_RLE_TUNED => exact absurd rfl henc

/-! ## Visit-bound invariant infrastructure (C1) -/

/-- Number of pending threads parked on the search state `(q, i)`. -/
def slots (ready : List Thread) (q i : Nat) : Nat :=
  (ready.filter (fun th => th.pc == q && th.sp == i)).length

/-- The search state `(q, i)` is blocked: its instruction is memoized and its
memo cell is marked, so any thread that reaches it dies at the memo check. -/
def blockedB (P : List Inst) (memo : Memo) (q i : Nat) : Bool :=
  decide (i < memo.nChars) &&
    (match P[q]? with
     | some inst =>
       match inst.memoStateNum with
       | some ms => isMarked memo ms i
       | none => false
     | none => false)

/-- Threads parked on `(q, i)` that can still fire its dispatch. -/
def unblocked (P : List Inst) (memo : Memo) (ready : List Thread) (q i : Nat) : Nat :=
  if blockedB P memo q i then 0 else slots ready q i

/-- All dispatch edges of the program, as (source, target, offset delta). -/
def allEdges (P : List Inst) : List (Nat × Nat × Nat) :=
  (List.range P.length).flatMap (fun q =>
    match P[q]? with
    | some inst => (vmEdges q inst.opcode).map (fun e => (q, e.1, e.2))
    | none => [])

/-- How many arrivals the run can have produced at `(q', i')`: one initial
arrival at `(0, 0)` plus, for every dispatch edge into `q'`, the number of
times its source search state has fired. -/
def inflow (P : List Inst) (V : Nat → Nat → Nat) (q' i' : Nat) : Nat :=
  (if q' = 0 ∧ i' = 0 then 1 else 0) +
    ((allEdges P).map (fun e =>
      if e.2.1 = q' ∧ e.2.2 ≤ i' then V e.1 (i' - e.2.2) else 0)).sum

/-- The number of edges by which one firing of `(q, i)` can reach `(q', i')`. -/
def sendCount (P : List Inst) (q i q' i' : Nat) : Nat :=
  ((allEdges P).filter
    (fun e => e.1 == q && e.2.1 == q' && i' == i + e.2.2)).length

/-- Opcodes without a case in the `switch` of backtrack.c. -/
def unhandledOp (op : Opcode) : Bool :=
  match op with
  | .OpChar _ => false
  | .OpAny => false
  | .OpMatch => false
  | .OpJmp _ => false
  | .OpSplit _ _ => false
  | .OpSave _ => false
  | _ => true

/-- The top thread sits on an opcode the dispatch does not handle and the
memo check will never kill it: the inner loop repeats forever. -/
def SpinTop (P : List Inst) (mode : MemoMode) (ready : List Thread) : Prop :=
  ∃ th rest inst, ready = th :: rest ∧ P[th.pc]? = some inst ∧
    unhandledOp inst.opcode = true ∧
    (mode = MemoMode.MEMO_NONE ∨ inst.memoStateNum = none)

theorem slots_cons (th : Thread) (rest : List Thread) (q i : Nat) :
    slots (th :: rest) q i =
      slots rest q i + (if th.pc = q ∧ th.sp = i then 1 else 0) := by
  simp only [slots]
  by_cases h : th.pc = q ∧ th.sp = i
  · rw [List.filter_cons_of_pos (by simp [h.1, h.2])]
    simp [h]
  · rw [List.filter_cons_of_neg (by
      simp only [Bool.and_eq_true, beq_iff_eq]
      intro hc
      exact h hc)]
    simp [h]

theorem slots_append (l1 l2 : List Thread) (q i : Nat) :
    slots (l1 ++ l2) q i = slots l1 q i + slots l2 q i := by
  simp [slots, List.filter_append]

theorem sum_map_add_count {α : Type} (l : List α) (f g : α → Nat) (p : α → Bool)
    (h : ∀ e ∈ l, f e = g e + (if p e then 1 else 0)) :
    (l.map f).sum = (l.map g).sum + (l.filter p).length := by
  induction l with
  | nil => simp
  | cons a l ih =>
    simp only [List.map_cons, List.sum_cons]
    rw [h a (List.mem_cons_self _ _), ih (fun e he => h e (List.mem_cons_of_mem _ he))]
    by_cases hp : p a
    · rw [List.filter_cons_of_pos hp]
      simp only [List.length_cons, if_pos hp]
      omega
    · rw [List.filter_cons_of_neg (by simpa using hp)]
      simp only [if_neg hp]
      omega

theorem sum_map_le {α : Type} (l : List α) (f g : α → Nat)
    (h : ∀ e ∈ l, f e ≤ g e) : (l.map f).sum ≤ (l.map g).sum := by
  induction l with
  | nil => simp
  | cons a l ih =>
    simp only [List.map_cons, List.sum_cons]
    have := ih (fun e he => h e (List.mem_cons_of_mem _ he))
    have := h a (List.mem_cons_self _ _)
    omega

theorem inflow_mono (P : List Inst) (V V2 : Nat → Nat → Nat)
    (h : ∀ p j, V p j ≤ V2 p j) (q' i' : Nat) :
    inflow P V q' i' ≤ inflow P V2 q' i' := by
  simp only [inflow]
  have := sum_map_le (allEdges P)
    (fun e => if e.2.1 = q' ∧ e.2.2 ≤ i' then V e.1 (i' - e.2.2) else 0)
    (fun e => if e.2.1 = q' ∧ e.2.2 ≤ i' then V2 e.1 (i' - e.2.2) else 0)
    (fun e _ => by
      by_cases hc : e.2.1 = q' ∧ e.2.2 ≤ i'
      · simp only [if_pos hc]
        exact h _ _
      · simp [if_neg hc])
  omega

/-- Firing `(q, i)` raises each inflow by exactly the matching edge count. -/
theorem inflow_bump (P : List Inst) (V : Nat → Nat → Nat) (q i : Nat) (q' i' : Nat) :
    inflow P (fun p j => V p j + (if p = q ∧ j = i then 1 else 0)) q' i' =
      inflow P V q' i' + sendCount P q i q' i' := by
  simp only [inflow, sendCount]
  have := sum_map_add_count (allEdges P)
    (fun e => if e.2.1 = q' ∧ e.2.2 ≤ i' then
        V e.1 (i' - e.2.2) + (if e.1 = q ∧ i' - e.2.2 = i then 1 else 0) else 0)
    (fun e => if e.2.1 = q' ∧ e.2.2 ≤ i' then V e.1 (i' - e.2.2) else 0)
    (fun e => e.1 == q && e.2.1 == q' && i' == i + e.2.2)
    (fun e _ => by
      dsimp only
      have hbe : ((e.1 == q && e.2.1 == q' && i' == i + e.2.2) = true) ↔
          (e.1 = q ∧ e.2.1 = q' ∧ i' = i + e.2.2) := by
        simp [Bool.and_eq_true, beq_iff_eq, and_assoc]
      by_cases hc : e.2.1 = q' ∧ e.2.2 ≤ i'
      · rw [if_pos hc, if_pos hc]
        by_cases hd : e.1 = q ∧ i' - e.2.2 = i
        · rw [if_pos hd, if_pos (hbe.mpr ⟨hd.1, hc.1, by omega⟩)]
        · rw [if_neg hd,
            if_neg (fun hb => hd ⟨(hbe.mp hb).1, by have := (hbe.mp hb).2.2; omega⟩)]
      · rw [if_neg hc, if_neg hc,
          if_neg (fun hb => hc ⟨(hbe.mp hb).2.1, by have := (hbe.mp hb).2.2; omega⟩)]
        try omega)
  omega

theorem filter_flatMap_ge {α β : Type} (l : List α) (f : α → List β) (p : β → Bool)
    (a : α) (ha : a ∈ l) :
    ((f a).filter p).length ≤ ((l.flatMap f).filter p).length := by
  induction l with
  | nil => simp at ha
  | cons b l ih =>
    rcases List.mem_cons.mp ha with rfl | ha2
    · simp only [List.flatMap_cons, List.filter_append, List.length_append]
      omega
    · simp only [List.flatMap_cons, List.filter_append, List.length_append]
      have := ih ha2
      omega

/-- The block of `allEdges` contributed by instruction `q` bounds the
send count from below. -/
theorem sendCount_ge (P : List Inst) (q : Nat) (inst : Inst)
    (hfetch : P[q]? = some inst) (i q' i' : Nat) :
    (((vmEdges q inst.opcode).map (fun e => (q, e.1, e.2))).filter
        (fun e => e.1 == q && e.2.1 == q' && i' == i + e.2.2)).length
      ≤ sendCount P q i q' i' := by
  have hq : q < P.length := (List.getElem?_eq_some_iff.mp hfetch).1
  have := filter_flatMap_ge (List.range P.length)
    (fun q2 =>
      match P[q2]? with
      | some inst => (vmEdges q2 inst.opcode).map (fun e => (q2, e.1, e.2))
      | none => [])
    (fun e => e.1 == q && e.2.1 == q' && i' == i + e.2.2)
    q (List.mem_range.mpr hq)
  simp only [hfetch] at this
  exact this

/-- The visit table has its advertised rectangular shape. -/
def VTShape (vt : VisitTable) : Prop :=
  vt.visitVectors.length = vt.nStates ∧
    ∀ row ∈ vt.visitVectors, row.length = vt.nChars

theorem bump_shape {vt : VisitTable} (h : VTShape vt) (q i : Nat) :
    VTShape (vt.bump q i) := by
  obtain ⟨hlen, hrows⟩ := h
  by_cases hqv : q < vt.visitVectors.length
  · constructor
    · simp [VisitTable.bump, hlen]
    · intro row hrow
      simp only [VisitTable.bump] at hrow
      rcases List.mem_or_eq_of_mem_set hrow with hmem | heq
      · exact hrows row hmem
      · subst heq
        rw [List.length_set]
        rw [List.getD_eq_getElem _ [] hqv]
        exact hrows _ (List.getElem_mem hqv)
  · have hno : vt.visitVectors.set q ((vt.visitVectors.getD q []).set i
        ((vt.visitVectors.getD q []).getD i 0 + 1)) = vt.visitVectors :=
      List.set_eq_of_length_le (by omega)
    exact ⟨by simp [VisitTable.bump, hno, hlen], by
      simp only [VisitTable.bump, hno]
      exact hrows⟩

theorem count_bump {vt : VisitTable} (h : VTShape vt) {q i : Nat}
    (hq : q < vt.nStates) (hi : i < vt.nChars) (q2 i2 : Nat) :
    (vt.bump q i).count q2 i2 =
      vt.count q2 i2 + (if q2 = q ∧ i2 = i then 1 else 0) := by
  obtain ⟨hlen, hrows⟩ := h
  have hqv : q < vt.visitVectors.length := by omega
  have hgd : vt.visitVectors.getD q [] = vt.visitVectors[q] :=
    List.getD_eq_getElem _ [] hqv
  have hrowlen : vt.visitVectors[q].length = vt.nChars :=
    hrows _ (List.getElem_mem hqv)
  by_cases hq2 : q2 = q
  · rw [hq2]
    simp only [VisitTable.count, VisitTable.bump]
    rw [List.getD_eq_getElem _ [] (by rw [List.length_set]; omega)]
    rw [List.getElem_set_self]
    rw [hgd]
    by_cases hi2 : i2 = i
    · rw [hi2]
      rw [if_pos (by simp)]
      rw [List.getD_eq_getElem _ 0 (by rw [List.length_set]; omega)]
      rw [List.getElem_set_self]
    · rw [if_neg (fun hc => hi2 hc.2)]
      by_cases hlt : i2 < vt.visitVectors[q].length
      · rw [List.getD_eq_getElem _ 0 (by rw [List.length_set]; exact hlt)]
        rw [List.getElem_set_ne (fun hh => hi2 hh.symm) (by rw [List.length_set]; exact hlt)]
        rw [List.getD_eq_getElem _ 0 hlt]
        omega
      · rw [List.getD_eq_default _ _ (by rw [List.length_set]; omega)]
        rw [List.getD_eq_default _ _ (by omega)]
  · simp only [VisitTable.count, VisitTable.bump]
    rw [if_neg (fun hc => hq2 hc.1)]
    have houter : (vt.visitVectors.set q ((vt.visitVectors.getD q []).set i
        ((vt.visitVectors.getD q []).getD i 0 + 1))).getD q2 [] =
        vt.visitVectors.getD q2 [] := by
      rw [List.getD_eq_getElem?_getD, List.getD_eq_getElem?_getD,
        List.getElem?_set_ne (fun hh => hq2 hh.symm)]
      exact (List.getD_eq_getElem?_getD _ _ _).symm
    rw [houter]
    omega

theorem count_zero_of_oob {vt : VisitTable} (h : VTShape vt) (q i : Nat)
    (hoob : vt.nStates ≤ q ∨ vt.nChars ≤ i) : vt.count q i = 0 := by
  obtain ⟨hlen, hrows⟩ := h
  simp only [VisitTable.count]
  rcases hoob with hoob | hoob
  · rw [List.getD_eq_default vt.visitVectors [] (by omega)]
    simp
  · by_cases hqv : q < vt.visitVectors.length
    · have hgd : vt.visitVectors.getD q [] = vt.visitVectors[q] :=
        List.getD_eq_getElem _ [] hqv
      rw [hgd]
      rw [List.getD_eq_default vt.visitVectors[q] 0
        (by rw [hrows _ (List.getElem_mem hqv)]; omega)]
    · rw [List.getD_eq_default vt.visitVectors [] (by omega)]
      simp

theorem initVisitTable_shape (len nChars : Nat) :
    VTShape (initVisitTable len nChars) := by
  constructor
  · simp [initVisitTable]
  · intro row hrow
    simp only [initVisitTable] at hrow
    rw [List.eq_of_mem_replicate hrow]
    simp [initVisitTable]

theorem initVisitTable_count (len nChars q i : Nat) :
    (initVisitTable len nChars).count q i = 0 := by
  simp only [VisitTable.count, initVisitTable]
  by_cases hq : q < len
  · rw [List.getD_eq_getElem _ [] (by simpa using hq)]
    rw [List.getElem_replicate]
    by_cases hi : i < nChars
    · rw [List.getD_eq_getElem _ 0 (by simpa using hi)]
      rw [List.getElem_replicate]
    · rw [List.getD_eq_default _ _ (by simpa using hi)]
  · rw [List.getD_eq_default (List.replicate len (List.replicate nChars 0)) []
      (by simpa using hq)]
    simp

theorem markMemo_nChars (memo : Memo) (q i : Nat) :
    (markMemo memo q i).nChars = memo.nChars := rfl

theorem markMemo_nStates (memo : Memo) (q i : Nat) :
    (markMemo memo q i).nStates = memo.nStates := rfl

theorem blockedB_mono (P : List Inst) (memo : Memo) (hInv : MemoInv memo)
    (ms i : Nat) (hi : i < memo.nChars) (q' i' : Nat)
    (hb : blockedB P memo q' i' = true) :
    blockedB P (markMemo memo ms i) q' i' = true := by
  simp only [blockedB, Bool.and_eq_true, decide_eq_true_eq] at hb ⊢
  obtain ⟨hi', hrest⟩ := hb
  refine ⟨by rw [markMemo_nChars]; exact hi', ?_⟩
  match hfetch : P[q']? with
  | none => rw [hfetch] at hrest; simp at hrest
  | some inst =>
    rw [hfetch] at hrest
    dsimp only at hrest ⊢
    match hmsn : inst.memoStateNum with
    | none => rw [hmsn] at hrest; simp at hrest
    | some ms2 =>
      rw [hmsn] at hrest
      dsimp only at hrest ⊢
      exact markMemo_mono memo ms i ms2 i' hInv hi hi' hrest

theorem blockedB_of_unmemoized (P : List Inst) (memo : Memo) (q i : Nat)
    (inst : Inst) (hfetch : P[q]? = some inst)
    (hnone : inst.memoStateNum = none) : blockedB P memo q i = false := by
  simp only [blockedB, hfetch, hnone]
  simp

/-- The run invariant behind the FULL / IN_DEGREE_GT1 visit bound: table
shapes, memo health, the arrival-conservation bound `hJ`, epsilon
reachability of every offset-0 state from the start, and the memoized-state
bound. -/
structure BTInv (P : List Inst) (w : List Nat) (ready : List Thread)
    (visit : VisitTable) (memo : Memo) : Prop where
  hvs : visit.nStates = P.length
  hvc : visit.nChars = w.length + 1
  hmc : memo.nChars = w.length + 1
  hshape : VTShape visit
  hminv : MemoInv memo
  hJ : ∀ q' i', visit.count q' i' + unblocked P memo ready q' i' ≤
      inflow P visit.count q' i'
  hreach : ∀ q, (1 ≤ visit.count q 0 ∨ 0 < slots ready q 0) →
      Relation.ReflTransGen (epsStep P) 0 q
  hmemoB : ∀ q inst ms i, P[q]? = some inst → inst.memoStateNum = some ms →
      visit.count q i ≤ 1 ∧ (1 ≤ visit.count q i → isMarked memo ms i)

theorem slots_nil (q i : Nat) : slots [] q i = 0 := rfl

theorem btinv_init (P : List Inst) (w : List Nat) (nsubp : Nat) (memo : Memo)
    (hmc : memo.nChars = w.length + 1) (hminv : MemoInv memo)
    (hunmarked : ∀ q i, isMarked memo q i = false) :
    BTInv P w [⟨0, 0, List.replicate nsubp none⟩]
      (initVisitTable P.length (w.length + 1)) memo := by
  have hcount := initVisitTable_count P.length (w.length + 1)
  have hslots : ∀ q i, slots [(⟨0, 0, List.replicate nsubp none⟩ : Thread)] q i =
      if 0 = q ∧ 0 = i then 1 else 0 := by
    intro q i
    rw [slots_cons, slots_nil]
    simp
  refine ⟨rfl, rfl, hmc, initVisitTable_shape _ _, hminv, ?_, ?_, ?_⟩
  · intro q' i'
    rw [hcount]
    have hub : unblocked P memo [(⟨0, 0, List.replicate nsubp none⟩ : Thread)] q' i' ≤
        slots [(⟨0, 0, List.replicate nsubp none⟩ : Thread)] q' i' := by
      simp only [unblocked]
      by_cases hb : blockedB P memo q' i'
      · simp [hb]
      · simp [hb]
    rw [hslots] at hub
    simp only [inflow]
    by_cases hc : q' = 0 ∧ i' = 0
    · rw [if_pos hc]
      have : (if 0 = q' ∧ 0 = i' then 1 else 0) = 1 := by
        rw [if_pos ⟨hc.1.symm, hc.2.symm⟩]
      omega
    · rw [if_neg hc]
      have : (if 0 = q' ∧ 0 = i' then 1 else 0) = 0 := by
        rw [if_neg (fun hcc => hc ⟨hcc.1.symm, hcc.2.symm⟩)]
      omega
  · intro q hq
    rcases hq with hq | hq
    · rw [hcount] at hq
      omega
    · rw [hslots] at hq
      by_cases hc : q = 0
      · rw [hc]
      · exfalso
        rw [if_neg (fun hcc => hc hcc.1.symm)] at hq
        omega
  · intro q inst ms i _ _
    rw [hcount]
    exact ⟨by omega, fun hcon => absurd hcon (by omega)⟩

/-- A spinning top thread spins: one step keeps the machine state except for
the visit counter, or dies on the visit-bound assertion. -/
theorem step_spin (P : List Inst) (w : List Nat) (mode : MemoMode)
    (ready : List Thread) (visit : VisitTable) (memo : Memo)
    (hspin : SpinTop P mode ready) :
    (∃ visit2, step P w mode ready visit memo = .next ready visit2 memo) ∨
      step P w mode ready visit memo = .done .assertFail := by
  obtain ⟨th, rest, inst, hready, hfetch, hunh, hmode⟩ := hspin
  subst hready
  have hdisp : (∃ visit2,
      dispatchStep w inst th rest visit memo = .next (th :: rest) visit2 memo) ∨
      dispatchStep w inst th rest visit memo = .done .assertFail := by
    by_cases hb : inst.stateNum < visit.nStates ∧ th.sp < visit.nChars
    · left
      refine ⟨visit.bump inst.stateNum th.sp, ?_⟩
      cases hop : inst.opcode <;> rw [hop] at hunh <;>
        first
          | exact Bool.noConfusion hunh
          | simp [dispatchStep, hb, hop]
    · right
      simp [dispatchStep, hb]
  simp only [step, hfetch]
  rcases hmode with hmode | hmsn
  · subst hmode
    exact hdisp.imp (fun ⟨v2, hv2⟩ => ⟨v2, by simpa using hv2⟩) (fun h => by simpa using h)
  · rw [hmsn]
    cases mode <;>
      exact hdisp.imp (fun ⟨v2, hv2⟩ => ⟨v2, by simpa using hv2⟩) (fun h => by simpa using h)

theorem spin_absorb (P : List Inst) (w : List Nat) (mode : MemoMode) :
    ∀ (fuel : Nat) (ready : List Thread) (visit : VisitTable) (memo : Memo),
      SpinTop P mode ready →
      runBT P w mode fuel ready visit memo = .outOfFuel ∨
        runBT P w mode fuel ready visit memo = .assertFail := by
  intro fuel
  induction fuel with
  | zero => intro ready visit memo _; left; rfl
  | succ f ih =>
    intro ready visit memo hspin
    rcases step_spin P w mode ready visit memo hspin with ⟨v2, hv2⟩ | hdone
    · simp only [runBT, hv2]
      exact ih ready v2 memo hspin
    · simp [runBT, hdone]

theorem slots_pos_mem {l : List Thread} {q i : Nat} (h : 0 < slots l q i) :
    ∃ t ∈ l, t.pc = q ∧ t.sp = i := by
  induction l with
  | nil => simp [slots] at h
  | cons t l ih =>
    rw [slots_cons] at h
    by_cases hc : t.pc = q ∧ t.sp = i
    · exact ⟨t, List.mem_cons_self _ _, hc⟩
    · rw [if_neg hc] at h
      rcases ih (by omega) with ⟨t2, ht2, hc2⟩
      exact ⟨t2, List.mem_cons_of_mem _ ht2, hc2⟩

/-- What one successful dispatch looks like: the bounds assertions held, the
visit counter was bumped, the memo table passed through, and the stack
either kept the spinning thread (unhandled opcode) or replaced it by the
opcode's new threads, which stay within the instruction's dispatch edges. -/
theorem dispatch_next_cases (w : List Nat) (inst : Inst) (th : Thread)
    (rest r2 : List Thread) (visit v2 : VisitTable) (memoX m2 : Memo)
    (hstep : dispatchStep w inst th rest visit memoX = .next r2 v2 m2) :
    inst.stateNum < visit.nStates ∧ th.sp < visit.nChars ∧
    v2 = visit.bump inst.stateNum th.sp ∧ m2 = memoX ∧
    ((r2 = th :: rest ∧ unhandledOp inst.opcode = true) ∨
      ∃ newTs, r2 = newTs ++ rest ∧
        (∀ q' i', slots newTs q' i' ≤
          (((vmEdges th.pc inst.opcode).map (fun e => (th.pc, e.1, e.2))).filter
            (fun e => e.1 == th.pc && e.2.1 == q' && i' == th.sp + e.2.2)).length) ∧
        (∀ t ∈ newTs, t.sp = 0 → th.sp = 0 ∧
          ∀ (P : List Inst), t.pc ∈ epsSucc P th.pc inst.opcode)) := by
  unfold dispatchStep at hstep
  rcases Decidable.em (inst.stateNum < visit.nStates ∧ th.sp < visit.nChars) with hb | hb
  case inr =>
    rw [if_neg hb] at hstep
    exact absurd hstep (by simp)
  rw [if_pos hb] at hstep
  refine ⟨hb.1, hb.2, ?_⟩
  cases hop : inst.opcode with
  | OpChar c =>
    rw [hop] at hstep
    dsimp only at hstep
    by_cases hch : charAt w th.sp = c
    · rw [if_pos hch] at hstep
      injection hstep with h1 h2 h3
      refine ⟨h2.symm, h3.symm, Or.inr ⟨[⟨th.pc + 1, th.sp + 1, th.sub⟩], by rw [← h1]; rfl, ?_, ?_⟩⟩
      · intro q' i'
        by_cases h1c : th.pc + 1 = q' <;> by_cases h2c : i' = th.sp + 1 <;>
          simp [slots_cons, slots_nil, vmEdges, h1c, h2c] <;> omega
      · intro t ht hsp0
        exfalso
        rw [List.mem_singleton] at ht
        rw [ht] at hsp0
        simp at hsp0
    · rw [if_neg hch] at hstep
      injection hstep with h1 h2 h3
      refine ⟨h2.symm, h3.symm, Or.inr ⟨[], by rw [← h1]; rfl, ?_, by simp⟩⟩
      intro q' i'
      simp [slots]
  | OpAny =>
    rw [hop] at hstep
    dsimp only at hstep
    by_cases hch : charAt w th.sp = 0
    · rw [if_pos hch] at hstep
      injection hstep with h1 h2 h3
      refine ⟨h2.symm, h3.symm, Or.inr ⟨[], by rw [← h1]; rfl, ?_, by simp⟩⟩
      intro q' i'
      simp [slots]
    · rw [if_neg hch] at hstep
      injection hstep with h1 h2 h3
      refine ⟨h2.symm, h3.symm, Or.inr ⟨[⟨th.pc + 1, th.sp + 1, th.sub⟩], by rw [← h1]; rfl, ?_, ?_⟩⟩
      · intro q' i'
        by_cases h1c : th.pc + 1 = q' <;> by_cases h2c : i' = th.sp + 1 <;>
          simp [slots_cons, slots_nil, vmEdges, h1c, h2c] <;> omega
      · intro t ht hsp0
        exfalso
        rw [List.mem_singleton] at ht
        rw [ht] at hsp0
        simp at hsp0
  | OpMatch =>
    rw [hop] at hstep
    exact absurd hstep (by simp)
  | OpJmp x =>
    rw [hop] at hstep
    dsimp only at hstep
    injection hstep with h1 h2 h3
    refine ⟨h2.symm, h3.symm, Or.inr ⟨[⟨x, th.sp, th.sub⟩], by rw [← h1]; rfl, ?_, ?_⟩⟩
    · intro q' i'
      by_cases h1c : x = q' <;> by_cases h2c : i' = th.sp <;>
        simp [slots_cons, slots_nil, vmEdges, h1c, h2c] <;> omega
    · intro t ht hsp
      rw [List.mem_singleton] at ht
      rw [ht] at hsp ⊢
      exact ⟨hsp, fun P => by simp [epsSucc]⟩
  | OpSplit x y =>
    rw [hop] at hstep
    dsimp only at hstep
    by_cases hovf : rest.length ≥ 1000
    · rw [if_pos hovf] at hstep
      exact absurd hstep (by simp)
    · rw [if_neg hovf] at hstep
      injection hstep with h1 h2 h3
      refine ⟨h2.symm, h3.symm,
        Or.inr ⟨[⟨x, th.sp, th.sub⟩, ⟨y, th.sp, th.sub⟩], by rw [← h1]; rfl, ?_, ?_⟩⟩
      · intro q' i'
        by_cases h1c : x = q' <;> by_cases h1d : y = q' <;> by_cases h2c : i' = th.sp <;>
          simp [slots_cons, slots_nil, vmEdges, h1c, h1d, h2c] <;> omega
      · intro t ht hsp
        rcases List.mem_cons.mp ht with ht2 | ht2
        · rw [ht2] at hsp ⊢
          exact ⟨hsp, fun P => by simp [epsSucc]⟩
        · rw [List.mem_singleton] at ht2
          rw [ht2] at hsp ⊢
          exact ⟨hsp, fun P => by simp [epsSucc]⟩
  | OpSave n =>
    rw [hop] at hstep
    dsimp only at hstep
    injection hstep with h1 h2 h3
    refine ⟨h2.symm, h3.symm,
      Or.inr ⟨[⟨th.pc + 1, th.sp, update th.sub n th.sp⟩], by rw [← h1]; rfl, ?_, ?_⟩⟩
    · intro q' i'
      by_cases h1c : th.pc + 1 = q' <;> by_cases h2c : i' = th.sp <;>
        simp [slots_cons, slots_nil, vmEdges, h1c, h2c] <;> omega
    · intro t ht hsp
      rw [List.mem_singleton] at ht
      rw [ht] at hsp ⊢
      exact ⟨hsp, fun P => by simp [epsSucc]⟩
  | OpSplitMany es =>
    rw [hop] at hstep
    dsimp only at hstep
    injection hstep with h1 h2 h3
    exact ⟨h2.symm, h3.symm, Or.inl ⟨h1.symm, rfl⟩⟩
  | OpCharClass rs inv =>
    rw [hop] at hstep
    dsimp only at hstep
    injection hstep with h1 h2 h3
    exact ⟨h2.symm, h3.symm, Or.inl ⟨h1.symm, rfl⟩⟩
  | OpStringCompare n =>
    rw [hop] at hstep
    dsimp only at hstep
    injection hstep with h1 h2 h3
    exact ⟨h2.symm, h3.symm, Or.inl ⟨h1.symm, rfl⟩⟩
  | OpInlineZWA c =>
    rw [hop] at hstep
    dsimp only at hstep
    injection hstep with h1 h2 h3
    exact ⟨h2.symm, h3.symm, Or.inl ⟨h1.symm, rfl⟩⟩
  | OpRecursiveZWA =>
    rw [hop] at hstep
    dsimp only at hstep
    injection hstep with h1 h2 h3
    exact ⟨h2.symm, h3.symm, Or.inl ⟨h1.symm, rfl⟩⟩
  | OpRecursiveMatch =>
    rw [hop] at hstep
    dsimp only at hstep
    injection hstep with h1 h2 h3
    exact ⟨h2.symm, h3.symm, Or.inl ⟨h1.symm, rfl⟩⟩

/-- Core preservation step: firing the top thread `(th.pc, th.sp)` bumps its
visit counter and replaces it by dispatch successors, and the invariant
survives. -/
theorem fire_preserves (P : List Inst) (w : List Nat)
    (th : Thread) (rest newTs : List Thread) (visit : VisitTable) (memo m2 : Memo)
    (hvs : visit.nStates = P.length) (hvc : visit.nChars = w.length + 1)
    (hmc2 : m2.nChars = w.length + 1)
    (hshape : VTShape visit) (hminv2 : MemoInv m2)
    (hq : th.pc < visit.nStates) (hi : th.sp < visit.nChars)
    (hJ : ∀ q' i', visit.count q' i' + unblocked P memo (th :: rest) q' i' ≤
        inflow P visit.count q' i')
    (hreach : ∀ q, (1 ≤ visit.count q 0 ∨ 0 < slots (th :: rest) q 0) →
        Relation.ReflTransGen (epsStep P) 0 q)
    (hubf : blockedB P memo th.pc th.sp = false)
    (hbmono : ∀ q' i', blockedB P memo q' i' = true → blockedB P m2 q' i' = true)
    (hsend : ∀ q' i', slots newTs q' i' ≤ sendCount P th.pc th.sp q' i' ∨
        (q' = th.pc ∧ i' = th.sp ∧ blockedB P m2 th.pc th.sp = true ∧
          slots newTs q' i' ≤ 1))
    (hreachNew : ∀ t ∈ newTs, t.sp = 0 → th.sp = 0 ∧
        (epsStep P th.pc t.pc ∨ t.pc = th.pc))
    (hmemoB2 : ∀ q2 inst2 ms2 i2, P[q2]? = some inst2 →
        inst2.memoStateNum = some ms2 →
        (visit.bump th.pc th.sp).count q2 i2 ≤ 1 ∧
          (1 ≤ (visit.bump th.pc th.sp).count q2 i2 → isMarked m2 ms2 i2)) :
    BTInv P w (newTs ++ rest) (visit.bump th.pc th.sp) m2 := by
  have hVb := fun q2 i2 => count_bump hshape hq hi q2 i2
  have hfun : (visit.bump th.pc th.sp).count =
      fun p j => visit.count p j + (if p = th.pc ∧ j = th.sp then 1 else 0) :=
    funext fun p => funext fun j => hVb p j
  have hinfl : ∀ q' i', inflow P (visit.bump th.pc th.sp).count q' i' =
      inflow P visit.count q' i' + sendCount P th.pc th.sp q' i' := by
    intro q' i'
    rw [hfun]
    exact inflow_bump P visit.count th.pc th.sp q' i'
  refine ⟨hvs, hvc, hmc2, bump_shape hshape _ _, hminv2, ?_, ?_, hmemoB2⟩
  · intro q' i'
    rw [hVb q' i', hinfl q' i']
    by_cases hb2 : blockedB P m2 q' i'
    · have hub2 : unblocked P m2 (newTs ++ rest) q' i' = 0 := by
        simp [unblocked, hb2]
      rw [hub2]
      by_cases hself : q' = th.pc ∧ i' = th.sp
      · rw [if_pos hself]
        have hJo := hJ q' i'
        have hubo : unblocked P memo (th :: rest) q' i' = slots (th :: rest) q' i' := by
          have hx : blockedB P memo q' i' = false := by
            rw [hself.1, hself.2]; exact hubf
          simp [unblocked, hx]
        have hsl : 1 ≤ slots (th :: rest) q' i' := by
          rw [slots_cons, if_pos ⟨hself.1.symm, hself.2.symm⟩]
          omega
        omega
      · rw [if_neg hself]
        have hJo := hJ q' i'
        omega
    · have hbo : blockedB P memo q' i' = false := by
        cases hx : blockedB P memo q' i'
        · rfl
        · exact absurd (hbmono q' i' hx) hb2
      have hub2 : unblocked P m2 (newTs ++ rest) q' i' =
          slots newTs q' i' + slots rest q' i' := by
        simp [unblocked, hb2, slots_append]
      have hubo : unblocked P memo (th :: rest) q' i' =
          slots rest q' i' + (if th.pc = q' ∧ th.sp = i' then 1 else 0) := by
        simp only [unblocked, hbo, Bool.false_eq_true, if_false]
        rw [slots_cons]
      have hJo := hJ q' i'
      rw [hubo] at hJo
      rw [hub2]
      rcases hsend q' i' with hs | ⟨he1, he2, hbl, _⟩
      · by_cases hself : q' = th.pc ∧ i' = th.sp
        · rw [if_pos hself]
          have hio : (if th.pc = q' ∧ th.sp = i' then 1 else 0) = 1 :=
            if_pos ⟨hself.1.symm, hself.2.symm⟩
          omega
        · rw [if_neg hself]
          have hio : (if th.pc = q' ∧ th.sp = i' then 1 else 0) = 0 :=
            if_neg (fun hc => hself ⟨hc.1.symm, hc.2.symm⟩)
          omega
      · rw [he1, he2] at hb2
        exact absurd hbl hb2
  · intro q2 hq2
    rcases hq2 with hv2 | hsl2
    · rw [hVb q2 0] at hv2
      by_cases hself : q2 = th.pc ∧ (0 : Nat) = th.sp
      · refine hreach q2 (Or.inr ?_)
        rw [slots_cons, if_pos ⟨hself.1.symm, hself.2.symm⟩]
        omega
      · rw [if_neg hself] at hv2
        exact hreach q2 (Or.inl (by omega))
    · rw [slots_append] at hsl2
      by_cases hrest : 0 < slots rest q2 0
      · refine hreach q2 (Or.inr ?_)
        rw [slots_cons]
        omega
      · have hnew : 0 < slots newTs q2 0 := by omega
        rcases slots_pos_mem hnew with ⟨t, htmem, htpc, htsp⟩
        obtain ⟨hth0, hstep2⟩ := hreachNew t htmem htsp
        have hreachq : Relation.ReflTransGen (epsStep P) 0 th.pc := by
          refine hreach th.pc (Or.inr ?_)
          rw [slots_cons, if_pos ⟨rfl, hth0⟩]
          omega
        rcases hstep2 with hstep2 | hsame
        · rw [← htpc]
          exact Relation.ReflTransGen.tail hreachq hstep2
        · rw [← htpc, hsame]
          exact hreachq

/-- Killing the top thread (memo hit) preserves the invariant. -/
theorem kill_preserves (P : List Inst) (w : List Nat) (th : Thread)
    (rest : List Thread) (visit : VisitTable) (memo : Memo)
    (hinv : BTInv P w (th :: rest) visit memo) :
    BTInv P w rest visit memo := by
  refine ⟨hinv.hvs, hinv.hvc, hinv.hmc, hinv.hshape, hinv.hminv, ?_, ?_, hinv.hmemoB⟩
  · intro q' i'
    have hJo := hinv.hJ q' i'
    have h1 : unblocked P memo rest q' i' ≤ unblocked P memo (th :: rest) q' i' := by
      simp only [unblocked]
      by_cases hb : blockedB P memo q' i'
      · simp [hb]
      · simp only [hb, Bool.false_eq_true, if_false]
        rw [slots_cons]
        omega
    omega
  · intro q hq2
    rcases hq2 with h | h
    · exact hinv.hreach q (Or.inl h)
    · refine hinv.hreach q (Or.inr ?_)
      rw [slots_cons]
      omega

/-- Dispatch of an unmemoized instruction: either the invariant survives or
the thread spins on an unhandled opcode. -/
theorem step_unmem_preserves (P : List Inst) (w : List Nat) (th : Thread)
    (rest r2 : List Thread) (visit v2 : VisitTable) (memo m2 : Memo) (inst : Inst)
    (hfetch : P[th.pc]? = some inst) (hmsn : inst.memoStateNum = none)
    (hsninst : inst.stateNum = th.pc)
    (hinv : BTInv P w (th :: rest) visit memo)
    (hstep : dispatchStep w inst th rest visit memo = .next r2 v2 m2) :
    BTInv P w r2 v2 m2 ∨ (r2 = th :: rest ∧ unhandledOp inst.opcode = true) := by
  obtain ⟨hb1, hb2, hveq, hmeq, hcases⟩ := dispatch_next_cases w inst th rest r2
    visit v2 memo m2 hstep
  rw [hsninst] at hveq hb1
  rcases hcases with ⟨hr2, hunh⟩ | ⟨newTs, hr2, hslotbound, hepsmem⟩
  · exact Or.inr ⟨hr2, hunh⟩
  · left
    rw [hveq, hmeq, hr2]
    refine fire_preserves P w th rest newTs visit memo memo hinv.hvs hinv.hvc
      hinv.hmc hinv.hshape hinv.hminv hb1 hb2 hinv.hJ hinv.hreach
      (blockedB_of_unmemoized P memo th.pc th.sp inst hfetch hmsn)
      (fun _ _ h => h) ?_ ?_ ?_
    · intro q' i'
      exact Or.inl (Nat.le_trans (hslotbound q' i')
        (sendCount_ge P th.pc inst hfetch th.sp q' i'))
    · intro t ht h0
      obtain ⟨h1, h2⟩ := hepsmem t ht h0
      exact ⟨h1, Or.inl ⟨inst, hfetch, h2 P⟩⟩
    · intro q2 inst2 ms2 i2 hf2 hn2
      rw [count_bump hinv.hshape hb1 hb2 q2 i2]
      by_cases hcell : q2 = th.pc ∧ i2 = th.sp
      · exfalso
        rw [hcell.1] at hf2
        rw [hfetch] at hf2
        injection hf2 with hinj
        rw [← hinj] at hn2
        rw [hmsn] at hn2
        exact Option.noConfusion hn2
      · rw [if_neg hcell]
        have hold := hinv.hmemoB q2 inst2 ms2 i2 hf2 hn2
        exact ⟨by omega, fun h1 => hold.2 (by omega)⟩

/-- Dispatch of a memoized, freshly marked instruction preserves the
invariant (even for unhandled opcodes: the mark blocks the spinning state,
which the next iteration kills). -/
theorem step_mem_preserves (P : List Inst) (w : List Nat) (th : Thread)
    (rest r2 : List Thread) (visit v2 : VisitTable) (memo m2 : Memo)
    (inst : Inst) (ms : Nat)
    (hfetch : P[th.pc]? = some inst) (hmsn : inst.memoStateNum = some ms)
    (hsninst : inst.stateNum = th.pc) (hmslt : ms < memo.nStates)
    (hmk : isMarked memo ms th.sp = false)
    (hinv : BTInv P w (th :: rest) visit memo)
    (hstep : dispatchStep w inst th rest visit (markMemo memo ms th.sp) = .next r2 v2 m2) :
    BTInv P w r2 v2 m2 := by
  obtain ⟨hb1, hb2, hveq, hmeq, hcases⟩ := dispatch_next_cases w inst th rest r2
    visit v2 (markMemo memo ms th.sp) m2 hstep
  rw [hsninst] at hveq hb1
  have hiC : th.sp < memo.nChars := by
    have := hinv.hvc
    have := hinv.hmc
    omega
  have hminv2 : MemoInv (markMemo memo ms th.sp) :=
    markMemo_MemoInv memo ms th.sp hinv.hminv hiC
  have hmc2 : (markMemo memo ms th.sp).nChars = w.length + 1 := by
    rw [markMemo_nChars]
    exact hinv.hmc
  have hubf : blockedB P memo th.pc th.sp = false := by
    simp [blockedB, hfetch, hmsn, hmk]
  have hbmono : ∀ q' i', blockedB P memo q' i' = true →
      blockedB P (markMemo memo ms th.sp) q' i' = true :=
    fun q' i' h => blockedB_mono P memo hinv.hminv ms th.sp hiC q' i' h
  have hselfmk : isMarked (markMemo memo ms th.sp) ms th.sp = true :=
    markMemo_self memo ms th.sp hinv.hminv hmslt hiC
  have hblockedSelf : blockedB P (markMemo memo ms th.sp) th.pc th.sp = true := by
    simp only [blockedB, hfetch, hmsn, markMemo_nChars, Bool.and_eq_true,
      decide_eq_true_eq]
    exact ⟨hiC, hselfmk⟩
  have hmemoB2 : ∀ q2 inst2 ms2 i2, P[q2]? = some inst2 →
      inst2.memoStateNum = some ms2 →
      (visit.bump th.pc th.sp).count q2 i2 ≤ 1 ∧
        (1 ≤ (visit.bump th.pc th.sp).count q2 i2 →
          isMarked (markMemo memo ms th.sp) ms2 i2) := by
    intro q2 inst2 ms2 i2 hf2 hn2
    rw [count_bump hinv.hshape hb1 hb2 q2 i2]
    by_cases hcell : q2 = th.pc ∧ i2 = th.sp
    · rw [hcell.1] at hf2
      rw [hfetch] at hf2
      injection hf2 with hinj
      have hms2 : ms2 = ms := by
        rw [← hinj, hmsn] at hn2
        injection hn2 with h
        exact h.symm
      have hV0 : visit.count q2 i2 = 0 := by
        by_contra hc
        have h1 : 1 ≤ visit.count th.pc th.sp := by
          rw [← hcell.1, ← hcell.2]
          omega
        have := (hinv.hmemoB th.pc inst ms th.sp hfetch hmsn).2 h1
        rw [this] at hmk
        exact Bool.noConfusion hmk
      rw [hV0, if_pos hcell]
      refine ⟨by omega, fun _ => ?_⟩
      rw [hms2, hcell.2]
      exact hselfmk
    · rw [if_neg hcell]
      have hold := hinv.hmemoB q2 inst2 ms2 i2 hf2 hn2
      refine ⟨by omega, fun h1 => ?_⟩
      have hi2C : i2 < memo.nChars := by
        by_contra hc
        have := count_zero_of_oob hinv.hshape q2 i2 (Or.inr (by
          have := hinv.hvc
          have := hinv.hmc
          omega))
        omega
      exact markMemo_mono memo ms th.sp ms2 i2 hinv.hminv hiC hi2C
        (hold.2 (by omega))
  rcases hcases with ⟨hr2, hunh⟩ | ⟨newTs, hr2, hslotbound, hepsmem⟩
  · rw [hveq, hmeq, hr2]
    have hr2' : th :: rest = [th] ++ rest := rfl
    rw [hr2']
    refine fire_preserves P w th rest [th] visit memo (markMemo memo ms th.sp)
      hinv.hvs hinv.hvc hmc2 hinv.hshape hminv2 hb1 hb2 hinv.hJ hinv.hreach
      hubf hbmono ?_ ?_ hmemoB2
    · intro q' i'
      by_cases hcell : q' = th.pc ∧ i' = th.sp
      · refine Or.inr ⟨hcell.1, hcell.2, hblockedSelf, ?_⟩
        rw [slots_cons, slots_nil, if_pos ⟨hcell.1.symm, hcell.2.symm⟩]
      · left
        rw [slots_cons, slots_nil,
          if_neg (fun hc => hcell ⟨hc.1.symm, hc.2.symm⟩)]
        omega
    · intro t ht h0
      rw [List.mem_singleton] at ht
      rw [ht] at h0
      rw [ht]
      exact ⟨h0, Or.inr rfl⟩
  · rw [hveq, hmeq, hr2]
    refine fire_preserves P w th rest newTs visit memo (markMemo memo ms th.sp)
      hinv.hvs hinv.hvc hmc2 hinv.hshape hminv2 hb1 hb2 hinv.hJ hinv.hreach
      hubf hbmono ?_ ?_ hmemoB2
    · intro q' i'
      exact Or.inl (Nat.le_trans (hslotbound q' i')
        (sendCount_ge P th.pc inst hfetch th.sp q' i'))
    · intro t ht h0
      obtain ⟨h1, h2⟩ := hepsmem t ht h0
      exact ⟨h1, Or.inl ⟨inst, hfetch, h2 P⟩⟩

/-- One machine step from an invariant state lands in an invariant state or
in a spin. -/
theorem step_preserves (P : List Inst) (w : List Nat) (mode : MemoMode)
    (hmode : mode ≠ MemoMode.MEMO_NONE)
    (hsn : ∀ (q : Nat) (inst : Inst), P[q]? = some inst → inst.stateNum = q)
    (ready : List Thread) (visit : VisitTable) (memo : Memo)
    (hms : ∀ (q ms : Nat) (inst : Inst), P[q]? = some inst →
      inst.memoStateNum = some ms → ms < memo.nStates)
    (hinv : BTInv P w ready visit memo) :
    ∀ r2 v2 m2, step P w mode ready visit memo = .next r2 v2 m2 →
      BTInv P w r2 v2 m2 ∨ SpinTop P mode r2 := by
  intro r2 v2 m2 hstep
  cases ready with
  | nil => simp [step] at hstep
  | cons th rest =>
    simp only [step] at hstep
    cases hfetch : P[th.pc]? with
    | none =>
      rw [hfetch] at hstep
      exact absurd hstep (by simp)
    | some inst =>
      rw [hfetch] at hstep
      dsimp only at hstep
      have hsninst : inst.stateNum = th.pc := hsn th.pc inst hfetch
      cases hmsn : inst.memoStateNum with
      | none =>
        rw [hmsn] at hstep
        have hgo : dispatchStep w inst th rest visit memo = .next r2 v2 m2 →
            BTInv P w r2 v2 m2 ∨ SpinTop P mode r2 := by
          intro hstep2
          rcases step_unmem_preserves P w th rest r2 visit v2 memo m2 inst
            hfetch hmsn hsninst hinv hstep2 with hbt | ⟨hr2, hunh⟩
          · exact Or.inl hbt
          · exact Or.inr ⟨th, rest, inst, hr2, hfetch, hunh, Or.inr hmsn⟩
        cases mode with
        | MEMO_NONE => exact absurd rfl hmode
        | MEMO_FULL => exact hgo hstep
        | MEMO_IN_DEGREE_GT1 => exact hgo hstep
        | MEMO_LOOP_DEST => exact hgo hstep
      | some ms =>
        rw [hmsn] at hstep
        have hgo : (if isMarked memo ms th.sp then
            (if inst.opcode = Opcode.OpMatch then StepOut.done .assertFail
              else .next rest visit memo)
            else dispatchStep w inst th rest visit (markMemo memo ms th.sp)) =
              .next r2 v2 m2 →
            BTInv P w r2 v2 m2 ∨ SpinTop P mode r2 := by
          intro hstep2
          by_cases hmkd : isMarked memo ms th.sp
          · rw [if_pos hmkd] at hstep2
            by_cases hmat : inst.opcode = Opcode.OpMatch
            · rw [if_pos hmat] at hstep2
              exact absurd hstep2 (by simp)
            · rw [if_neg hmat] at hstep2
              injection hstep2 with h1 h2 h3
              rw [← h1, ← h2, ← h3]
              exact Or.inl (kill_preserves P w th rest visit memo hinv)
          · rw [if_neg hmkd] at hstep2
            exact Or.inl (step_mem_preserves P w th rest r2 visit v2 memo m2
              inst ms hfetch hmsn hsninst (hms th.pc ms inst hfetch hmsn)
              (bool_eq_false hmkd) hinv hstep2)
        cases mode with
        | MEMO_NONE => exact absurd rfl hmode
        | MEMO_FULL => exact hgo hstep
        | MEMO_IN_DEGREE_GT1 => exact hgo hstep
        | MEMO_LOOP_DEST => exact hgo hstep

/-! ## Final extraction: from the invariant to the visit bound -/

theorem no_cycle_of_loopFree (P : List Inst)
    (hloop : Prog_hasInfiniteLoop P = false) :
    ∀ c, ¬ Relation.TransGen (epsStep P) c c := by
  intro c hc
  rcases cycle_has_branch P P.length c (Nat.sub_le _ _) hc with
    ⟨b, inst, hb, hbr, hcyc⟩
  have := (hasInfiniteLoop_iff P).mpr ⟨b, inst, hb, hbr, hcyc⟩
  rw [hloop] at this
  exact Bool.noConfusion this

theorem nodup_lt_length {l : List Nat} (hnd : l.Nodup) (n : Nat)
    (hlt : ∀ x ∈ l, x < n) : l.length ≤ n := by
  have h1 : l.toFinset ⊆ Finset.range n :=
    fun x hx => Finset.mem_range.mpr (hlt x (List.mem_toFinset.mp hx))
  have h2 := Finset.card_le_card h1
  rw [List.toFinset_card_of_nodup hnd, Finset.card_range] at h2
  exact h2

theorem filter_flatMap_length {α β : Type} (l : List α) (f : α → List β)
    (p : β → Bool) :
    ((l.flatMap f).filter p).length =
      (l.map (fun a => ((f a).filter p).length)).sum := by
  induction l with
  | nil => rfl
  | cons a l ih => simp [List.flatMap_cons, List.filter_append, ih]

theorem filter_map_count (q q' : Nat) (es : List (Nat × Nat)) :
    ((es.map (fun e => (q, e.1, e.2))).filter (fun e => e.2.1 == q')).length =
      ((es.map Prod.fst).count q') := by
  induction es with
  | nil => rfl
  | cons e es ih =>
    simp only [List.map_cons, List.count_cons]
    by_cases h : e.1 = q'
    · rw [List.filter_cons_of_pos (by simpa using h)]
      simp only [List.length_cons, ih]
      rw [if_pos (by simpa using h)]
    · rw [List.filter_cons_of_neg (by simpa using h)]
      rw [ih, if_neg (by simpa using h)]
      omega

theorem vmPredCount_eq (P : List Inst) (q' : Nat) :
    ((allEdges P).filter (fun e => e.2.1 == q')).length = vmPredCount P q' := by
  rw [allEdges, filter_flatMap_length]
  unfold vmPredCount
  congr 1
  apply List.map_congr_left
  intro q _
  match hfetch : P[q]? with
  | none => rfl
  | some inst => exact filter_map_count q q' (vmEdges q inst.opcode)

theorem sum_pos_exists {α : Type} (l : List α) (f : α → Nat)
    (h : 1 ≤ (l.map f).sum) : ∃ e ∈ l, 1 ≤ f e := by
  induction l with
  | nil => simp at h
  | cons a l ih =>
    simp only [List.map_cons, List.sum_cons] at h
    by_cases ha : 1 ≤ f a
    · exact ⟨a, List.mem_cons_self _ _, ha⟩
    · rcases ih (by omega) with ⟨e, he, hfe⟩
      exact ⟨e, List.mem_cons_of_mem _ he, hfe⟩

theorem sum_two_concentrated {α : Type} (l : List α) (f : α → Nat) (p : α → Bool)
    (hz : ∀ e ∈ l, p e = false → f e = 0) (hcnt : (l.filter p).length ≤ 1)
    (h2 : 2 ≤ (l.map f).sum) : ∃ e ∈ l, 2 ≤ f e := by
  induction l with
  | nil => simp at h2
  | cons a l ih =>
    simp only [List.map_cons, List.sum_cons] at h2
    by_cases hp : p a
    · have hflen : (l.filter p).length = 0 := by
        rw [List.filter_cons_of_pos hp] at hcnt
        simp only [List.length_cons] at hcnt
        omega
      have hlz : ∀ e ∈ l, f e = 0 := by
        intro e he
        refine hz e (List.mem_cons_of_mem _ he) ?_
        have := List.filter_eq_nil_iff.mp (List.length_eq_zero.mp hflen) e he
        revert this
        cases p e <;> simp
      have hsl : (l.map f).sum = 0 := by
        apply List.sum_eq_zero
        intro x hx
        rcases List.mem_map.mp hx with ⟨e, he, hfe⟩
        rw [← hfe]
        exact hlz e he
      exact ⟨a, List.mem_cons_self _ _, by omega⟩
    · have ha0 : f a = 0 := hz a (List.mem_cons_self _ _) (bool_eq_false hp)
      have hcnt2 : (l.filter p).length ≤ 1 := by
        rw [List.filter_cons_of_neg (by simpa using hp)] at hcnt
        exact hcnt
      rcases ih (fun e he hpe => hz e (List.mem_cons_of_mem _ he) hpe) hcnt2
        (by omega) with ⟨e, he, hfe⟩
      exact ⟨e, List.mem_cons_of_mem _ he, hfe⟩

theorem allEdges_mem_inv {P : List Inst} {e : Nat × Nat × Nat}
    (he : e ∈ allEdges P) :
    ∃ inst, P[e.1]? = some inst ∧ (e.2.1, e.2.2) ∈ vmEdges e.1 inst.opcode := by
  rcases List.mem_flatMap.mp he with ⟨q, _, hmem⟩
  match hfetch : P[q]? with
  | none =>
    rw [hfetch] at hmem
    simp at hmem
  | some inst =>
    rw [hfetch] at hmem
    rcases List.mem_map.mp hmem with ⟨ed, hed, heq⟩
    rcases e with ⟨p, t, d⟩
    injection heq with h1 h2
    subst h1
    rw [← h2]
    exact ⟨inst, hfetch, by simpa using hed⟩

theorem vmEdge_d0_eps {q t : Nat} {op : Opcode}
    (h : (t, 0) ∈ vmEdges q op) (P : List Inst) : t ∈ epsSucc P q op := by
  cases op with
  | OpChar c => simp [vmEdges] at h
  | OpAny => simp [vmEdges] at h
  | OpMatch => simp [vmEdges] at h
  | OpJmp x =>
    simp only [vmEdges, List.mem_singleton, Prod.mk.injEq] at h
    simp [epsSucc, h.1]
  | OpSplit x y =>
    simp only [vmEdges, List.mem_cons, List.mem_singleton, Prod.mk.injEq,
      List.not_mem_nil, or_false] at h
    rcases h with ⟨h1, _⟩ | ⟨h1, _⟩ <;> simp [epsSucc, h1]
  | OpSave n =>
    simp only [vmEdges, List.mem_singleton, Prod.mk.injEq] at h
    simp [epsSucc, h.1]
  | OpSplitMany es => simp [vmEdges] at h
  | OpCharClass rs inv => simp [vmEdges] at h
  | OpStringCompare n => simp [vmEdges] at h
  | OpInlineZWA c => simp [vmEdges] at h
  | OpRecursiveZWA => simp [vmEdges] at h
  | OpRecursiveMatch => simp [vmEdges] at h
theorem vmEdge_delta {q : Nat} {op : Opcode} {t d : Nat}
    (h : (t, d) ∈ vmEdges q op) : d = 0 ∨ d = 1 := by
  cases op with
  | OpChar c =>
    simp only [vmEdges, List.mem_singleton, Prod.mk.injEq] at h
    omega
  | OpAny =>
    simp only [vmEdges, List.mem_singleton, Prod.mk.injEq] at h
    omega
  | OpJmp x =>
    simp only [vmEdges, List.mem_singleton, Prod.mk.injEq] at h
    omega
  | OpSplit x y =>
    simp only [vmEdges, List.mem_cons, List.mem_singleton, Prod.mk.injEq,
      List.not_mem_nil, or_false] at h
    rcases h with ⟨_, h2⟩ | ⟨_, h2⟩ <;> omega
  | OpSave n =>
    simp only [vmEdges, List.mem_singleton, Prod.mk.injEq] at h
    omega
  | OpMatch => simp [vmEdges] at h
  | OpSplitMany es => simp [vmEdges] at h
  | OpCharClass rs inv => simp [vmEdges] at h
  | OpStringCompare n => simp [vmEdges] at h
  | OpInlineZWA c => simp [vmEdges] at h
  | OpRecursiveZWA => simp [vmEdges] at h
  | OpRecursiveMatch => simp [vmEdges] at h

theorem zero_zero_bound (P : List Inst) (w : List Nat) (ready : List Thread)
    (visit : VisitTable) (memo : Memo)
    (hNC : ∀ c, ¬ Relation.TransGen (epsStep P) c c)
    (hinv : BTInv P w ready visit memo) :
    visit.count 0 0 + unblocked P memo ready 0 0 ≤ 1 := by
  by_contra hcon
  have hJ0 := hinv.hJ 0 0
  have hin : 2 ≤ inflow P visit.count 0 0 := by omega
  rw [inflow, if_pos ⟨rfl, rfl⟩] at hin
  have hsum : 1 ≤ ((allEdges P).map (fun e =>
      if e.2.1 = 0 ∧ e.2.2 ≤ 0 then visit.count e.1 (0 - e.2.2) else 0)).sum := by
    omega
  rcases sum_pos_exists _ _ hsum with ⟨e, he, hfe⟩
  by_cases hcnd : e.2.1 = 0 ∧ e.2.2 ≤ 0
  case neg => rw [if_neg hcnd] at hfe; omega
  rw [if_pos hcnd] at hfe
  have hd0 : e.2.2 = 0 := by omega
  have hV : 1 ≤ visit.count e.1 0 := by
    have hz : (0 : Nat) - e.2.2 = 0 := by omega
    rw [hz] at hfe
    exact hfe
  have hre := hinv.hreach e.1 (Or.inl hV)
  rcases allEdges_mem_inv he with ⟨inst, hfetch, hed⟩
  have heps : epsStep P e.1 0 := by
    refine ⟨inst, hfetch, ?_⟩
    have hpair : (e.2.1, e.2.2) = (0, 0) := by rw [hcnd.1, hd0]
    rw [hpair] at hed
    exact vmEdge_d0_eps hed P
  exact hNC 0 (Relation.TransGen.tail' hre heps)

/-- From the invariant: every unmemoized search state carries at most one
visit-plus-pending-thread, provided the program is epsilon-acyclic and every
unmemoized state has dispatch in-degree at most one. -/
theorem extraction (P : List Inst) (w : List Nat) (ready : List Thread)
    (visit : VisitTable) (memo : Memo)
    (hNC : ∀ c, ¬ Relation.TransGen (epsStep P) c c)
    (hsel : ∀ (q : Nat) (inst : Inst), P[q]? = some inst →
      inst.memoStateNum = none → vmPredCount P q ≤ 1)
    (hinv : BTInv P w ready visit memo) :
    ∀ (i' q' : Nat) (inst : Inst), P[q']? = some inst →
      inst.memoStateNum = none →
      visit.count q' i' + slots ready q' i' ≤ 1 := by
  have hub : ∀ (c : Nat) (instc : Inst) (j : Nat), P[c]? = some instc →
      instc.memoStateNum = none →
      unblocked P memo ready c j = slots ready c j := by
    intro c instc j hf hn
    simp [unblocked, blockedB_of_unmemoized P memo c j instc hf hn]
  intro i'
  induction i' using Nat.strong_induction_on with
  | _ i' IH =>
  intro q' inst hfetch hmsn
  by_contra hcon
  by_cases hq00 : q' = 0 ∧ i' = 0
  · have hzz := zero_zero_bound P w ready visit memo hNC hinv
    have hub2 := hub q' inst i' hfetch hmsn
    rw [hq00.1, hq00.2] at hub2 hcon
    omega
  · have hdesc : ∀ c, ((∃ instc, P[c]? = some instc ∧ instc.memoStateNum = none) ∧
        ¬(c = 0 ∧ i' = 0) ∧ 2 ≤ visit.count c i' + slots ready c i') →
        ∃ p, epsStep P p c ∧
          ((∃ instp, P[p]? = some instp ∧ instp.memoStateNum = none) ∧
            ¬(p = 0 ∧ i' = 0) ∧ 2 ≤ visit.count p i' + slots ready p i') := by
      rintro c ⟨⟨instc, hfc, hnc⟩, hc00, hW⟩
      have hJc := hinv.hJ c i'
      rw [hub c instc i' hfc hnc] at hJc
      have hin : 2 ≤ inflow P visit.count c i' := by omega
      rw [inflow, if_neg hc00] at hin
      have hcnt : ((allEdges P).filter (fun e => e.2.1 == c)).length ≤ 1 := by
        rw [vmPredCount_eq]
        exact hsel c instc hfc hnc
      have hz : ∀ e ∈ allEdges P, (e.2.1 == c) = false →
          (if e.2.1 = c ∧ e.2.2 ≤ i' then visit.count e.1 (i' - e.2.2) else 0) = 0 := by
        intro e _ hpe
        rw [if_neg (fun hcc => by
          rw [hcc.1] at hpe
          simp at hpe)]
      rcases sum_two_concentrated (allEdges P) _ (fun e => e.2.1 == c) hz hcnt
        (by omega) with ⟨e, he, hfe⟩
      by_cases hcnd : e.2.1 = c ∧ e.2.2 ≤ i'
      case neg => rw [if_neg hcnd] at hfe; omega
      rw [if_pos hcnd] at hfe
      rcases allEdges_mem_inv he with ⟨instp, hfp, hedge⟩
      by_cases hd0 : e.2.2 = 0
      · have hVp : 2 ≤ visit.count e.1 i' := by
          have hdz : i' - e.2.2 = i' := by omega
          rw [hdz] at hfe
          exact hfe
        have heps : epsStep P e.1 c := by
          refine ⟨instp, hfp, ?_⟩
          have hpair : (e.2.1, e.2.2) = (c, 0) := by rw [hcnd.1, hd0]
          rw [hpair] at hedge
          exact vmEdge_d0_eps hedge P
        cases hmp : instp.memoStateNum with
        | some ms =>
          exfalso
          have := (hinv.hmemoB e.1 instp ms i' hfp hmp).1
          omega
        | none =>
          by_cases hp00 : e.1 = 0 ∧ i' = 0
          · exfalso
            have hzz := zero_zero_bound P w ready visit memo hNC hinv
            rw [hp00.1, hp00.2] at hVp
            omega
          · exact ⟨e.1, heps, ⟨instp, hfp, hmp⟩, hp00, by omega⟩
      · exfalso
        have hd1 : e.2.2 = 1 := by
          rcases vmEdge_delta hedge with h | h <;> omega
        rw [hd1] at hfe
        have hi1 : 1 ≤ i' := by omega
        cases hmp : instp.memoStateNum with
        | some ms =>
          have := (hinv.hmemoB e.1 instp ms (i' - 1) hfp hmp).1
          omega
        | none =>
          have := IH (i' - 1) (by omega) e.1 instp hfp hmp
          omega
    have hchain : ∀ n, ∃ (cur : Nat) (visited : List Nat),
        ((∃ instc, P[cur]? = some instc ∧ instc.memoStateNum = none) ∧
          ¬(cur = 0 ∧ i' = 0) ∧ 2 ≤ visit.count cur i' + slots ready cur i') ∧
        visited.length = n ∧ (cur :: visited).Nodup ∧
        (∀ v ∈ visited, Relation.TransGen (epsStep P) cur v) ∧
        (∀ v ∈ cur :: visited, ∃ instv, P[v]? = some instv) := by
      intro n
      induction n with
      | zero =>
        refine ⟨q', [], ⟨⟨inst, hfetch, hmsn⟩, hq00, by omega⟩, rfl, by simp, by simp, ?_⟩
        intro v hv
        rw [List.mem_singleton] at hv
        rw [hv]
        exact ⟨inst, hfetch⟩
      | succ n ihn =>
        rcases ihn with ⟨cur, visited, hbad, hlen, hnd, htrans, hfetches⟩
        rcases hdesc cur hbad with ⟨p, hpe, hbadp⟩
        refine ⟨p, cur :: visited, hbadp, by simp [hlen], ?_, ?_, ?_⟩
        · rw [List.nodup_cons]
          refine ⟨?_, hnd⟩
          intro hpm
          rcases List.mem_cons.mp hpm with hpc | hpv
          · rw [hpc] at hpe
            exact hNC cur (Relation.TransGen.single hpe)
          · exact hNC p ((Relation.TransGen.single hpe).trans (htrans p hpv))
        · intro v hv
          rcases List.mem_cons.mp hv with hvc | hvv
          · rw [hvc]
            exact Relation.TransGen.single hpe
          · exact Relation.TransGen.head hpe (htrans v hvv)
        · intro v hv
          rcases List.mem_cons.mp hv with hvp | hvv
          · rw [hvp]
            exact ⟨hbadp.1.choose, hbadp.1.choose_spec.1⟩
          · exact hfetches v hvv
    rcases hchain P.length with ⟨cur, visited, _, hlen, hnd, _, hfetches⟩
    have hall : ∀ x ∈ cur :: visited, x < P.length := by
      intro x hx
      rcases hfetches x hx with ⟨instx, hfx⟩
      exact (List.getElem?_eq_some_iff.mp hfx).1
    have := nodup_lt_length hnd P.length hall
    simp only [List.length_cons, hlen] at this
    omega

/-! ## C1: the visit-count bound at the end of a run -/

/-- The `assert(visitTable.visitVectors[i][j] <= 1)` of `printStats`
(backtrack.c line 299): every entry of the final visit table is at most 1.
Results that never reach the statistics printer hold vacuously. -/
def visitBoundB (r : BTResult) : Bool :=
  match r with
  | .matched _ v _ => v.visitVectors.all (fun row => row.all (fun n => decide (n ≤ 1)))
  | .nomatch v _ => v.visitVectors.all (fun row => row.all (fun n => decide (n ≤ 1)))
  | _ => true

theorem visit_all_le (v : VisitTable) (h : ∀ q i, v.count q i ≤ 1) :
    (v.visitVectors.all (fun row => row.all (fun n => decide (n ≤ 1)))) = true := by
  rw [List.all_eq_true]
  intro row hrow
  rw [List.all_eq_true]
  intro n hn
  rcases List.mem_iff_getElem.mp hrow with ⟨q, hq, hrowq⟩
  rcases List.mem_iff_getElem.mp hn with ⟨i, hi, hni⟩
  have hcnt : v.count q i = n := by
    simp only [VisitTable.count]
    rw [List.getD_eq_getElem v.visitVectors [] hq, hrowq,
      List.getD_eq_getElem row 0 hi, hni]
  rw [decide_eq_true_eq, ← hcnt]
  exact h q i

theorem stateNumsOk_fetch {P : List Inst} (h : stateNumsOkB P = true) :
    ∀ (q : Nat) (inst : Inst), P[q]? = some inst → inst.stateNum = q := by
  intro q inst hfetch
  rcases List.getElem?_eq_some_iff.mp hfetch with ⟨hq, hload⟩
  rw [stateNumsOkB, List.all_eq_true] at h
  have h2 := h q (List.mem_range.mpr hq)
  rw [decide_eq_true_eq, List.getD_eq_getElem P defaultInst hq, hload] at h2
  exact h2

/-- What a dispatch looks like when it finishes the whole run: the
`markVisit` bounds assertion failed, the Split stack overflowed, or an
OpMatch returned with the bumped visit table. -/
theorem dispatch_done_cases (w : List Nat) (inst : Inst) (th : Thread)
    (rest : List Thread) (visit : VisitTable) (memoX : Memo) (r : BTResult)
    (hstep : dispatchStep w inst th rest visit memoX = .done r) :
    r = .assertFail ∨ r = .fatalOverflow ∨
      (r = .matched th.sub (visit.bump inst.stateNum th.sp) memoX ∧
        inst.opcode = Opcode.OpMatch ∧
        inst.stateNum < visit.nStates ∧ th.sp < visit.nChars) := by
  unfold dispatchStep at hstep
  rcases Decidable.em (inst.stateNum < visit.nStates ∧ th.sp < visit.nChars) with hb | hb
  case inr =>
    rw [if_neg hb] at hstep
    injection hstep with h1
    exact Or.inl h1.symm
  rw [if_pos hb] at hstep
  cases hop : inst.opcode with
  | OpChar c =>
    rw [hop] at hstep
    dsimp only at hstep
    by_cases hch : charAt w th.sp = c
    · rw [if_pos hch] at hstep
      exact absurd hstep (by simp)
    · rw [if_neg hch] at hstep
      exact absurd hstep (by simp)
  | OpAny =>
    rw [hop] at hstep
    dsimp only at hstep
    by_cases hch : charAt w th.sp = 0
    · rw [if_pos hch] at hstep
      exact absurd hstep (by simp)
    · rw [if_neg hch] at hstep
      exact absurd hstep (by simp)
  | OpMatch =>
    rw [hop] at hstep
    dsimp only at hstep
    injection hstep with h1
    exact Or.inr (Or.inr ⟨h1.symm, rfl, hb.1, hb.2⟩)
  | OpJmp x =>
    rw [hop] at hstep
    exact absurd hstep (by simp)
  | OpSplit x y =>
    rw [hop] at hstep
    dsimp only at hstep
    by_cases hovf : rest.length ≥ 1000
    · rw [if_pos hovf] at hstep
      injection hstep with h1
      exact Or.inr (Or.inl h1.symm)
    · rw [if_neg hovf] at hstep
      exact absurd hstep (by simp)
  | OpSave n =>
    rw [hop] at hstep
    exact absurd hstep (by simp)
  | OpSplitMany es =>
    rw [hop] at hstep
    exact absurd hstep (by simp)
  | OpCharClass rs inv =>
    rw [hop] at hstep
    exact absurd hstep (by simp)
  | OpStringCompare n =>
    rw [hop] at hstep
    exact absurd hstep (by simp)
  | OpInlineZWA c =>
    rw [hop] at hstep
    exact absurd hstep (by simp)
  | OpRecursiveZWA =>
    rw [hop] at hstep
    exact absurd hstep (by simp)
  | OpRecursiveMatch =>
    rw [hop] at hstep
    exact absurd hstep (by simp)

/-- A continuing step never changes the number of memoized rows. -/
theorem step_next_nStates (P : List Inst) (w : List Nat) (mode : MemoMode)
    (ready r2 : List Thread) (visit v2 : VisitTable) (memo m2 : Memo)
    (hstep : step P w mode ready visit memo = .next r2 v2 m2) :
    m2.nStates = memo.nStates := by
  cases ready with
  | nil => exact absurd hstep (by simp [step])
  | cons th rest =>
    simp only [step] at hstep
    cases hfetch : P[th.pc]? with
    | none =>
      rw [hfetch] at hstep
      exact absurd hstep (by simp)
    | some inst =>
      rw [hfetch] at hstep
      dsimp only at hstep
      have hdisp : ∀ memoX, dispatchStep w inst th rest visit memoX = .next r2 v2 m2 →
          m2 = memoX := by
        intro memoX h2
        exact (dispatch_next_cases w inst th rest r2 visit v2 memoX m2 h2).2.2.2.1
      cases hmsn : inst.memoStateNum with
      | none =>
        rw [hmsn] at hstep
        have hgo : dispatchStep w inst th rest visit memo = .next r2 v2 m2 →
            m2.nStates = memo.nStates := by
          intro h2
          rw [hdisp memo h2]
        cases mode with
        | MEMO_NONE => exact hgo hstep
        | MEMO_FULL => exact hgo hstep
        | MEMO_IN_DEGREE_GT1 => exact hgo hstep
        | MEMO_LOOP_DEST => exact hgo hstep
      | some ms =>
        rw [hmsn] at hstep
        have hgo1 : dispatchStep w inst th rest visit memo = .next r2 v2 m2 →
            m2.nStates = memo.nStates := by
          intro h2
          rw [hdisp memo h2]
        have hgo2 : (if isMarked memo ms th.sp then
            (if inst.opcode = Opcode.OpMatch then StepOut.done .assertFail
              else .next rest visit memo)
            else dispatchStep w inst th rest visit (markMemo memo ms th.sp)) =
              .next r2 v2 m2 → m2.nStates = memo.nStates := by
          intro h2
          by_cases hmkd : isMarked memo ms th.sp
          · rw [if_pos hmkd] at h2
            by_cases hmat : inst.opcode = Opcode.OpMatch
            · rw [if_pos hmat] at h2
              exact absurd h2 (by simp)
            · rw [if_neg hmat] at h2
              injection h2 with h3 h4 h5
              rw [← h5]
          · rw [if_neg hmkd] at h2
            rw [hdisp (markMemo memo ms th.sp) h2]
            exact markMemo_nStates memo ms th.sp
        cases mode with
        | MEMO_NONE => exact hgo1 hstep
        | MEMO_FULL => exact hgo2 hstep
        | MEMO_IN_DEGREE_GT1 => exact hgo2 hstep
        | MEMO_LOOP_DEST => exact hgo2 hstep

/-- When a step finishes the run from an invariant state, the result
satisfies the printStats visit bound. -/
theorem step_done_bound (P : List Inst) (w : List Nat) (mode : MemoMode)
    (hmode : mode ≠ MemoMode.MEMO_NONE)
    (hsn : ∀ (q : Nat) (inst : Inst), P[q]? = some inst → inst.stateNum = q)
    (ready : List Thread) (visit : VisitTable) (memo : Memo)
    (hNC : ∀ c, ¬ Relation.TransGen (epsStep P) c c)
    (hsel : ∀ (q : Nat) (inst : Inst), P[q]? = some inst →
      inst.memoStateNum = none → vmPredCount P q ≤ 1)
    (hinv : BTInv P w ready visit memo)
    (r : BTResult)
    (hstep : step P w mode ready visit memo = .done r) :
    visitBoundB r = true := by
  have hbound : ∀ q i, visit.count q i ≤ 1 := by
    intro q i
    cases hfq : P[q]? with
    | none =>
      have hq : P.length ≤ q := List.getElem?_eq_none_iff.mp hfq
      rw [count_zero_of_oob hinv.hshape q i (Or.inl (by rw [hinv.hvs]; omega))]
      omega
    | some instq =>
      cases hmq : instq.memoStateNum with
      | some ms => exact (hinv.hmemoB q instq ms i hfq hmq).1
      | none =>
        have := extraction P w ready visit memo hNC hsel hinv i q instq hfq hmq
        omega
  have hbump : ∀ (th : Thread) (inst : Inst) (m2 : Memo) (sub2 : List (Option Nat)),
      inst.stateNum = th.pc →
      th.pc < visit.nStates → th.sp < visit.nChars →
      visit.count th.pc th.sp = 0 →
      visitBoundB (.matched sub2 (visit.bump inst.stateNum th.sp) m2) = true := by
    intro th inst m2 sub2 hstn hq hi hV0
    simp only [visitBoundB]
    refine visit_all_le _ ?_
    intro q2 i2
    rw [hstn]
    rw [count_bump hinv.hshape hq hi q2 i2]
    by_cases hcell : q2 = th.pc ∧ i2 = th.sp
    · rw [if_pos hcell, hcell.1, hcell.2, hV0]
    · rw [if_neg hcell]
      have := hbound q2 i2
      omega
  cases ready with
  | nil =>
    simp only [step] at hstep
    injection hstep with h3
    rw [← h3]
    simp only [visitBoundB]
    exact visit_all_le visit hbound
  | cons th rest =>
    simp only [step] at hstep
    cases hfetch : P[th.pc]? with
    | none =>
      rw [hfetch] at hstep
      dsimp only at hstep
      injection hstep with h3
      rw [← h3]
      rfl
    | some inst =>
      rw [hfetch] at hstep
      dsimp only at hstep
      have hstn := hsn th.pc inst hfetch
      cases hmsn : inst.memoStateNum with
      | none =>
        rw [hmsn] at hstep
        have hgo : dispatchStep w inst th rest visit memo = .done r →
            visitBoundB r = true := by
          intro h2
          rcases dispatch_done_cases w inst th rest visit memo r h2 with
            h | h | ⟨hm, _hop, hb1, hb2⟩
          · rw [h]; rfl
          · rw [h]; rfl
          · have hV0 : visit.count th.pc th.sp = 0 := by
              have hext := extraction P w (th :: rest) visit memo hNC hsel hinv
                th.sp th.pc inst hfetch hmsn
              have hsl : 1 ≤ slots (th :: rest) th.pc th.sp := by
                rw [slots_cons, if_pos ⟨rfl, rfl⟩]
                omega
              omega
            rw [hm]
            exact hbump th inst memo th.sub hstn (by rw [← hstn]; exact hb1) hb2 hV0
        cases mode with
        | MEMO_NONE => exact absurd rfl hmode
        | MEMO_FULL => exact hgo hstep
        | MEMO_IN_DEGREE_GT1 => exact hgo hstep
        | MEMO_LOOP_DEST => exact hgo hstep
      | some ms =>
        rw [hmsn] at hstep
        have hgo : (if isMarked memo ms th.sp then
            (if inst.opcode = Opcode.OpMatch then StepOut.done .assertFail
              else .next rest visit memo)
            else dispatchStep w inst th rest visit (markMemo memo ms th.sp)) =
              .done r → visitBoundB r = true := by
          intro h2
          by_cases hmkd : isMarked memo ms th.sp
          · rw [if_pos hmkd] at h2
            by_cases hmat : inst.opcode = Opcode.OpMatch
            · rw [if_pos hmat] at h2
              injection h2 with h3
              rw [← h3]
              rfl
            · rw [if_neg hmat] at h2
              exact absurd h2 (by simp)
          · rw [if_neg hmkd] at h2
            rcases dispatch_done_cases w inst th rest visit (markMemo memo ms th.sp) r h2 with
              h | h | ⟨hm, _hop, hb1, hb2⟩
            · rw [h]; rfl
            · rw [h]; rfl
            · have hV0 : visit.count th.pc th.sp = 0 := by
                by_contra hc
                have hmark := (hinv.hmemoB th.pc inst ms th.sp hfetch hmsn).2 (by omega)
                rw [hmark] at hmkd
                exact hmkd rfl
              rw [hm]
              exact hbump th inst (markMemo memo ms th.sp) th.sub hstn
                (by rw [← hstn]; exact hb1) hb2 hV0
        cases mode with
        | MEMO_NONE => exact absurd rfl hmode
        | MEMO_FULL => exact hgo hstep
        | MEMO_IN_DEGREE_GT1 => exact hgo hstep
        | MEMO_LOOP_DEST => exact hgo hstep

/-- Running the machine from an invariant state ends with the printStats
visit bound (aborts and fuel exhaustion satisfy it vacuously). -/
theorem runBT_visit_bound (P : List Inst) (w : List Nat) (mode : MemoMode)
    (hmode : mode ≠ MemoMode.MEMO_NONE)
    (hsn : ∀ (q : Nat) (inst : Inst), P[q]? = some inst → inst.stateNum = q)
    (hNC : ∀ c, ¬ Relation.TransGen (epsStep P) c c)
    (hsel : ∀ (q : Nat) (inst : Inst), P[q]? = some inst →
      inst.memoStateNum = none → vmPredCount P q ≤ 1) :
    ∀ (fuel : Nat) (ready : List Thread) (visit : VisitTable) (memo : Memo),
      (∀ (q ms : Nat) (inst : Inst), P[q]? = some inst →
        inst.memoStateNum = some ms → ms < memo.nStates) →
      BTInv P w ready visit memo →
      visitBoundB (runBT P w mode fuel ready visit memo) = true := by
  intro fuel
  induction fuel with
  | zero => intro ready visit memo _ _; rfl
  | succ f ih =>
    intro ready visit memo hms hinv
    cases hstep : step P w mode ready visit memo with
    | done r =>
      have hrun : runBT P w mode (f + 1) ready visit memo = r := by
        simp only [runBT, hstep]
      rw [hrun]
      exact step_done_bound P w mode hmode hsn ready visit memo hNC hsel hinv r hstep
    | next r2 v2 m2 =>
      have hrun : runBT P w mode (f + 1) ready visit memo =
          runBT P w mode f r2 v2 m2 := by
        simp only [runBT, hstep]
      rw [hrun]
      rcases step_preserves P w mode hmode hsn ready visit memo hms hinv r2 v2 m2 hstep with
        hinv2 | hspin
      · have hms2 : ∀ (q ms : Nat) (inst : Inst), P[q]? = some inst →
            inst.memoStateNum = some ms → ms < m2.nStates := by
          intro q ms inst hf hm
          rw [step_next_nStates P w mode ready r2 visit v2 memo m2 hstep]
          exact hms q ms inst hf hm
        exact ih r2 v2 m2 hms2 hinv2
      · rcases spin_absorb P w mode f r2 v2 m2 hspin with h | h
        · rw [h]; rfl
        · rw [h]; rfl
theorem determineMemoNodes_length (P0 : List Inst) (mode : MemoMode) :
    (Prog_determineMemoNodes P0 mode).length = P0.length :=
  assignMemoAux_length (selOf P0 mode) P0 0 0

/-- Memo-node assignment rewrites only `memoStateNum`; element `q` of the
assigned program, explicitly. -/
theorem determineMemoNodes_getElem? (P0 : List Inst) (mode : MemoMode) (q : Nat) :
    (Prog_determineMemoNodes P0 mode)[q]? = (P0[q]?).map (fun inst =>
      { inst with memoStateNum :=
          if (selOf P0 mode q) then some (countSel (selOf P0 mode) 0 q) else none }) := by
  have h := assignMemoAux_getElem? (selOf P0 mode) P0 0 0 q
  simp only [Nat.zero_add] at h
  exact h

/-- Dispatch in-degrees are untouched by memo-node assignment. -/
theorem vmPredCount_determine (P0 : List Inst) (mode : MemoMode) (q' : Nat) :
    vmPredCount (Prog_determineMemoNodes P0 mode) q' = vmPredCount P0 q' := by
  simp only [vmPredCount, determineMemoNodes_length]
  apply congrArg List.sum
  apply List.map_congr_left
  intro q _
  rw [determineMemoNodes_getElem?]
  cases P0[q]? with
  | none => rfl
  | some inst => rfl

/-- States the policy leaves unmemoized have dispatch in-degree at most one
in both selected modes (vacuously under FULL). -/
theorem sel_none_pred (P0 : List Inst) (mode : MemoMode)
    (hmode : mode = MemoMode.MEMO_FULL ∨ mode = MemoMode.MEMO_IN_DEGREE_GT1) :
    ∀ (q : Nat) (inst : Inst), (Prog_determineMemoNodes P0 mode)[q]? = some inst →
      inst.memoStateNum = none →
      vmPredCount (Prog_determineMemoNodes P0 mode) q ≤ 1 := by
  intro q inst hfetch hmsn
  rw [determineMemoNodes_getElem?] at hfetch
  cases hfetch0 : P0[q]? with
  | none =>
    rw [hfetch0] at hfetch
    exact absurd hfetch (by simp)
  | some inst0 =>
    rw [hfetch0] at hfetch
    injection hfetch with hinst
    by_cases hselq : selOf P0 mode q = true
    · rw [if_pos hselq] at hinst
      rw [← hinst] at hmsn
      exact Option.noConfusion hmsn
    · rcases hmode with hm | hm
      · rw [hm] at hselq
        exact absurd rfl hselq
      · rw [hm] at hselq
        have hdeg : inDegree P0 q ≤ 1 := by
          by_contra hc
          refine hselq ?_
          simp only [selOf, decide_eq_true_eq]
          omega
        rw [vmPredCount_determine]
        calc vmPredCount P0 q ≤ inDegree P0 q := vmPredCount_le_inDegree P0 q
          _ ≤ 1 := hdeg

/-- Every memo index handed out is below the number of memoized states. -/
theorem determine_ms_lt (P0 : List Inst) (mode : MemoMode) :
    ∀ (q ms : Nat) (inst : Inst), (Prog_determineMemoNodes P0 mode)[q]? = some inst →
      inst.memoStateNum = some ms → ms < nMemoizedStates P0 mode := by
  intro q ms inst hfetch hmsn
  rw [determineMemoNodes_getElem?] at hfetch
  cases hfetch0 : P0[q]? with
  | none =>
    rw [hfetch0] at hfetch
    exact absurd hfetch (by simp)
  | some inst0 =>
    rw [hfetch0] at hfetch
    injection hfetch with hinst
    have hq : q < P0.length := (List.getElem?_eq_some_iff.mp hfetch0).1
    by_cases hselq : selOf P0 mode q = true
    · rw [if_pos hselq] at hinst
      rw [← hinst] at hmsn
      have hms2 : countSel (selOf P0 mode) 0 q = ms := Option.some.inj hmsn
      rw [← hms2]
      show countSel (selOf P0 mode) 0 q < countSel (selOf P0 mode) 0 P0.length
      exact countSel_lt (selOf P0 mode) P0.length q 0 hq (by rw [Nat.zero_add]; exact hselq)
    · rw [if_neg hselq] at hinst
      rw [← hinst] at hmsn
      exact Option.noConfusion hmsn

theorem initMemoTable_nStates (nS nC : Nat) (mode : MemoMode) (enc : MemoEncoding)
    (s k : Nat) (memo : Memo) (h : initMemoTable nS nC mode enc s k = some memo) :
    memo.nStates = nS := by
  cases enc with
  | ENCODING_NONE =>
    injection h with h2
    rw [← h2]
  | ENCODING_NEGATIVE =>
    injection h with h2
    rw [← h2]
  | ENCODING_RLE =>
    injection h with h2
    rw [← h2]
  | ENCODING_RLE_TUNED => exact Option.noConfusion h

/-- **C1.**  For every pattern and input: run the backtracking VM in memo
mode FULL or IN_DEGREE_GT1, under any memo encoding the table initializer
accepts, at the table geometry of spec 4.7 (logical length `|w|+1`, group
width 1), on a memo-annotated program that passes the compiler's own
invariants (state numbers equal indices, no infinite epsilon loop).
Whenever the simulation ends — match or no match — every entry of the final
visit table is at most 1, so the assertion checked by the statistics
printer (backtrack.c line 299) never fires. -/
theorem C1_visit_counts_bounded (P0 : List Inst) (w : List Nat) (nsubp : Nat)
    (mode : MemoMode) (enc : MemoEncoding) (memo0 : Memo) (fuel : Nat)
    (hmode : mode = MemoMode.MEMO_FULL ∨ mode = MemoMode.MEMO_IN_DEGREE_GT1)
    (hsn : stateNumsOkB (Prog_determineMemoNodes P0 mode) = true)
    (hloop : Prog_hasInfiniteLoop (Prog_determineMemoNodes P0 mode) = false)
    (hinit : initMemoTable (nMemoizedStates P0 mode) (w.length + 1) mode enc
      (w.length + 1) 1 = some memo0) :
    visitBoundB (backtrack (Prog_determineMemoNodes P0 mode) w nsubp mode memo0 fuel)
      = true := by
  have hmodeN : mode ≠ MemoMode.MEMO_NONE := by
    rcases hmode with h | h <;> rw [h] <;> intro hc <;> exact MemoMode.noConfusion hc
  have hencT : enc ≠ MemoEncoding.ENCODING_RLE_TUNED := by
    intro hc
    rw [hc] at hinit
    exact Option.noConfusion hinit
  obtain ⟨memo, heq, hnS, hnC, _, _, hminv, hunmarked⟩ :=
    initMemoTable_spec (nMemoizedStates P0 mode) (w.length + 1) mode enc hencT
  rw [hinit] at heq
  injection heq with heq2
  subst heq2
  have hsn2 := stateNumsOk_fetch hsn
  have hNC := no_cycle_of_loopFree (Prog_determineMemoNodes P0 mode) hloop
  have hsel := sel_none_pred P0 mode hmode
  have hms : ∀ (q ms : Nat) (inst : Inst),
      (Prog_determineMemoNodes P0 mode)[q]? = some inst →
      inst.memoStateNum = some ms → ms < memo0.nStates := by
    intro q ms inst hf hm
    rw [hnS]
    exact determine_ms_lt P0 mode q ms inst hf hm
  have hinv0 := btinv_init (Prog_determineMemoNodes P0 mode) w nsubp memo0 hnC hminv hunmarked
  exact runBT_visit_bound (Prog_determineMemoNodes P0 mode) w mode hmodeN hsn2 hNC hsel
    fuel [⟨0, 0, List.replicate nsubp none⟩]
    (initVisitTable (Prog_determineMemoNodes P0 mode).length (w.length + 1)) memo0
    hms hinv0

theorem C1_visit_counts_bounded_witness :
    visitBoundB (backtrack (Prog_determineMemoNodes
        [⟨Opcode.OpChar 97, 0, none, 0⟩, ⟨Opcode.OpChar 98, 1, none, 0⟩,
          ⟨Opcode.OpMatch, 2, none, 0⟩] MemoMode.MEMO_FULL)
      [97, 98] 2 MemoMode.MEMO_FULL
      ⟨MemoMode.MEMO_FULL, MemoEncoding.ENCODING_NONE, 3, 3,
        MemoData.dense (List.replicate 3 (List.replicate 3 0))⟩ 50) = true :=
  C1_visit_counts_bounded
    [⟨Opcode.OpChar 97, 0, none, 0⟩, ⟨Opcode.OpChar 98, 1, none, 0⟩,
      ⟨Opcode.OpMatch, 2, none, 0⟩]
    [97, 98] 2 MemoMode.MEMO_FULL MemoEncoding.ENCODING_NONE
    ⟨MemoMode.MEMO_FULL, MemoEncoding.ENCODING_NONE, 3, 3,
      MemoData.dense (List.replicate 3 (List.replicate 3 0))⟩ 50
    (Or.inl rfl) (by decide) (by decide) (by decide)
/-! ## C2: outcome equivalence across memo configurations -/

/-- A thread parked on an opcode the dispatch switch does not handle spins
until the fuel runs out whenever no memo check can kill it. -/
theorem spin_outOfFuel (P : List Inst) (w : List Nat) (mode : MemoMode)
    (th : Thread) (rest : List Thread) (inst : Inst)
    (hfetch : P[th.pc]? = some inst) (hunh : unhandledOp inst.opcode = true)
    (hmode : mode = MemoMode.MEMO_NONE ∨ inst.memoStateNum = none) :
    ∀ (fuel : Nat) (visit : VisitTable) (memo : Memo),
      inst.stateNum < visit.nStates → th.sp < visit.nChars →
      runBT P w mode fuel (th :: rest) visit memo = .outOfFuel := by
  intro fuel
  induction fuel with
  | zero => intro visit memo _ _; rfl
  | succ f ih =>
    intro visit memo hb1 hb2
    have hb : inst.stateNum < visit.nStates ∧ th.sp < visit.nChars := ⟨hb1, hb2⟩
    have hdisp : dispatchStep w inst th rest visit memo =
        .next (th :: rest) (visit.bump inst.stateNum th.sp) memo := by
      cases hop : inst.opcode <;> rw [hop] at hunh <;>
        first
          | exact Bool.noConfusion hunh
          | simp [dispatchStep, hb, hop]
    have hstep : step P w mode (th :: rest) visit memo =
        .next (th :: rest) (visit.bump inst.stateNum th.sp) memo := by
      simp only [step, hfetch]
      rcases hmode with hm | hm
      · rw [hm]
        cases hmsn : inst.memoStateNum with
        | none => exact hdisp
        | some ms => exact hdisp
      · rw [hm]
        cases mode <;> exact hdisp
    simp only [runBT, hstep]
    exact ih (visit.bump inst.stateNum th.sp) memo hb1 hb2

/-- Does a run report "no match"? -/
def isNomatch : BTResult → Bool
  | .nomatch _ _ => true
  | _ => false

/-- **C2.**  Refuted: the match/no-match outcome is NOT identical across
memo modes.  The program compiled from the flattened alternation `a|b`
starts with a SplitMany instruction, which the dispatch switch of
`backtrack` has no case for: under mode NONE the VM re-runs the unchanged
thread forever (the run never returns, modelled as out-of-fuel at every
fuel), while under mode FULL the memo check kills the spinning thread on
its second visit and the VM reports no-match on the input "a" — two
different observable outcomes for the same regex and input. -/
theorem C2_memo_equivalence_fails :
    (∀ fuel : Nat,
      backtrack (Prog_determineMemoNodes
          (compile (Regexp.AltList [Regexp.Lit 97, Regexp.Lit 98])
            MemoEncoding.ENCODING_NONE 1) MemoMode.MEMO_NONE)
        [97] 2 MemoMode.MEMO_NONE
        ⟨MemoMode.MEMO_NONE, MemoEncoding.ENCODING_NONE, 0, 2, MemoData.dense []⟩
        fuel = BTResult.outOfFuel) ∧
    isNomatch (backtrack (Prog_determineMemoNodes
          (compile (Regexp.AltList [Regexp.Lit 97, Regexp.Lit 98])
            MemoEncoding.ENCODING_NONE 1) MemoMode.MEMO_FULL)
        [97] 2 MemoMode.MEMO_FULL
        ⟨MemoMode.MEMO_FULL, MemoEncoding.ENCODING_NONE, 6, 2,
          MemoData.dense (List.replicate 6 (List.replicate 2 0))⟩ 10) = true := by
  constructor
  · intro fuel
    exact spin_outOfFuel
      (Prog_determineMemoNodes
        (compile (Regexp.AltList [Regexp.Lit 97, Regexp.Lit 98])
          MemoEncoding.ENCODING_NONE 1) MemoMode.MEMO_NONE)
      [97] MemoMode.MEMO_NONE ⟨0, 0, List.replicate 2 none⟩ []
      ⟨Opcode.OpSplitMany [1, 3], 0, none, 1⟩
      (by decide) rfl (Or.inl rfl) fuel _ _ (by decide) (by decide)
  · decide
/-! ## C10: the markVisit bounds assertions never fire -/

/-- Every Char instruction matches a nonzero byte (true of compiled
patterns: a NUL cannot occur inside a C pattern string). -/
def charsOkB (P : List Inst) : Bool :=
  P.all (fun inst => match inst.opcode with
    | .OpChar c => decide (c ≠ 0)
    | _ => true)

/-- With a Match-terminated program, fall-through from a non-Match
instruction stays inside the program. -/
theorem fallthrough_lt (P : List Inst) (hlast : lastIsMatchB P = true)
    {q : Nat} {inst : Inst} (hfetch : P[q]? = some inst)
    (hnm : inst.opcode ≠ Opcode.OpMatch) : q + 1 < P.length := by
  have hq : q < P.length := (List.getElem?_eq_some_iff.mp hfetch).1
  by_contra hc
  have hq1 : q = P.length - 1 := by omega
  subst hq1
  rw [lastIsMatchB, decide_eq_true_eq] at hlast
  rcases List.getElem?_eq_some_iff.mp hfetch with ⟨hqq, hload⟩
  rw [List.getD_eq_getElem P defaultInst hqq, hload] at hlast
  exact hnm hlast

theorem charsOk_fetch {P : List Inst} (h : charsOkB P = true)
    {q : Nat} {inst : Inst} {c : Nat} (hfetch : P[q]? = some inst)
    (hop : inst.opcode = Opcode.OpChar c) : c ≠ 0 := by
  rw [charsOkB, List.all_eq_true] at h
  have hmem : inst ∈ P := by
    rcases List.getElem?_eq_some_iff.mp hfetch with ⟨hq, hload⟩
    rw [← hload]
    exact List.getElem_mem hq
  have h2 := h inst hmem
  rw [hop] at h2
  exact of_decide_eq_true h2

theorem targetsOk_fetch {P : List Inst} (h : targetsOkB P = true)
    {q : Nat} {inst : Inst} (hfetch : P[q]? = some inst)
    {t : Nat} (ht : t ∈ opTargets inst.opcode) : t < P.length := by
  rw [targetsOkB, List.all_eq_true] at h
  have hmem : inst ∈ P := by
    rcases List.getElem?_eq_some_iff.mp hfetch with ⟨hq, hload⟩
    rw [← hload]
    exact List.getElem_mem hq
  have h2 := h inst hmem
  rw [List.all_eq_true] at h2
  exact of_decide_eq_true (h2 t ht)

theorem charAt_ne_zero_lt {w : List Nat} {i : Nat} (hle : i ≤ w.length)
    (hne : charAt w i ≠ 0) : i < w.length := by
  by_contra hc
  have hilen : i = w.length := by omega
  refine hne ?_
  rw [hilen]
  unfold charAt
  rw [List.getD_eq_default w 0 (Nat.le_refl _)]

/-- Marking one memo cell leaves every other state's rows untouched. -/
theorem isMarked_markMemo_ne (memo : Memo) (q i q' i' : Nat) (hne : q' ≠ q) :
    isMarked (markMemo memo q i) q' i' = isMarked memo q' i' := by
  cases hd : memo.data with
  | dense vv =>
    simp only [isMarked, markMemo, hd]
    have houter : (vv.set q ((vv.getD q []).set i 1)).getD q' [] =
        vv.getD q' [] := by
      rw [List.getD_eq_getElem?_getD, List.getD_eq_getElem?_getD,
        List.getElem?_set_ne (fun hh => hne hh.symm)]
      exact (List.getD_eq_getElem?_getD _ _ _).symm
    rw [houter]
  | negative tbl =>
    simp only [isMarked, markMemo, hd]
    have hpair : ((q', i') == (q, i)) = false := by
      rw [beq_eq_false_iff_ne]
      intro hcc
      exact hne (congrArg Prod.fst hcc)
    simp only [List.contains_cons, hpair, Bool.false_or]
  | rle vecs =>
    simp only [isMarked, markMemo, hd]
    have houter : (vecs.set q (RLEVector_set (vecs.getD q (RLEVector_create 0 1)) i)).getD
        q' (RLEVector_create 0 1) = vecs.getD q' (RLEVector_create 0 1) := by
      rw [List.getD_eq_getElem?_getD, List.getD_eq_getElem?_getD,
        List.getElem?_set_ne (fun hh => hne hh.symm)]
      exact (List.getD_eq_getElem?_getD _ _ _).symm
    rw [houter]

/-- Memo indices identify their instruction: the assignment is injective. -/
theorem determine_ms_inj (P0 : List Inst) (mode : MemoMode) :
    ∀ (q1 q2 ms : Nat) (i1 i2 : Inst),
      (Prog_determineMemoNodes P0 mode)[q1]? = some i1 →
      (Prog_determineMemoNodes P0 mode)[q2]? = some i2 →
      i1.memoStateNum = some ms → i2.memoStateNum = some ms → q1 = q2 := by
  have key : ∀ (qa qb : Nat), qa < qb →
      selOf P0 mode qa = true →
      countSel (selOf P0 mode) 0 qa < countSel (selOf P0 mode) 0 qb := by
    intro qa qb hab hsel
    exact countSel_lt (selOf P0 mode) qb qa 0 hab (by rw [Nat.zero_add]; exact hsel)
  intro q1 q2 ms i1 i2 hf1 hf2 hm1 hm2
  rw [determineMemoNodes_getElem?] at hf1 hf2
  cases hf01 : P0[q1]? with
  | none =>
    rw [hf01] at hf1
    exact absurd hf1 (by simp)
  | some a1 =>
    cases hf02 : P0[q2]? with
    | none =>
      rw [hf02] at hf2
      exact absurd hf2 (by simp)
    | some a2 =>
      rw [hf01] at hf1
      rw [hf02] at hf2
      injection hf1 with h1
      injection hf2 with h2
      by_cases hs1 : selOf P0 mode q1 = true
      case neg =>
        rw [if_neg hs1] at h1
        rw [← h1] at hm1
        exact Option.noConfusion hm1
      rw [if_pos hs1] at h1
      rw [← h1] at hm1
      have hv1 : countSel (selOf P0 mode) 0 q1 = ms := Option.some.inj hm1
      by_cases hs2 : selOf P0 mode q2 = true
      case neg =>
        rw [if_neg hs2] at h2
        rw [← h2] at hm2
        exact Option.noConfusion hm2
      rw [if_pos hs2] at h2
      rw [← h2] at hm2
      have hv2 : countSel (selOf P0 mode) 0 q2 = ms := Option.some.inj hm2
      by_contra hne
      rcases Nat.lt_or_ge q1 q2 with hlt | hge
      · have := key q1 q2 hlt hs1
        omega
      · have hlt2 : q2 < q1 := by omega
        have := key q2 q1 hlt2 hs2
        omega

/-- One dispatch from an in-bounds thread: a finishing dispatch is never the
assertion failure, and a continuing one keeps every thread in bounds. -/
theorem dispatch_safe (P : List Inst) (w : List Nat) (inst : Inst) (th : Thread)
    (rest : List Thread) (visit : VisitTable) (memoX : Memo)
    (htg : targetsOkB P = true) (hlast : lastIsMatchB P = true)
    (hchars : charsOkB P = true)
    (hfetch : P[th.pc]? = some inst)
    (hpc : th.pc < P.length) (hsp : th.sp ≤ w.length)
    (hb1 : inst.stateNum < visit.nStates) (hb2 : th.sp < visit.nChars) :
    (∀ r, dispatchStep w inst th rest visit memoX = .done r → r ≠ .assertFail) ∧
    (∀ r2 v2 m2, dispatchStep w inst th rest visit memoX = .next r2 v2 m2 →
      m2 = memoX ∧ v2.nStates = visit.nStates ∧ v2.nChars = visit.nChars ∧
      inst.opcode ≠ Opcode.OpMatch ∧
      ∀ t ∈ r2, t ∈ rest ∨ (t.pc < P.length ∧ t.sp ≤ w.length)) := by
  unfold dispatchStep
  rw [if_pos (⟨hb1, hb2⟩ : inst.stateNum < visit.nStates ∧ th.sp < visit.nChars)]
  cases hop : inst.opcode with
  | OpChar c =>
    dsimp only
    constructor
    · intro r hr
      by_cases hch : charAt w th.sp = c
      · rw [if_pos hch] at hr
        exact absurd hr (by simp)
      · rw [if_neg hch] at hr
        exact absurd hr (by simp)
    · intro r2 v2 m2 hr
      by_cases hch : charAt w th.sp = c
      · rw [if_pos hch] at hr
        injection hr with h1 h2 h3
        refine ⟨h3.symm, by rw [← h2]; rfl, by rw [← h2]; rfl, by simp, ?_⟩
        intro t ht
        rw [← h1] at ht
        rcases List.mem_cons.mp ht with h | h
        · rw [h]
          refine Or.inr ⟨fallthrough_lt P hlast hfetch (by rw [hop]; simp), ?_⟩
          have hcne : charAt w th.sp ≠ 0 := by
            rw [hch]
            exact charsOk_fetch hchars hfetch hop
          have := charAt_ne_zero_lt hsp hcne
          show th.sp + 1 ≤ w.length
          omega
        · exact Or.inl h
      · rw [if_neg hch] at hr
        injection hr with h1 h2 h3
        refine ⟨h3.symm, by rw [← h2]; rfl, by rw [← h2]; rfl, by simp, ?_⟩
        intro t ht
        rw [← h1] at ht
        exact Or.inl ht
  | OpAny =>
    dsimp only
    constructor
    · intro r hr
      by_cases hch : charAt w th.sp = 0
      · rw [if_pos hch] at hr
        exact absurd hr (by simp)
      · rw [if_neg hch] at hr
        exact absurd hr (by simp)
    · intro r2 v2 m2 hr
      by_cases hch : charAt w th.sp = 0
      · rw [if_pos hch] at hr
        injection hr with h1 h2 h3
        refine ⟨h3.symm, by rw [← h2]; rfl, by rw [← h2]; rfl, by simp, ?_⟩
        intro t ht
        rw [← h1] at ht
        exact Or.inl ht
      · rw [if_neg hch] at hr
        injection hr with h1 h2 h3
        refine ⟨h3.symm, by rw [← h2]; rfl, by rw [← h2]; rfl, by simp, ?_⟩
        intro t ht
        rw [← h1] at ht
        rcases List.mem_cons.mp ht with h | h
        · rw [h]
          refine Or.inr ⟨fallthrough_lt P hlast hfetch (by rw [hop]; simp), ?_⟩
          have := charAt_ne_zero_lt hsp hch
          show th.sp + 1 ≤ w.length
          omega
        · exact Or.inl h
  | OpMatch =>
    dsimp only
    constructor
    · intro r hr
      injection hr with h1
      rw [← h1]
      simp
    · intro r2 v2 m2 hr
      exact absurd hr (by simp)
  | OpJmp x =>
    dsimp only
    constructor
    · intro r hr
      exact absurd hr (by simp)
    · intro r2 v2 m2 hr
      injection hr with h1 h2 h3
      refine ⟨h3.symm, by rw [← h2]; rfl, by rw [← h2]; rfl, by simp, ?_⟩
      intro t ht
      rw [← h1] at ht
      rcases List.mem_cons.mp ht with h | h
      · rw [h]
        refine Or.inr ⟨targetsOk_fetch htg hfetch (t := x) ?_, hsp⟩
        rw [hop]
        simp [opTargets]
      · exact Or.inl h
  | OpSplit x y =>
    dsimp only
    constructor
    · intro r hr
      by_cases hovf : rest.length ≥ 1000
      · rw [if_pos hovf] at hr
        injection hr with h1
        rw [← h1]
        simp
      · rw [if_neg hovf] at hr
        exact absurd hr (by simp)
    · intro r2 v2 m2 hr
      by_cases hovf : rest.length ≥ 1000
      · rw [if_pos hovf] at hr
        exact absurd hr (by simp)
      · rw [if_neg hovf] at hr
        injection hr with h1 h2 h3
        refine ⟨h3.symm, by rw [← h2]; rfl, by rw [← h2]; rfl, by simp, ?_⟩
        intro t ht
        rw [← h1] at ht
        rcases List.mem_cons.mp ht with h | h
        · rw [h]
          refine Or.inr ⟨targetsOk_fetch htg hfetch (t := x) ?_, hsp⟩
          rw [hop]
          simp [opTargets]
        · rcases List.mem_cons.mp h with h4 | h4
          · rw [h4]
            refine Or.inr ⟨targetsOk_fetch htg hfetch (t := y) ?_, hsp⟩
            rw [hop]
            simp [opTargets]
          · exact Or.inl h4
  | OpSave n =>
    dsimp only
    constructor
    · intro r hr
      exact absurd hr (by simp)
    · intro r2 v2 m2 hr
      injection hr with h1 h2 h3
      refine ⟨h3.symm, by rw [← h2]; rfl, by rw [← h2]; rfl, by simp, ?_⟩
      intro t ht
      rw [← h1] at ht
      rcases List.mem_cons.mp ht with h | h
      · rw [h]
        exact Or.inr ⟨fallthrough_lt P hlast hfetch (by rw [hop]; simp), hsp⟩
      · exact Or.inl h
  | OpSplitMany es =>
    dsimp only
    constructor
    · intro r hr
      exact absurd hr (by simp)
    · intro r2 v2 m2 hr
      injection hr with h1 h2 h3
      refine ⟨h3.symm, by rw [← h2]; rfl, by rw [← h2]; rfl, by simp, ?_⟩
      intro t ht
      rw [← h1] at ht
      rcases List.mem_cons.mp ht with h | h
      · rw [h]
        exact Or.inr ⟨hpc, hsp⟩
      · exact Or.inl h
  | OpCharClass rs inv =>
    dsimp only
    constructor
    · intro r hr
      exact absurd hr (by simp)
    · intro r2 v2 m2 hr
      injection hr with h1 h2 h3
      refine ⟨h3.symm, by rw [← h2]; rfl, by rw [← h2]; rfl, by simp, ?_⟩
      intro t ht
      rw [← h1] at ht
      rcases List.mem_cons.mp ht with h | h
      · rw [h]
        exact Or.inr ⟨hpc, hsp⟩
      · exact Or.inl h
  | OpStringCompare n =>
    dsimp only
    constructor
    · intro r hr
      exact absurd hr (by simp)
    · intro r2 v2 m2 hr
      injection hr with h1 h2 h3
      refine ⟨h3.symm, by rw [← h2]; rfl, by rw [← h2]; rfl, by simp, ?_⟩
      intro t ht
      rw [← h1] at ht
      rcases List.mem_cons.mp ht with h | h
      · rw [h]
        exact Or.inr ⟨hpc, hsp⟩
      · exact Or.inl h
  | OpInlineZWA c =>
    dsimp only
    constructor
    · intro r hr
      exact absurd hr (by simp)
    · intro r2 v2 m2 hr
      injection hr with h1 h2 h3
      refine ⟨h3.symm, by rw [← h2]; rfl, by rw [← h2]; rfl, by simp, ?_⟩
      intro t ht
      rw [← h1] at ht
      rcases List.mem_cons.mp ht with h | h
      · rw [h]
        exact Or.inr ⟨hpc, hsp⟩
      · exact Or.inl h
  | OpRecursiveZWA =>
    dsimp only
    constructor
    · intro r hr
      exact absurd hr (by simp)
    · intro r2 v2 m2 hr
      injection hr with h1 h2 h3
      refine ⟨h3.symm, by rw [← h2]; rfl, by rw [← h2]; rfl, by simp, ?_⟩
      intro t ht
      rw [← h1] at ht
      rcases List.mem_cons.mp ht with h | h
      · rw [h]
        exact Or.inr ⟨hpc, hsp⟩
      · exact Or.inl h
  | OpRecursiveMatch =>
    dsimp only
    constructor
    · intro r hr
      exact absurd hr (by simp)
    · intro r2 v2 m2 hr
      injection hr with h1 h2 h3
      refine ⟨h3.symm, by rw [← h2]; rfl, by rw [← h2]; rfl, by simp, ?_⟩
      intro t ht
      rw [← h1] at ht
      rcases List.mem_cons.mp ht with h | h
      · rw [h]
        exact Or.inr ⟨hpc, hsp⟩
      · exact Or.inl h
/-- The C10 safety invariant: every pending thread is in bounds, and no
memoized Match state has ever been marked (a marked Match would trip the
`assert(pc->opcode != Match)` of the memo check). -/
def SafeInv (P : List Inst) (w : List Nat) (ready : List Thread) (memo : Memo) : Prop :=
  (∀ t ∈ ready, t.pc < P.length ∧ t.sp ≤ w.length) ∧
  (∀ (q ms : Nat) (inst : Inst), P[q]? = some inst →
    inst.opcode = Opcode.OpMatch → inst.memoStateNum = some ms →
    ∀ i, isMarked memo ms i = false)

theorem step_safe (P : List Inst) (w : List Nat) (mode : MemoMode)
    (htg : targetsOkB P = true) (hlast : lastIsMatchB P = true)
    (hsn : stateNumsOkB P = true) (hchars : charsOkB P = true)
    (hmsinj : ∀ (q1 q2 ms : Nat) (i1 i2 : Inst), P[q1]? = some i1 →
      P[q2]? = some i2 → i1.memoStateNum = some ms → i2.memoStateNum = some ms →
      q1 = q2)
    (ready : List Thread) (visit : VisitTable) (memo : Memo)
    (hvs : visit.nStates = P.length) (hvc : visit.nChars = w.length + 1)
    (hinv : SafeInv P w ready memo) :
    (∀ r, step P w mode ready visit memo = .done r → r ≠ .assertFail) ∧
    (∀ r2 v2 m2, step P w mode ready visit memo = .next r2 v2 m2 →
      SafeInv P w r2 m2 ∧ v2.nStates = P.length ∧ v2.nChars = w.length + 1) := by
  obtain ⟨hB, hM⟩ := hinv
  cases ready with
  | nil =>
    constructor
    · intro r hr
      simp only [step] at hr
      injection hr with h
      rw [← h]
      simp
    · intro r2 v2 m2 hr
      exact absurd hr (by simp [step])
  | cons th rest =>
    have hth := hB th (List.mem_cons_self _ _)
    cases hfetch : P[th.pc]? with
    | none =>
      exfalso
      have := List.getElem?_eq_none_iff.mp hfetch
      omega
    | some inst =>
      have hstn := stateNumsOk_fetch hsn th.pc inst hfetch
      have hb1 : inst.stateNum < visit.nStates := by
        rw [hstn, hvs]
        exact hth.1
      have hb2 : th.sp < visit.nChars := by
        rw [hvc]
        omega
      have hrest : ∀ t ∈ rest, t.pc < P.length ∧ t.sp ≤ w.length :=
        fun t ht => hB t (List.mem_cons_of_mem _ ht)
      have hnext : ∀ memoX r2 v2 m2,
          dispatchStep w inst th rest visit memoX = .next r2 v2 m2 →
          (∀ t ∈ r2, t.pc < P.length ∧ t.sp ≤ w.length) ∧ m2 = memoX ∧
          inst.opcode ≠ Opcode.OpMatch ∧
          v2.nStates = P.length ∧ v2.nChars = w.length + 1 := by
        intro memoX r2 v2 m2 h2
        obtain ⟨hm2, hv2s, hv2c, hnm, hmem⟩ :=
          (dispatch_safe P w inst th rest visit memoX htg hlast hchars hfetch
            hth.1 hth.2 hb1 hb2).2 r2 v2 m2 h2
        refine ⟨?_, hm2, hnm, by rw [hv2s, hvs], by rw [hv2c, hvc]⟩
        intro t ht
        rcases hmem t ht with h | h
        · exact hrest t h
        · exact h
      have hdone : ∀ memoX r,
          dispatchStep w inst th rest visit memoX = .done r → r ≠ .assertFail :=
        fun memoX r h2 =>
          (dispatch_safe P w inst th rest visit memoX htg hlast hchars hfetch
            hth.1 hth.2 hb1 hb2).1 r h2
      constructor
      · intro r hr
        simp only [step] at hr
        rw [hfetch] at hr
        dsimp only at hr
        cases hmsn : inst.memoStateNum with
        | none =>
          rw [hmsn] at hr
          have hgo := hdone memo r
          cases mode with
          | MEMO_NONE => exact hgo hr
          | MEMO_FULL => exact hgo hr
          | MEMO_IN_DEGREE_GT1 => exact hgo hr
          | MEMO_LOOP_DEST => exact hgo hr
        | some ms =>
          rw [hmsn] at hr
          have hgo1 := hdone memo r
          have hgo2 : (if isMarked memo ms th.sp then
              (if inst.opcode = Opcode.OpMatch then StepOut.done .assertFail
                else .next rest visit memo)
              else dispatchStep w inst th rest visit (markMemo memo ms th.sp)) =
                .done r → r ≠ .assertFail := by
            intro h2
            by_cases hmkd : isMarked memo ms th.sp
            · by_cases hmat : inst.opcode = Opcode.OpMatch
              · exfalso
                have hum := hM th.pc ms inst hfetch hmat hmsn th.sp
                rw [hum] at hmkd
                exact Bool.noConfusion hmkd
              · rw [if_pos hmkd, if_neg hmat] at h2
                exact absurd h2 (by simp)
            · rw [if_neg hmkd] at h2
              exact hdone (markMemo memo ms th.sp) r h2
          cases mode with
          | MEMO_NONE => exact hgo1 hr
          | MEMO_FULL => exact hgo2 hr
          | MEMO_IN_DEGREE_GT1 => exact hgo2 hr
          | MEMO_LOOP_DEST => exact hgo2 hr
      · intro r2 v2 m2 hr
        simp only [step] at hr
        rw [hfetch] at hr
        dsimp only at hr
        have hgoPlain : dispatchStep w inst th rest visit memo = .next r2 v2 m2 →
            SafeInv P w r2 m2 ∧ v2.nStates = P.length ∧ v2.nChars = w.length + 1 := by
          intro h2
          obtain ⟨hmem, hm2, _hnm, hv2s, hv2c⟩ := hnext memo r2 v2 m2 h2
          refine ⟨⟨hmem, ?_⟩, hv2s, hv2c⟩
          rw [hm2]
          exact hM
        cases hmsn : inst.memoStateNum with
        | none =>
          rw [hmsn] at hr
          cases mode with
          | MEMO_NONE => exact hgoPlain hr
          | MEMO_FULL => exact hgoPlain hr
          | MEMO_IN_DEGREE_GT1 => exact hgoPlain hr
          | MEMO_LOOP_DEST => exact hgoPlain hr
        | some ms =>
          rw [hmsn] at hr
          have hgo2 : (if isMarked memo ms th.sp then
              (if inst.opcode = Opcode.OpMatch then StepOut.done .assertFail
                else .next rest visit memo)
              else dispatchStep w inst th rest visit (markMemo memo ms th.sp)) =
                .next r2 v2 m2 →
              SafeInv P w r2 m2 ∧ v2.nStates = P.length ∧ v2.nChars = w.length + 1 := by
            intro h2
            by_cases hmkd : isMarked memo ms th.sp
            · by_cases hmat : inst.opcode = Opcode.OpMatch
              · exfalso
                have hum := hM th.pc ms inst hfetch hmat hmsn th.sp
                rw [hum] at hmkd
                exact Bool.noConfusion hmkd
              · rw [if_pos hmkd, if_neg hmat] at h2
                injection h2 with e1 e2 e3
                refine ⟨⟨?_, ?_⟩, ?_, ?_⟩
                · intro t ht
                  rw [← e1] at ht
                  exact hrest t ht
                · rw [← e3]
                  exact hM
                · rw [← e2]
                  exact hvs
                · rw [← e2]
                  exact hvc
            · rw [if_neg hmkd] at h2
              obtain ⟨hmem, hm2, hnm, hv2s, hv2c⟩ :=
                hnext (markMemo memo ms th.sp) r2 v2 m2 h2
              refine ⟨⟨hmem, ?_⟩, hv2s, hv2c⟩
              rw [hm2]
              intro q' ms' inst' hf' hop' hm' i
              have hne : ms' ≠ ms := by
                intro hcc
                have hm'' : inst'.memoStateNum = some ms := by rw [hm', hcc]
                have hq' : q' = th.pc := hmsinj q' th.pc ms inst' inst hf' hfetch hm'' hmsn
                rw [hq', hfetch] at hf'
                injection hf' with hf''
                rw [← hf''] at hop'
                exact hnm hop'
              rw [isMarked_markMemo_ne memo ms th.sp ms' i hne]
              exact hM q' ms' inst' hf' hop' hm' i
          cases mode with
          | MEMO_NONE => exact hgoPlain hr
          | MEMO_FULL => exact hgo2 hr
          | MEMO_IN_DEGREE_GT1 => exact hgo2 hr
          | MEMO_LOOP_DEST => exact hgo2 hr

theorem runBT_safe (P : List Inst) (w : List Nat) (mode : MemoMode)
    (htg : targetsOkB P = true) (hlast : lastIsMatchB P = true)
    (hsn : stateNumsOkB P = true) (hchars : charsOkB P = true)
    (hmsinj : ∀ (q1 q2 ms : Nat) (i1 i2 : Inst), P[q1]? = some i1 →
      P[q2]? = some i2 → i1.memoStateNum = some ms → i2.memoStateNum = some ms →
      q1 = q2) :
    ∀ (fuel : Nat) (ready : List Thread) (visit : VisitTable) (memo : Memo),
      visit.nStates = P.length → visit.nChars = w.length + 1 →
      SafeInv P w ready memo →
      runBT P w mode fuel ready visit memo ≠ .assertFail := by
  intro fuel
  induction fuel with
  | zero =>
    intro ready visit memo _ _ _
    simp [runBT]
  | succ f ih =>
    intro ready visit memo hvs hvc hinv
    obtain ⟨hdone, hnext⟩ := step_safe P w mode htg hlast hsn hchars hmsinj
      ready visit memo hvs hvc hinv
    cases hstep : step P w mode ready visit memo with
    | done r =>
      have hrun : runBT P w mode (f + 1) ready visit memo = r := by
        simp only [runBT, hstep]
      rw [hrun]
      exact hdone r hstep
    | next r2 v2 m2 =>
      have hrun : runBT P w mode (f + 1) ready visit memo =
          runBT P w mode f r2 v2 m2 := by
        simp only [runBT, hstep]
      rw [hrun]
      obtain ⟨hinv2, hv2s, hv2c⟩ := hnext r2 v2 m2 hstep
      exact ih r2 v2 m2 hv2s hv2c hinv2

/-- **C10.**  During every backtracking run on a memo-annotated compiled
program — nonempty, Match-terminated, state numbers equal to indices, every
edge target valid, every Char byte nonzero (as compile guarantees, C8), the
memo table initialized at spec 4.7's geometry — the bounds assertions of
`markVisit` always hold and the VM never faults: the program counter stays
inside the program, the offset never passes the terminating NUL, and no
marked Match state is ever revisited; the run never returns the
assertion-failure outcome, under every memo mode and accepted encoding. -/
theorem C10_markVisit_bounds (P0 : List Inst) (w : List Nat) (nsubp : Nat)
    (mode : MemoMode) (enc : MemoEncoding) (memo0 : Memo) (fuel : Nat)
    (hlen : 0 < P0.length)
    (htg : targetsOkB (Prog_determineMemoNodes P0 mode) = true)
    (hlast : lastIsMatchB (Prog_determineMemoNodes P0 mode) = true)
    (hsn : stateNumsOkB (Prog_determineMemoNodes P0 mode) = true)
    (hchars : charsOkB (Prog_determineMemoNodes P0 mode) = true)
    (hinit : initMemoTable (nMemoizedStates P0 mode) (w.length + 1) mode enc
      (w.length + 1) 1 = some memo0) :
    backtrack (Prog_determineMemoNodes P0 mode) w nsubp mode memo0 fuel ≠
      BTResult.assertFail := by
  have hencT : enc ≠ MemoEncoding.ENCODING_RLE_TUNED := by
    intro hc
    rw [hc] at hinit
    exact Option.noConfusion hinit
  obtain ⟨memo, heq, _, _, _, _, _, hunmarked⟩ :=
    initMemoTable_spec (nMemoizedStates P0 mode) (w.length + 1) mode enc hencT
  rw [hinit] at heq
  injection heq with heq2
  subst heq2
  have hinv0 : SafeInv (Prog_determineMemoNodes P0 mode) w
      [⟨0, 0, List.replicate nsubp none⟩] memo0 := by
    constructor
    · intro t ht
      rw [List.mem_singleton] at ht
      rw [ht]
      refine ⟨?_, Nat.zero_le w.length⟩
      show 0 < (Prog_determineMemoNodes P0 mode).length
      rw [determineMemoNodes_length]
      omega
    · intro q ms inst _ _ _ i
      exact hunmarked ms i
  exact runBT_safe (Prog_determineMemoNodes P0 mode) w mode htg hlast hsn hchars
    (determine_ms_inj P0 mode) fuel [⟨0, 0, List.replicate nsubp none⟩]
    (initVisitTable (Prog_determineMemoNodes P0 mode).length (w.length + 1)) memo0
    rfl rfl hinv0

theorem C10_markVisit_bounds_witness :
    backtrack (Prog_determineMemoNodes
        [⟨Opcode.OpSplit 1 3, 0, none, 1⟩, ⟨Opcode.OpChar 97, 1, none, 1⟩,
          ⟨Opcode.OpJmp 0, 2, none, 1⟩, ⟨Opcode.OpMatch, 3, none, 1⟩]
        MemoMode.MEMO_FULL)
      [97, 97] 2 MemoMode.MEMO_FULL
      ⟨MemoMode.MEMO_FULL, MemoEncoding.ENCODING_NONE, 4, 3,
        MemoData.dense (List.replicate 4 (List.replicate 3 0))⟩ 100 ≠
      BTResult.assertFail :=
  C10_markVisit_bounds
    [⟨Opcode.OpSplit 1 3, 0, none, 1⟩, ⟨Opcode.OpChar 97, 1, none, 1⟩,
      ⟨Opcode.OpJmp 0, 2, none, 1⟩, ⟨Opcode.OpMatch, 3, none, 1⟩]
    [97, 97] 2 MemoMode.MEMO_FULL MemoEncoding.ENCODING_NONE
    ⟨MemoMode.MEMO_FULL, MemoEncoding.ENCODING_NONE, 4, 3,
      MemoData.dense (List.replicate 4 (List.replicate 3 0))⟩ 100
    (by decide) (by decide) (by decide) (by decide) (by decide) (by decide)
/-! ## C7: the NEGATIVE-encoding hash-count sanity check -/

/-- All (state, offset) cells of the memo rectangle. -/
def negCells (nS nC : Nat) : List (Nat × Nat) :=
  (List.range nS).flatMap (fun q => (List.range nC).map (fun i => (q, i)))

/-- The sanity check of `printStats` for ENCODING_NEGATIVE (backtrack.c
lines 326-335): the hash-set size equals the number of in-rectangle cells
`isMarked` reports as marked.  Other encodings hold vacuously. -/
def negCountOkB (memo : Memo) : Bool :=
  match memo.data with
  | .negative tbl => tbl.length ==
      ((List.range memo.nStates).map (fun q =>
        ((List.range memo.nChars).filter (fun i => isMarked memo q i)).length)).sum
  | _ => true

/-- `negCountOkB` on the memo table a finished run reports. -/
def negStatsOkB (r : BTResult) : Bool :=
  match r with
  | .matched _ _ m => negCountOkB m
  | .nomatch _ m => negCountOkB m
  | _ => true

/-- The C7 invariant: the NEGATIVE hash table holds no duplicate key and
every key lies inside the nStates x nChars rectangle. -/
def NegInv (memo : Memo) : Prop :=
  match memo.data with
  | .negative tbl => tbl.Nodup ∧ ∀ p ∈ tbl, p.1 < memo.nStates ∧ p.2 < memo.nChars
  | _ => True

theorem negCells_nodup (nS nC : Nat) : (negCells nS nC).Nodup := by
  rw [negCells, List.nodup_flatMap]
  constructor
  · intro q _
    refine List.Nodup.map ?_ (List.nodup_range nC)
    intro a b hab
    exact congrArg Prod.snd hab
  · refine List.Pairwise.imp ?_ (List.pairwise_lt_range nS)
    intro a b hab
    intro x hxa hxb
    rcases List.mem_map.mp hxa with ⟨i, _, hxi⟩
    rcases List.mem_map.mp hxb with ⟨j, _, hxj⟩
    rw [← hxi] at hxj
    have : b = a := congrArg Prod.fst hxj
    omega

/-- The counting argument: a duplicate-free in-rectangle table has exactly
as many entries as there are marked cells. -/
theorem neg_count_eq (nS nC : Nat) (tbl : List (Nat × Nat))
    (hnd : tbl.Nodup) (hrange : ∀ p ∈ tbl, p.1 < nS ∧ p.2 < nC) :
    ((List.range nS).map (fun q =>
      ((List.range nC).filter (fun i => tbl.contains (q, i))).length)).sum =
      tbl.length := by
  have h1 : ((negCells nS nC).filter (fun x => tbl.contains x)).length =
      ((List.range nS).map (fun q =>
        ((List.range nC).filter (fun i => tbl.contains (q, i))).length)).sum := by
    rw [negCells, filter_flatMap_length]
    apply congrArg List.sum
    apply List.map_congr_left
    intro q _
    rw [List.filter_map, List.length_map]
    rfl
  rw [← h1]
  have hfnd : ((negCells nS nC).filter (fun x => tbl.contains x)).Nodup :=
    List.Nodup.filter _ (negCells_nodup nS nC)
  have hfs : ((negCells nS nC).filter (fun x => tbl.contains x)).toFinset =
      tbl.toFinset := by
    ext x
    rw [List.mem_toFinset, List.mem_toFinset, List.mem_filter]
    constructor
    · rintro ⟨_, hc⟩
      exact List.elem_iff.mp hc
    · intro hx
      refine ⟨?_, List.elem_iff.mpr hx⟩
      rcases hrange x hx with ⟨h1x, h2x⟩
      rw [negCells, List.mem_flatMap]
      refine ⟨x.1, List.mem_range.mpr h1x, ?_⟩
      rw [List.mem_map]
      exact ⟨x.2, List.mem_range.mpr h2x, rfl⟩
  have hcard := congrArg Finset.card hfs
  rw [List.toFinset_card_of_nodup hfnd, List.toFinset_card_of_nodup hnd] at hcard
  exact hcard

theorem negCount_of_inv (memo : Memo) (hinv : NegInv memo) :
    negCountOkB memo = true := by
  cases hd : memo.data with
  | dense vv => simp [negCountOkB, hd]
  | rle vecs => simp [negCountOkB, hd]
  | negative tbl =>
    simp only [NegInv, hd] at hinv
    obtain ⟨hnd, hrange⟩ := hinv
    simp only [negCountOkB, hd, isMarked]
    rw [beq_iff_eq]
    exact (neg_count_eq memo.nStates memo.nChars tbl hnd hrange).symm

theorem negInv_mark (memo : Memo) (ms i : Nat) (hms : ms < memo.nStates)
    (hi : i < memo.nChars) (hunmkd : isMarked memo ms i = false)
    (hinv : NegInv memo) : NegInv (markMemo memo ms i) := by
  cases hd : memo.data with
  | dense vv => simp [NegInv, markMemo, hd]
  | rle vecs => simp [NegInv, markMemo, hd]
  | negative tbl =>
    simp only [NegInv, hd] at hinv
    obtain ⟨hnd, hrange⟩ := hinv
    simp only [NegInv, markMemo, hd]
    refine ⟨?_, ?_⟩
    · rw [List.nodup_cons]
      refine ⟨?_, hnd⟩
      intro hmem
      simp only [isMarked, hd] at hunmkd
      have hcon : tbl.contains (ms, i) = true := List.elem_iff.mpr hmem
      rw [hcon] at hunmkd
      exact Bool.noConfusion hunmkd
    · intro p hp
      rcases List.mem_cons.mp hp with h | h
      · rw [h]
        exact ⟨hms, hi⟩
      · exact hrange p h

/-- How a continuing step can change the memo table: not at all, or by
marking the top thread's unmarked memo cell. -/
theorem step_memo_cases (P : List Inst) (w : List Nat) (mode : MemoMode)
    (ready r2 : List Thread) (visit v2 : VisitTable) (memo m2 : Memo)
    (hstep : step P w mode ready visit memo = .next r2 v2 m2) :
    m2 = memo ∨ ∃ th rest inst ms, ready = th :: rest ∧ P[th.pc]? = some inst ∧
      inst.memoStateNum = some ms ∧ isMarked memo ms th.sp = false ∧
      m2 = markMemo memo ms th.sp := by
  cases ready with
  | nil => exact absurd hstep (by simp [step])
  | cons th rest =>
    simp only [step] at hstep
    cases hfetch : P[th.pc]? with
    | none =>
      rw [hfetch] at hstep
      exact absurd hstep (by simp)
    | some inst =>
      rw [hfetch] at hstep
      dsimp only at hstep
      have hdisp : ∀ memoX, dispatchStep w inst th rest visit memoX = .next r2 v2 m2 →
          m2 = memoX := fun memoX h2 =>
        (dispatch_next_cases w inst th rest r2 visit v2 memoX m2 h2).2.2.2.1
      cases hmsn : inst.memoStateNum with
      | none =>
        rw [hmsn] at hstep
        cases mode with
        | MEMO_NONE => exact Or.inl (hdisp memo hstep)
        | MEMO_FULL => exact Or.inl (hdisp memo hstep)
        | MEMO_IN_DEGREE_GT1 => exact Or.inl (hdisp memo hstep)
        | MEMO_LOOP_DEST => exact Or.inl (hdisp memo hstep)
      | some ms =>
        rw [hmsn] at hstep
        have hgo2 : (if isMarked memo ms th.sp then
            (if inst.opcode = Opcode.OpMatch then StepOut.done .assertFail
              else .next rest visit memo)
            else dispatchStep w inst th rest visit (markMemo memo ms th.sp)) =
              .next r2 v2 m2 →
            m2 = memo ∨ ∃ (th2 : Thread) (rest2 : List Thread) (inst2 : Inst) (ms2 : Nat),
              th :: rest = th2 :: rest2 ∧
              P[th2.pc]? = some inst2 ∧ inst2.memoStateNum = some ms2 ∧
              isMarked memo ms2 th2.sp = false ∧ m2 = markMemo memo ms2 th2.sp := by
          intro h2
          by_cases hmkd : isMarked memo ms th.sp
          · rw [if_pos hmkd] at h2
            by_cases hmat : inst.opcode = Opcode.OpMatch
            · rw [if_pos hmat] at h2
              exact absurd h2 (by simp)
            · rw [if_neg hmat] at h2
              injection h2 with e1 e2 e3
              exact Or.inl e3.symm
          · rw [if_neg hmkd] at h2
            exact Or.inr ⟨th, rest, inst, ms, rfl, hfetch, hmsn,
              bool_eq_false hmkd, hdisp _ h2⟩
        cases mode with
        | MEMO_NONE => exact Or.inl (hdisp memo hstep)
        | MEMO_FULL => exact hgo2 hstep
        | MEMO_IN_DEGREE_GT1 => exact hgo2 hstep
        | MEMO_LOOP_DEST => exact hgo2 hstep
/-- When a step finishes the run, the NEGATIVE sanity check holds on the
reported memo table. -/
theorem step_neg_done (P : List Inst) (w : List Nat) (mode : MemoMode)
    (ready : List Thread) (visit : VisitTable) (memo : Memo)
    (hB : ∀ t ∈ ready, t.pc < P.length ∧ t.sp ≤ w.length)
    (hmc : memo.nChars = w.length + 1)
    (hms : ∀ (q ms : Nat) (inst : Inst), P[q]? = some inst →
      inst.memoStateNum = some ms → ms < memo.nStates)
    (hinv : NegInv memo)
    (r : BTResult) (hstep : step P w mode ready visit memo = .done r) :
    negStatsOkB r = true := by
  cases ready with
  | nil =>
    simp only [step] at hstep
    injection hstep with h
    rw [← h]
    simp only [negStatsOkB]
    exact negCount_of_inv memo hinv
  | cons th rest =>
    have hth := hB th (List.mem_cons_self _ _)
    simp only [step] at hstep
    cases hfetch : P[th.pc]? with
    | none =>
      rw [hfetch] at hstep
      dsimp only at hstep
      injection hstep with h
      rw [← h]
      rfl
    | some inst =>
      rw [hfetch] at hstep
      dsimp only at hstep
      have hplain : dispatchStep w inst th rest visit memo = .done r →
          negStatsOkB r = true := by
        intro h2
        rcases dispatch_done_cases w inst th rest visit memo r h2 with h | h | ⟨hm, _, _, _⟩
        · rw [h]; rfl
        · rw [h]; rfl
        · rw [hm]
          simp only [negStatsOkB]
          exact negCount_of_inv memo hinv
      cases hmsn : inst.memoStateNum with
      | none =>
        rw [hmsn] at hstep
        cases mode with
        | MEMO_NONE => exact hplain hstep
        | MEMO_FULL => exact hplain hstep
        | MEMO_IN_DEGREE_GT1 => exact hplain hstep
        | MEMO_LOOP_DEST => exact hplain hstep
      | some ms =>
        rw [hmsn] at hstep
        have hgo2 : (if isMarked memo ms th.sp then
            (if inst.opcode = Opcode.OpMatch then StepOut.done .assertFail
              else .next rest visit memo)
            else dispatchStep w inst th rest visit (markMemo memo ms th.sp)) =
              .done r → negStatsOkB r = true := by
          intro h2
          by_cases hmkd : isMarked memo ms th.sp
          · rw [if_pos hmkd] at h2
            by_cases hmat : inst.opcode = Opcode.OpMatch
            · rw [if_pos hmat] at h2
              injection h2 with h
              rw [← h]
              rfl
            · rw [if_neg hmat] at h2
              exact absurd h2 (by simp)
          · rw [if_neg hmkd] at h2
            have hinv2 : NegInv (markMemo memo ms th.sp) :=
              negInv_mark memo ms th.sp (hms th.pc ms inst hfetch hmsn)
                (by rw [hmc]; omega) (bool_eq_false hmkd) hinv
            rcases dispatch_done_cases w inst th rest visit (markMemo memo ms th.sp) r h2 with
              h | h | ⟨hm, _, _, _⟩
            · rw [h]; rfl
            · rw [h]; rfl
            · rw [hm]
              simp only [negStatsOkB]
              exact negCount_of_inv _ hinv2
        cases mode with
        | MEMO_NONE => exact hplain hstep
        | MEMO_FULL => exact hgo2 hstep
        | MEMO_IN_DEGREE_GT1 => exact hgo2 hstep
        | MEMO_LOOP_DEST => exact hgo2 hstep

theorem runBT_negCount (P : List Inst) (w : List Nat) (mode : MemoMode)
    (htg : targetsOkB P = true) (hlast : lastIsMatchB P = true)
    (hsn : stateNumsOkB P = true) (hchars : charsOkB P = true)
    (hmsinj : ∀ (q1 q2 ms : Nat) (i1 i2 : Inst), P[q1]? = some i1 →
      P[q2]? = some i2 → i1.memoStateNum = some ms → i2.memoStateNum = some ms →
      q1 = q2) :
    ∀ (fuel : Nat) (ready : List Thread) (visit : VisitTable) (memo : Memo),
      visit.nStates = P.length → visit.nChars = w.length + 1 →
      memo.nChars = w.length + 1 →
      (∀ (q ms : Nat) (inst : Inst), P[q]? = some inst →
        inst.memoStateNum = some ms → ms < memo.nStates) →
      SafeInv P w ready memo → NegInv memo →
      negStatsOkB (runBT P w mode fuel ready visit memo) = true := by
  intro fuel
  induction fuel with
  | zero => intro ready visit memo _ _ _ _ _ _; rfl
  | succ f ih =>
    intro ready visit memo hvs hvc hmc hms hsafe hneg
    cases hstep : step P w mode ready visit memo with
    | done r =>
      have hrun : runBT P w mode (f + 1) ready visit memo = r := by
        simp only [runBT, hstep]
      rw [hrun]
      exact step_neg_done P w mode ready visit memo hsafe.1 hmc hms hneg r hstep
    | next r2 v2 m2 =>
      have hrun : runBT P w mode (f + 1) ready visit memo =
          runBT P w mode f r2 v2 m2 := by
        simp only [runBT, hstep]
      rw [hrun]
      obtain ⟨hsafe2, hv2s, hv2c⟩ := (step_safe P w mode htg hlast hsn hchars hmsinj
        ready visit memo hvs hvc hsafe).2 r2 v2 m2 hstep
      have hms2 : ∀ (q ms : Nat) (inst : Inst), P[q]? = some inst →
          inst.memoStateNum = some ms → ms < m2.nStates := by
        intro q ms inst hf hm
        rw [step_next_nStates P w mode ready r2 visit v2 memo m2 hstep]
        exact hms q ms inst hf hm
      rcases step_memo_cases P w mode ready r2 visit v2 memo m2 hstep with
        hmm | ⟨th, rest, inst, ms, hready, hf, hm, hunmkd, hmm⟩
      · rw [hmm]
        exact ih r2 v2 memo hv2s hv2c hmc hms (hmm ▸ hsafe2) hneg
      · have hthB : th.sp ≤ w.length := by
          have := hsafe.1 th (by rw [hready]; exact List.mem_cons_self _ _)
          exact this.2
        have hneg2 : NegInv (markMemo memo ms th.sp) :=
          negInv_mark memo ms th.sp (hms th.pc ms inst hf hm)
            (by rw [hmc]; omega) hunmkd hneg
        rw [hmm] at hsafe2 hms2 ⊢
        exact ih r2 v2 (markMemo memo ms th.sp) hv2s hv2c
          (by rw [markMemo_nChars]; exact hmc) hms2 hsafe2 hneg2

/-- **C7.**  Under the NEGATIVE memo encoding, after any simulation — in
every memo mode, on a memo-annotated compiled program with the compiler's
invariants — the number of entries in the hash set equals the number of
(q, i) pairs, over memo state q < nStates and offset i < |input|+1, for
which `isMarked` returns true: each entry is added only for an unmarked
in-rectangle key, so the table stays duplicate-free and the sanity
assertion of the statistics printer holds on every finished run. -/
theorem C7_negative_hash_count (P0 : List Inst) (w : List Nat) (nsubp : Nat)
    (mode : MemoMode) (memo0 : Memo) (fuel : Nat)
    (hlen : 0 < P0.length)
    (htg : targetsOkB (Prog_determineMemoNodes P0 mode) = true)
    (hlast : lastIsMatchB (Prog_determineMemoNodes P0 mode) = true)
    (hsn : stateNumsOkB (Prog_determineMemoNodes P0 mode) = true)
    (hchars : charsOkB (Prog_determineMemoNodes P0 mode) = true)
    (hinit : initMemoTable (nMemoizedStates P0 mode) (w.length + 1) mode
      MemoEncoding.ENCODING_NEGATIVE (w.length + 1) 1 = some memo0) :
    negStatsOkB (backtrack (Prog_determineMemoNodes P0 mode) w nsubp mode memo0 fuel)
      = true := by
  injection hinit with heq
  have hms : ∀ (q ms : Nat) (inst : Inst),
      (Prog_determineMemoNodes P0 mode)[q]? = some inst →
      inst.memoStateNum = some ms → ms < memo0.nStates := by
    intro q ms inst hf hm
    rw [← heq]
    exact determine_ms_lt P0 mode q ms inst hf hm
  have hsafe0 : SafeInv (Prog_determineMemoNodes P0 mode) w
      [⟨0, 0, List.replicate nsubp none⟩] memo0 := by
    constructor
    · intro t ht
      rw [List.mem_singleton] at ht
      rw [ht]
      refine ⟨?_, Nat.zero_le w.length⟩
      show 0 < (Prog_determineMemoNodes P0 mode).length
      rw [determineMemoNodes_length]
      omega
    · intro q ms inst _ _ _ i
      rw [← heq]
      rfl
  have hneg0 : NegInv memo0 := by
    rw [← heq]
    exact ⟨List.nodup_nil, by simp⟩
  exact runBT_negCount (Prog_determineMemoNodes P0 mode) w mode htg hlast hsn hchars
    (determine_ms_inj P0 mode) fuel [⟨0, 0, List.replicate nsubp none⟩]
    (initVisitTable (Prog_determineMemoNodes P0 mode).length (w.length + 1)) memo0
    rfl rfl (by rw [← heq]) hms hsafe0 hneg0

theorem C7_negative_hash_count_witness :
    negStatsOkB (backtrack (Prog_determineMemoNodes
        [⟨Opcode.OpChar 97, 0, none, 1⟩, ⟨Opcode.OpMatch, 1, none, 1⟩]
        MemoMode.MEMO_FULL)
      [97] 2 MemoMode.MEMO_FULL
      ⟨MemoMode.MEMO_FULL, MemoEncoding.ENCODING_NEGATIVE, 2, 2,
        MemoData.negative []⟩ 20) = true :=
  C7_negative_hash_count
    [⟨Opcode.OpChar 97, 0, none, 1⟩, ⟨Opcode.OpMatch, 1, none, 1⟩]
    [97] 2 MemoMode.MEMO_FULL
    ⟨MemoMode.MEMO_FULL, MemoEncoding.ENCODING_NEGATIVE, 2, 2,
      MemoData.negative []⟩ 20
    (by decide) (by decide) (by decide) (by decide) (by decide) (by decide)
end MRE
